import Mathlib

/-!
Verification of the matching repository (stable-marriage and
hospital-resident solvers) against its natural-language specification.

The Python source is shallowly embedded:

* Python dicts (insertion ordered, unique keys) become association lists
  `List (Player × β)`; `d[k]` reads become `pyGet`, `d[k] = v` writes on an
  existing key become `pySet`.
* Python lists become `List Player`; `l.remove(x)` (which raises `ValueError`
  when `x` is absent) becomes `pyRemove : .. → Option ..`; `l.index(x)`
  becomes `pyIndexOf`, guarded by membership where Python would raise.
* Code that can raise an uncaught exception (KeyError / ValueError /
  IndexError) is modelled in the `Option` monad, `none` meaning a crash.
* The two deliberate `ValueError`s of `hospital_resident` (the input
  consistency check and the optimality-option check) are modelled as an
  `Except HRError` value inside the `Option`.
* `while` loops get an explicit fuel parameter; running out of fuel gives
  `none`, so `some` results are exactly the values the Python code returns.

Player identifiers are opaque in the source; they are modelled as `Nat`
(test inputs use non-empty strings, which are truthy in Python, so Python
truthiness of a player is modelled as `True`).
-/

abbrev Player := Nat

abbrev PrefMap := List (Player × List Player)

abbrev CapMap := List (Player × Nat)

/-- Python dict read `d[k]`: first entry with the given key (`none` =
`KeyError`). -/
def pyGet : List (Player × α) → Player → Option α
  | [], _ => none
  | p :: rest, k => if p.1 = k then some p.2 else pyGet rest k

/-- Python dict write `d[k] = v` on an existing key: replace the value of the
first entry with that key, keeping insertion order. -/
def pySet : List (Player × α) → Player → α → List (Player × α)
  | [], _, _ => []
  | p :: rest, k, v => if p.1 = k then (k, v) :: rest else p :: pySet rest k v

/-- Removal of the first occurrence of `x`, as done by Python
`list.remove` once the element is known to be present. -/
def pyErase : List Player → Player → List Player
  | [], _ => []
  | y :: rest, x => if y = x then rest else y :: pyErase rest x

/-- Python `list.remove(x)`: removes the first occurrence, raises
`ValueError` (here `none`) when `x` is absent. -/
def pyRemove (l : List Player) (x : Player) : Option (List Player) :=
  if x ∈ l then some (pyErase l x) else none

/-- Index of the first occurrence (total helper; meaningful when the element
is present). -/
def pyIdx : List Player → Player → Nat
  | [], _ => 0
  | y :: rest, x => if y = x then 0 else pyIdx rest x + 1

/-- Python `list.index(x)`: first index, raises `ValueError` (here `none`)
when absent. -/
def pyIndexOf (l : List Player) (x : Player) : Option Nat :=
  if x ∈ l then some (pyIdx l x) else none

/-- Python `max` over a list of naturals (`none` = `ValueError` on an empty
list). -/
def pyMax : List Nat → Option Nat
  | [] => none
  | x :: rest =>
    match pyMax rest with
    | none => some x
    | some m => some (Nat.max x m)

/-- `a` occurs strictly before `b` in `l` (with both present): the order
"`a` is preferred over `b`" induced by a preference list. -/
def prefersIn (l : List Player) (a b : Player) : Prop :=
  a ∈ l ∧ b ∈ l ∧ pyIdx l a < pyIdx l b

instance (l : List Player) (a b : Player) : Decidable (prefersIn l a b) := by
  unfold prefersIn; infer_instance

/-! ## Stable marriage (src/matching/algorithms/stable_marriage.py) -/

/-- The mutable state of `stable_marriage`'s main loop: the work list
`suitors`, the two (pruned in place) preference dicts and the partial
matching dict. -/
structure SMState where
  queue : List Player
  sprefs : PrefMap
  rprefs : PrefMap
  matching : List (Player × Option Player)
deriving Repr, DecidableEq

/-- `if reviewer in matching.values(): idx = list(matching.values()).index(reviewer);
current_partner = list(matching.keys())[idx]`: key of the first entry whose
value is the given reviewer. -/
def findKeyOfValue (m : List (Player × Option Player)) (r : Player) : Option Player :=
  match m with
  | [] => none
  | p :: rest => if p.2 = some r then some p.1 else findKeyOfValue rest r

/-- The loop `for successor in successors: reviewer_prefs[reviewer].remove(successor);
suitor_prefs[successor].remove(reviewer)` of `stable_marriage`, threading the
reviewer's list and the suitor preference dict. -/
def pruneSuccessors (reviewer : Player) :
    List Player → PrefMap → List Player → Option (List Player × PrefMap)
  | rlist, sp, [] => some (rlist, sp)
  | rlist, sp, succ :: rest => do
    let rlist' ← pyRemove rlist succ
    let sl ← pyGet sp succ
    let sl' ← pyRemove sl reviewer
    pruneSuccessors reviewer rlist' (pySet sp succ sl') rest

/-- One iteration of the `while suitors:` loop of `stable_marriage`
(lines 54-71).  `none` models an uncaught Python exception. -/
def smStep (st : SMState) : Option SMState :=
  match st.queue with
  | [] => none
  | suitor :: rest => do
    let sl ← pyGet st.sprefs suitor
    let reviewer ← sl.head?
    let (m1, q1) :=
      match findKeyOfValue st.matching reviewer with
      | some cp => (pySet st.matching cp none, rest ++ [cp])
      | none => (st.matching, rest)
    let m2 := pySet m1 suitor (some reviewer)
    let rl ← pyGet st.rprefs reviewer
    let idx ← pyIndexOf rl suitor
    let succs := rl.drop (idx + 1)
    let (rl', sp') ← pruneSuccessors reviewer rl st.sprefs succs
    some { queue := q1, sprefs := sp', rprefs := pySet st.rprefs reviewer rl', matching := m2 }

/-- The `while suitors:` loop with explicit fuel; returns the final state. -/
def smRunState : Nat → SMState → Option SMState
  | 0, st => if st.queue.isEmpty then some st else none
  | n + 1, st => if st.queue.isEmpty then some st else smStep st >>= smRunState n

/-- Initial state of `stable_marriage` (lines 51-52): work list and matching
keys are the suitor dict's keys in order, all values `None`. -/
def smInit (sp rp : PrefMap) : SMState :=
  { queue := sp.map (·.1)
    sprefs := sp
    rprefs := rp
    matching := sp.map (fun p => (p.1, none)) }

/-- `stable_marriage(suitor_prefs, reviewer_prefs, optimal)`: swaps the two
dicts when `optimal == "reviewer"` (line 48-49) and runs the proposal loop,
returning the matching dict. -/
def stable_marriage (suitor_prefs reviewer_prefs : PrefMap) (optimal : String)
    (fuel : Nat) : Option (List (Player × Option Player)) :=
  let pair := if optimal == "reviewer" then (reviewer_prefs, suitor_prefs)
              else (suitor_prefs, reviewer_prefs)
  (smRunState fuel (smInit pair.1 pair.2)).map (·.matching)

/-! ## Hospital-resident (src/matching/algorithms/hospital_resident.py) -/

/-- The two deliberate `ValueError`s of the HR entry point. -/
inductive HRError where
  | inputConsistency
  | invalidOptimality
deriving Repr, DecidableEq

/-- Inner loop of `_check_inputs`: `for hospital in resident_prefs[resident]:
if resident not in hospital_prefs[hospital]: raise ValueError(...)`.
`some false` = the `ValueError` is raised, `none` = `KeyError`. -/
def checkResident (hp : PrefMap) (resident : Player) : List Player → Option Bool
  | [] => some true
  | h :: rest => do
    let hl ← pyGet hp h
    if resident ∈ hl then checkResident hp resident rest else some false

/-- `_check_inputs(hospital_prefs, resident_prefs)` (lines 4-13): only the
resident-to-hospital direction is inspected. -/
def checkInputs (hp : PrefMap) : PrefMap → Option Bool
  | [] => some true
  | (r, rl) :: rest => do
    let ok ← checkResident hp r rl
    if ok then checkInputs hp rest else some false

/-- Shared mutable state of the two HR solvers: the two preference dicts
(pruned in place) and the hospital-to-residents matching dict. -/
structure HRState where
  hprefs : PrefMap
  rprefs : PrefMap
  matching : List (Player × List Player)
deriving Repr, DecidableEq

/-- `_get_free_residents(resident_prefs, matching)` (lines 16-25): residents
with a non-empty preference list not occurring in any match sequence. -/
def getFreeResidents (rp : PrefMap) (matching : List (Player × List Player)) :
    List Player :=
  (rp.filter (fun p => !p.2.isEmpty && !(matching.any (fun q => p.1 ∈ q.2)))).map (·.1)

/-- `_get_worst_idx(hospital, hospital_prefs, matching)` (lines 28-38):
largest preference index of a resident of `hospital`'s list currently in its
match sequence; `none` models `KeyError` or `max` of an empty list. -/
def getWorstIdx (hospital : Player) (hp : PrefMap)
    (matching : List (Player × List Player)) : Option Nat := do
  let hl ← pyGet hp hospital
  let ml ← pyGet matching hospital
  pyMax ((hl.filter (fun r => r ∈ ml)).map (fun r => pyIdx hl r))

/-- The pruning loop of `hr_resident_optimal` (lines 105-108): removal from
the hospital's list is unguarded, removal from the resident's list is guarded
by `if hospital in resident_prefs[resident]`. -/
def hrPrune (hospital : Player) :
    List Player → PrefMap → List Player → Option (List Player × PrefMap)
  | hl, rp, [] => some (hl, rp)
  | hl, rp, r :: rest => do
    let hl' ← pyRemove hl r
    let rl ← pyGet rp r
    let rp' := if hospital ∈ rl then pySet rp r (pyErase rl hospital) else rp
    hrPrune hospital hl' rp' rest

/-- One iteration of the `while free_residents:` loop of
`hr_resident_optimal` (lines 90-108). -/
def hrROStep (caps : CapMap) (st : HRState) : Option HRState :=
  match getFreeResidents st.rprefs st.matching with
  | [] => none
  | resident :: _ => do
    let rl ← pyGet st.rprefs resident
    let hospital ← rl.head?
    let ml0 ← pyGet st.matching hospital
    let m1 := pySet st.matching hospital (ml0 ++ [resident])
    let cap ← pyGet caps hospital
    let m2 ← (do
      let ml1 ← pyGet m1 hospital
      if cap < ml1.length then do
        let worst ← getWorstIdx hospital st.hprefs m1
        let hl ← pyGet st.hprefs hospital
        let worstRes ← hl.get? worst
        let ml1' ← pyRemove ml1 worstRes
        pure (pySet m1 hospital ml1')
      else pure m1)
    let ml2 ← pyGet m2 hospital
    if ml2.length = cap then do
      let worst ← getWorstIdx hospital st.hprefs m2
      let hl ← pyGet st.hprefs hospital
      let succs := hl.drop (worst + 1)
      if succs.isEmpty then pure { st with matching := m2 }
      else do
        let (hl', rp') ← hrPrune hospital hl st.rprefs succs
        pure { hprefs := pySet st.hprefs hospital hl', rprefs := rp', matching := m2 }
    else pure { st with matching := m2 }

/-- The `while free_residents:` loop with explicit fuel. -/
def hrROLoop (caps : CapMap) : Nat → HRState → Option HRState
  | 0, st => if (getFreeResidents st.rprefs st.matching).isEmpty then some st else none
  | n + 1, st =>
    if (getFreeResidents st.rprefs st.matching).isEmpty then some st
    else hrROStep caps st >>= hrROLoop caps n

/-- Stable insertion into a list sorted ascending by `key` (ties keep the
existing element first, as Python's stable `sorted` does). -/
def insertByKey (key : Player → Nat) (x : Player) : List Player → List Player
  | [] => [x]
  | y :: ys => if key x < key y then x :: y :: ys else y :: insertByKey key x ys

/-- Ascending stable sort by `key`, modelling Python `sorted(l, key=key)`. -/
def sortByKey (key : Player → Nat) : List Player → List Player
  | [] => []
  | x :: xs => insertByKey key x (sortByKey key xs)

/-- The post-processing loop of `hr_resident_optimal` (lines 112-114):
`sorted(matches, key=hospital_prefs[hospital].index)`; the `index` key
function raises (`none`) when a match is not in the hospital's list. -/
def hrSortMatching (hp : PrefMap) : List (Player × List Player) →
    Option (List (Player × List Player))
  | [] => some []
  | (h, ml) :: rest => do
    let hl ← pyGet hp h
    if ml.all (· ∈ hl) then do
      let rest' ← hrSortMatching hp rest
      pure ((h, sortByKey (fun r => pyIdx hl r) ml) :: rest')
    else none

/-- Initial matching of both HR solvers: hospital keys in order, empty
sequences. -/
def hrInit (hp rp : PrefMap) : HRState :=
  { hprefs := hp, rprefs := rp, matching := hp.map (fun p => (p.1, [])) }

/-- `hr_resident_optimal(hospital_prefs, resident_prefs, capacities)`
(lines 41-116): proposal loop, then per-hospital sort of the matching. -/
def hr_resident_optimal (hp rp : PrefMap) (caps : CapMap) (fuel : Nat) :
    Option (List (Player × List Player)) := do
  let st ← hrROLoop caps fuel (hrInit hp rp)
  hrSortMatching st.hprefs st.matching

/-- `_get_free_hospitals(hospital_prefs, capacities, matching)`
(lines 119-132): hospitals under capacity that rank a resident not in their
match sequence.  The `capacities[hospital]` read can raise `KeyError`, hence
`Option`. -/
def getFreeHospitals (caps : CapMap) (matching : List (Player × List Player)) :
    PrefMap → Option (List Player)
  | [] => some []
  | (h, hl) :: rest => do
    let ml ← pyGet matching h
    let cap ← pyGet caps h
    let rest' ← getFreeHospitals caps matching rest
    if ml.length < cap ∧ hl.any (fun r => r ∉ ml) then pure (h :: rest')
    else pure rest'

/-- The pruning loop of `hr_hospital_optimal` (lines 179-181): both removals
are unguarded `list.remove` calls. -/
def hoPrune (resident : Player) :
    List Player → PrefMap → List Player → Option (List Player × PrefMap)
  | rl, hp, [] => some (rl, hp)
  | rl, hp, h :: rest => do
    let hl ← pyGet hp h
    let hl' ← pyRemove hl resident
    let rl' ← pyRemove rl h
    hoPrune resident rl' (pySet hp h hl') rest

/-- One iteration of the `while free_hospitals:` loop of
`hr_hospital_optimal` (lines 162-181). -/
def hrHOStep (caps : CapMap) (st : HRState) : Option HRState := do
  let frees ← getFreeHospitals caps st.matching st.hprefs
  match frees with
  | [] => none
  | hospital :: _ => do
    let hl ← pyGet st.hprefs hospital
    let mlh ← pyGet st.matching hospital
    let resident ← (hl.filter (fun r => r ∉ mlh)).head?
    let m1 := st.matching.map
      (fun p => if resident ∈ p.2 then (p.1, pyErase p.2 resident) else p)
    let mlh1 ← pyGet m1 hospital
    let m2 := pySet m1 hospital (mlh1 ++ [resident])
    let rl ← pyGet st.rprefs resident
    let idx ← pyIndexOf rl hospital
    let succs := rl.drop (idx + 1)
    if succs.isEmpty then pure { st with matching := m2 }
    else do
      let (rl', hp') ← hoPrune resident rl st.hprefs succs
      pure { hprefs := hp', rprefs := pySet st.rprefs resident rl', matching := m2 }

/-- The `while free_hospitals:` loop with explicit fuel (the loop condition
itself recomputes the free list, which can raise). -/
def hrHOLoop (caps : CapMap) : Nat → HRState → Option HRState
  | 0, st => do
    let frees ← getFreeHospitals caps st.matching st.hprefs
    if frees.isEmpty then some st else none
  | n + 1, st => do
    let frees ← getFreeHospitals caps st.matching st.hprefs
    if frees.isEmpty then some st
    else hrHOStep caps st >>= hrHOLoop caps n

/-- `hr_hospital_optimal(hospital_prefs, resident_prefs, capacities)`
(lines 135-187). -/
def hr_hospital_optimal (hp rp : PrefMap) (caps : CapMap) (fuel : Nat) :
    Option (List (Player × List Player)) :=
  (hrHOLoop caps fuel (hrInit hp rp)).map (·.matching)

/-- `hospital_resident(hospital_prefs, resident_prefs, capacities, optimal)`
(lines 190-237): consistency check first, then dispatch on `optimal`,
unknown options raising `ValueError`. -/
def hospital_resident (hp rp : PrefMap) (caps : CapMap) (optimal : String)
    (fuel : Nat) : Option (Except HRError (List (Player × List Player))) := do
  let ok ← checkInputs hp rp
  if !ok then pure (.error .inputConsistency)
  else if optimal == "resident" then (hr_resident_optimal hp rp caps fuel).map .ok
  else if optimal == "hospital" then (hr_hospital_optimal hp rp caps fuel).map .ok
  else pure (.error .invalidOptimality)

/-! ## Specification-level predicates and measures -/

/-- Pointwise domination of preference dicts: every list of `d'` is a sublist
(in-order subselection) of the corresponding list of `d` — "preference lists
are only ever pruned, never re-grown or reordered". -/
def prefsLE (d' d : PrefMap) : Prop :=
  ∀ k l', pyGet d' k = some l' → ∃ l, pyGet d k = some l ∧ l'.Sublist l

/-- A well-formed SM instance in the sense of the spec: distinct players on
each side, and complete strict preference lists over equal-sized sides. -/
structure SMComplete (sp rp : PrefMap) : Prop where
  snodup : (sp.map (·.1)).Nodup
  rnodup : (rp.map (·.1)).Nodup
  slists : ∀ p ∈ sp, p.2.Nodup ∧ (∀ x ∈ p.2, x ∈ rp.map (·.1)) ∧
    (∀ x ∈ rp.map (·.1), x ∈ p.2)
  rlists : ∀ p ∈ rp, p.2.Nodup ∧ (∀ x ∈ p.2, x ∈ sp.map (·.1)) ∧
    (∀ x ∈ sp.map (·.1), x ∈ p.2)
  eqsize : sp.length = rp.length

/-- Invariants of the `stable_marriage` loop relative to the original
preference dicts `sp0`, `rp0`. -/
structure SMInv (sp0 rp0 : PrefMap) (st : SMState) : Prop where
  skeys : st.sprefs.map (·.1) = sp0.map (·.1)
  rkeys : st.rprefs.map (·.1) = rp0.map (·.1)
  mkeys : st.matching.map (·.1) = sp0.map (·.1)
  ssub : prefsLE st.sprefs sp0
  rsub : prefsLE st.rprefs rp0
  mc : ∀ s r sl rl, pyGet st.sprefs s = some sl → pyGet st.rprefs r = some rl →
    (r ∈ sl ↔ s ∈ rl)
  queue_sub : ∀ s ∈ st.queue, s ∈ sp0.map (·.1)
  queue_nodup : st.queue.Nodup
  queue_free : ∀ s ∈ sp0.map (·.1), (s ∈ st.queue ↔ pyGet st.matching s = some none)
  matched_head : ∀ s r, pyGet st.matching s = some (some r) →
    ∃ sl, pyGet st.sprefs s = some sl ∧ sl.head? = some r
  matched_last : ∀ s r, pyGet st.matching s = some (some r) →
    ∃ rl, pyGet st.rprefs r = some rl ∧ s ∈ rl ∧
      ∀ y ∈ rl, y ≠ s → pyIdx rl y < pyIdx rl s
  inj : ∀ s1 s2 r, pyGet st.matching s1 = some (some r) →
    pyGet st.matching s2 = some (some r) → s1 = s2
  removed_better : ∀ s r sl0 sl, pyGet sp0 s = some sl0 →
    pyGet st.sprefs s = some sl → r ∈ sl0 → r ∉ sl →
    ∃ s' rl0, pyGet st.matching s' = some (some r) ∧ pyGet rp0 r = some rl0 ∧
      s' ∈ rl0 ∧ s ∈ rl0 ∧ pyIdx rl0 s' < pyIdx rl0 s

/-- Total size of the preference lists of a dict. -/
def listTotal (d : PrefMap) : Nat := (d.map (fun p => p.2.length)).sum

/-- Termination measure of the `stable_marriage` loop. -/
def smMeasure (st : SMState) : Nat := listTotal st.sprefs + st.queue.length

/-- A blocking pair of a returned SM matching `M` with respect to the
original preference dicts: suitor `s` and reviewer `r`, not matched to each
other, where `s` prefers `r` over the reviewer assigned to `s` and `r`
prefers `s` over the suitor assigned to `r`. -/
def smBlockingPair (sp0 rp0 : PrefMap) (M : List (Player × Option Player))
    (s r : Player) : Prop :=
  ∃ sl rl rs sr, pyGet sp0 s = some sl ∧ pyGet rp0 r = some rl ∧
    pyGet M s = some (some rs) ∧ findKeyOfValue M r = some sr ∧
    r ≠ rs ∧ prefersIn sl r rs ∧ prefersIn rl s sr

/-- A well-formed HR instance in the sense of the spec: distinct players,
strict preference lists over known members of the other side, mutual
ranking consistency, and a positive capacity for every hospital. -/
structure HRConsistent (hp rp : PrefMap) (caps : CapMap) : Prop where
  hnodup : (hp.map (·.1)).Nodup
  rnodup : (rp.map (·.1)).Nodup
  hlists : ∀ p ∈ hp, p.2.Nodup ∧ ∀ x ∈ p.2, x ∈ rp.map (·.1)
  rlists : ∀ p ∈ rp, p.2.Nodup ∧ ∀ x ∈ p.2, x ∈ hp.map (·.1)
  mcInit : ∀ h r hl rl, pyGet hp h = some hl → pyGet rp r = some rl →
    (r ∈ hl ↔ h ∈ rl)
  capskeys : ∀ h ∈ hp.map (·.1), ∃ c, pyGet caps h = some c ∧ 1 ≤ c

/-- `n` successful iterations of a step function: the states `iterOpt f n st`
are exactly the intermediate states a run starting at `st` passes through. -/
def iterOpt (f : α → Option α) : Nat → α → Option α
  | 0, st => some st
  | n + 1, st => f st >>= iterOpt f n

/-- A resident currently occurring in some hospital's match sequence. -/
def matchedB (m : List (Player × List Player)) (r : Player) : Bool :=
  m.any (fun q => r ∈ q.2)

/-- Termination measure of both HR loops: total size of both preference
dicts plus the number of unmatched residents. -/
def hrMeasure (st : HRState) : Nat :=
  listTotal st.hprefs + listTotal st.rprefs +
    ((st.rprefs.map (·.1)).filter (fun r => !(matchedB st.matching r))).length

/-- Capacity respect: every hospital's match sequence fits its capacity. -/
def capOK (caps : CapMap) (m : List (Player × List Player)) : Prop :=
  ∀ h ml c, pyGet m h = some ml → pyGet caps h = some c → ml.length ≤ c

/-- Invariants shared by the `hr_resident_optimal` loop, relative to the
original dicts `hp0`, `rp0`. -/
structure HRInvR (hp0 rp0 : PrefMap) (caps : CapMap) (st : HRState) : Prop where
  caple : capOK caps st.matching
  hkeys : st.hprefs.map (·.1) = hp0.map (·.1)
  rkeys : st.rprefs.map (·.1) = rp0.map (·.1)
  mkeys : st.matching.map (·.1) = hp0.map (·.1)
  hsub : prefsLE st.hprefs hp0
  rsub : prefsLE st.rprefs rp0
  mc : ∀ h r hl rl, pyGet st.hprefs h = some hl → pyGet st.rprefs r = some rl →
    (r ∈ hl ↔ h ∈ rl)
  matched_sub : ∀ h ml, pyGet st.matching h = some ml →
    ∃ hl, pyGet st.hprefs h = some hl ∧ ∀ r ∈ ml, r ∈ hl
  matched_nodup : ∀ h ml, pyGet st.matching h = some ml → ml.Nodup
  matched_uniq : ∀ h1 h2 ml1 ml2 r, pyGet st.matching h1 = some ml1 →
    pyGet st.matching h2 = some ml2 → r ∈ ml1 → r ∈ ml2 → h1 = h2

/-- Invariants of the `hr_hospital_optimal` loop, relative to the original
dicts `hp0`, `rp0`.  `matched_take` records that each hospital's match
sequence is exactly an initial segment of its current (pruned) preference
list, in that order. -/
structure HRInvH (hp0 rp0 : PrefMap) (st : HRState) : Prop where
  hkeys : st.hprefs.map (·.1) = hp0.map (·.1)
  rkeys : st.rprefs.map (·.1) = rp0.map (·.1)
  mkeys : st.matching.map (·.1) = hp0.map (·.1)
  hsub : prefsLE st.hprefs hp0
  rsub : prefsLE st.rprefs rp0
  mc : ∀ h r hl rl, pyGet st.hprefs h = some hl → pyGet st.rprefs r = some rl →
    (r ∈ hl ↔ h ∈ rl)
  matched_take : ∀ h ml, pyGet st.matching h = some ml →
    ∃ hl, pyGet st.hprefs h = some hl ∧ ml = hl.take ml.length
  matched_uniq : ∀ h1 h2 ml1 ml2 r, pyGet st.matching h1 = some ml1 →
    pyGet st.matching h2 = some ml2 → r ∈ ml1 → r ∈ ml2 → h1 = h2
  matched_last : ∀ h r ml, pyGet st.matching h = some ml → r ∈ ml →
    ∃ rl, pyGet st.rprefs r = some rl ∧ h ∈ rl ∧
      ∀ y ∈ rl, y ≠ h → pyIdx rl y < pyIdx rl h

/-! ## Concrete instances used by witnesses and counterexamples -/

/-- SM scenario of spec section 8: suitors A,B,C are 1,2,3, reviewers D,E,F
are 4,5,6. -/
def exSp : PrefMap := [(1, [4, 5, 6]), (2, [4, 6, 5]), (3, [5, 4, 6])]

/-- Reviewer side of the SM scenario. -/
def exRp : PrefMap := [(4, [2, 1, 3]), (5, [3, 1, 2]), (6, [1, 2, 3])]

/-- The matching computed for the SM scenario. -/
def exM : List (Player × Option Player) := [(1, some 6), (2, some 4), (3, some 5)]

/-- Residents of the repository test `test_raises_extra_rank_error`:
A,B,C,D are 1,2,3,4; hospitals X,Y,Z are 11,12,13. -/
def exRp2 : PrefMap := [(1, [12]), (2, [12, 11]), (3, [12, 13, 11]), (4, [11, 12, 13])]

/-- Hospitals of `test_raises_extra_rank_error`: Z (13) ranks A (1), but A
does not rank Z. -/
def exHp2 : PrefMap := [(11, [3, 2, 4]), (12, [1, 2, 4, 3]), (13, [3, 4, 1])]

/-- Capacities of `test_raises_extra_rank_error`: 2 for every hospital. -/
def exCaps2 : CapMap := [(11, 2), (12, 2), (13, 2)]

/-- A small mutually consistent HR instance: residents 1,2,3, hospitals
11,12; used by witnesses. -/
def exHp4 : PrefMap := [(11, [1, 2, 3]), (12, [2, 3])]

/-- Resident side of the small consistent HR instance. -/
def exRp4 : PrefMap := [(1, [11]), (2, [12, 11]), (3, [11, 12])]

/-- Capacities of the small consistent HR instance. -/
def exCaps4 : CapMap := [(11, 2), (12, 1)]

/-- An HR instance violating mutual consistency: resident 1 ranks hospital
11, which does not rank resident 1 back. -/
def exHpBad : PrefMap := [(11, [2]), (12, [1, 2])]

/-- Resident side of the inconsistent HR instance. -/
def exRpBad : PrefMap := [(1, [11, 12]), (2, [11, 12])]

/-- A sequence is ordered ascending by rank in the preference list `l0`. -/
def sortedByRank (l0 ml : List Player) : Prop :=
  ml.Pairwise (fun a b => pyIdx l0 a < pyIdx l0 b)

/-- Every hospital named in a resident's preference list is a key of the
hospital dict (so `_check_inputs` raises no `KeyError`). -/
def hrKeysOK (hp rp : PrefMap) : Prop :=
  ∀ p ∈ rp, ∀ h ∈ p.2, ∃ hl, pyGet hp h = some hl

/-- The input violates mutual ranking consistency in the direction that
`_check_inputs` inspects: some resident ranks a hospital that does not rank
the resident back. -/
def hrViolation (hp rp : PrefMap) : Prop :=
  ∃ p ∈ rp, ∃ h ∈ p.2, ∃ hl, pyGet hp h = some hl ∧ p.1 ∉ hl

/-! ## Basic lemmas about the dict and list primitives -/

theorem pyGet_key {d : List (Player × α)} {k : Player} {v : α}
    (h : pyGet d k = some v) : k ∈ d.map (·.1) := by
  induction d with
  | nil => simp [pyGet] at h
  | cons p rest ih =>
    simp only [pyGet] at h
    by_cases hk : p.1 = k
    · simp [hk]
    · simp [hk] at h
      simp [ih h]

theorem pyGet_mem {d : List (Player × α)} {k : Player} {v : α}
    (h : pyGet d k = some v) : (k, v) ∈ d := by
  induction d with
  | nil => simp [pyGet] at h
  | cons p rest ih =>
    simp only [pyGet] at h
    by_cases hk : p.1 = k
    · simp [hk] at h
      cases p with
      | mk a b =>
        simp only at hk h
        subst hk
        subst h
        exact List.mem_cons_self _ _
    · simp [hk] at h
      simp [ih h]

theorem pyGet_of_key {d : List (Player × α)} {k : Player}
    (h : k ∈ d.map (·.1)) : ∃ v, pyGet d k = some v := by
  induction d with
  | nil => simp at h
  | cons p rest ih =>
    rw [List.map_cons, List.mem_cons] at h
    simp only [pyGet]
    by_cases hk : p.1 = k
    · exact ⟨p.2, by simp [hk]⟩
    · have h2 : k ∈ rest.map (·.1) := by
        rcases h with h | h
        · exact absurd h.symm hk
        · exact h
      simpa [hk] using ih h2

theorem pyGet_of_mem_nodup {d : List (Player × α)} {k : Player} {v : α}
    (hnd : (d.map (·.1)).Nodup) (h : (k, v) ∈ d) : pyGet d k = some v := by
  induction d with
  | nil => simp at h
  | cons p rest ih =>
    simp only [List.map_cons, List.nodup_cons] at hnd
    simp only [List.mem_cons] at h
    rcases h with h | h
    · simp [pyGet, ← h]
    · have hk : p.1 ≠ k := by
        intro hk
        exact hnd.1 (by simpa [hk] using List.mem_map_of_mem (·.1) h)
      simp [pyGet, hk, ih hnd.2 h]

theorem pySet_map_fst (d : List (Player × α)) (k : Player) (v : α) :
    (pySet d k v).map (·.1) = d.map (·.1) := by
  induction d with
  | nil => simp [pySet]
  | cons p rest ih =>
    by_cases hk : p.1 = k
    · simp [pySet, hk]
    · simp [pySet, hk, ih]

theorem pyGet_pySet (d : List (Player × α)) (k x : Player) (v : α) :
    pyGet (pySet d k v) x =
      if x = k then (pyGet d k).map (fun _ => v) else pyGet d x := by
  induction d with
  | nil => simp [pySet, pyGet]
  | cons p rest ih =>
    by_cases hk : p.1 = k
    · by_cases hx : x = k
      · simp [pySet, pyGet, hk, hx]
      · simp [pySet, pyGet, hk, hx, Ne.symm hx]
    · by_cases hx : x = k
      · subst hx
        simp [pySet, pyGet, hk, ih]
      · by_cases hpx : p.1 = x
        · simp [pySet, pyGet, hk, hpx, hx]
        · simp [pySet, pyGet, hk, hpx, hx, ih]

theorem pyGet_pySet_self {d : List (Player × α)} {k : Player} {w : α} (v : α)
    (h : pyGet d k = some w) : pyGet (pySet d k v) k = some v := by
  simp [pyGet_pySet, h]

theorem pyGet_pySet_ne (d : List (Player × α)) {k x : Player} (v : α)
    (h : x ≠ k) : pyGet (pySet d k v) x = pyGet d x := by
  simp [pyGet_pySet, h]

theorem pyGet_map_value (d : List (Player × α)) (g : α → β) (k : Player) :
    pyGet (d.map (fun p => (p.1, g p.2))) k = (pyGet d k).map g := by
  induction d with
  | nil => simp [pyGet]
  | cons p rest ih =>
    by_cases hk : p.1 = k
    · simp [pyGet, hk]
    · simp [pyGet, hk, ih]

theorem pyErase_sublist (l : List Player) (x : Player) : (pyErase l x).Sublist l := by
  induction l with
  | nil => simp [pyErase]
  | cons y rest ih =>
    by_cases hy : y = x
    · simp [pyErase, hy]
    · simpa [pyErase, hy] using ih.cons₂ y

theorem length_pyErase {l : List Player} {x : Player} (h : x ∈ l) :
    (pyErase l x).length + 1 = l.length := by
  induction l with
  | nil => simp at h
  | cons y rest ih =>
    by_cases hy : y = x
    · simp [pyErase, hy]
    · have hx : x ∈ rest := by
        rcases List.mem_cons.mp h with h | h
        · exact absurd h.symm hy
        · exact h
      simp [pyErase, hy, ih hx]

theorem mem_pyErase_of_ne {l : List Player} {x y : Player} (h : y ≠ x) :
    y ∈ pyErase l x ↔ y ∈ l := by
  induction l with
  | nil => simp [pyErase]
  | cons z rest ih =>
    by_cases hz : z = x
    · subst hz
      simp [pyErase, h, Ne.symm h]
    · simp [pyErase, hz, ih]

theorem eq_of_not_mem_pyErase {l : List Player} {x y : Player}
    (h1 : y ∈ l) (h2 : y ∉ pyErase l x) : y = x := by
  by_contra hne
  exact h2 ((mem_pyErase_of_ne hne).mpr h1)

theorem not_mem_pyErase_self {l : List Player} {x : Player} (hnd : l.Nodup) :
    x ∉ pyErase l x := by
  induction l with
  | nil => simp [pyErase]
  | cons y rest ih =>
    simp only [List.nodup_cons] at hnd
    by_cases hy : y = x
    · subst hy
      simp [pyErase, hnd.1]
    · simp [pyErase, hy, Ne.symm hy]
      exact ih hnd.2

theorem pyErase_head {l : List Player} {x h : Player}
    (hh : l.head? = some h) (hne : h ≠ x) : (pyErase l x).head? = some h := by
  cases l with
  | nil => simp at hh
  | cons y rest =>
    simp at hh
    subst hh
    simp [pyErase, hne]

theorem pyErase_not_mem {l : List Player} {x : Player} (h : x ∉ l) :
    pyErase l x = l := by
  induction l with
  | nil => simp [pyErase]
  | cons y rest ih =>
    simp only [List.mem_cons, not_or] at h
    simp [pyErase, Ne.symm h.1, ih h.2]

theorem pyIdx_lt_length {l : List Player} {x : Player} (h : x ∈ l) :
    pyIdx l x < l.length := by
  induction l with
  | nil => simp at h
  | cons y rest ih =>
    by_cases hy : y = x
    · simp [pyIdx, hy]
    · have hx : x ∈ rest := by
        rcases List.mem_cons.mp h with h | h
        · exact absurd h.symm hy
        · exact h
      have := ih hx
      simp only [pyIdx, hy, if_false, List.length_cons]
      omega

theorem getElem_pyIdx {l : List Player} {x : Player} (h : x ∈ l) :
    l[pyIdx l x]? = some x := by
  induction l with
  | nil => simp at h
  | cons y rest ih =>
    by_cases hy : y = x
    · simp [pyIdx, hy]
    · have hx : x ∈ rest := by
        rcases List.mem_cons.mp h with h | h
        · exact absurd h.symm hy
        · exact h
      simpa [pyIdx, hy] using ih hx

theorem get_pyIdx {l : List Player} {x : Player} (h : x ∈ l) :
    l.get? (pyIdx l x) = some x := by
  rw [List.get?_eq_getElem?]
  exact getElem_pyIdx h

theorem pyIdx_inj {l : List Player} {x y : Player} (hx : x ∈ l) (hy : y ∈ l)
    (h : pyIdx l x = pyIdx l y) : x = y := by
  have h1 := getElem_pyIdx hx
  rw [h] at h1
  have h2 := getElem_pyIdx hy
  rw [h1] at h2
  exact Option.some_injective _ h2

theorem mem_drop_pyIdx {l : List Player} {x y : Player} (hnd : l.Nodup)
    (hx : x ∈ l) : y ∈ l.drop (pyIdx l x + 1) ↔ y ∈ l ∧ pyIdx l x < pyIdx l y := by
  induction l with
  | nil => simp at hx
  | cons z rest ih =>
    simp only [List.nodup_cons] at hnd
    by_cases hz : z = x
    · subst hz
      simp only [pyIdx, if_pos rfl, Nat.zero_add, List.drop_one, List.tail_cons]
      constructor
      · intro hmem
        have hyz : y ≠ z := fun h => hnd.1 (h ▸ hmem)
        constructor
        · exact List.mem_cons_of_mem _ hmem
        · simp [pyIdx, Ne.symm hyz]
      · rintro ⟨hmem, hlt⟩
        rcases List.mem_cons.mp hmem with h | h
        · subst h
          simp [pyIdx] at hlt
        · exact h
    · have hx2 : x ∈ rest := by
        rcases List.mem_cons.mp hx with h | h
        · exact absurd h.symm hz
        · exact h
      simp only [pyIdx, hz, if_false]
      rw [show pyIdx rest x + 1 + 1 = (pyIdx rest x + 1) + 1 by rfl]
      rw [List.drop_succ_cons]
      rw [ih hnd.2 hx2]
      constructor
      · rintro ⟨hmem, hlt⟩
        have hyz : y ≠ z := fun h => hnd.1 (h ▸ hmem)
        refine ⟨List.mem_cons_of_mem _ hmem, ?_⟩
        simp only [pyIdx, Ne.symm hyz, if_false]
        omega
      · rintro ⟨hmem, hlt⟩
        rcases List.mem_cons.mp hmem with h | h
        · subst h
          simp [pyIdx] at hlt
        · refine ⟨h, ?_⟩
          have hyz : y ≠ z := fun hh => hnd.1 (hh ▸ h)
          simp only [pyIdx, Ne.symm hyz, if_false] at hlt
          omega

theorem sublist_pyIdx_lt {l' l : List Player} {a b : Player}
    (hs : l'.Sublist l) (hnd : l.Nodup) (ha : a ∈ l') (hb : b ∈ l')
    (h : pyIdx l' a < pyIdx l' b) : pyIdx l a < pyIdx l b := by
  induction hs with
  | slnil => simp at ha
  | cons y hs ih =>
    rename_i l1 l2
    simp only [List.nodup_cons] at hnd
    have hay : a ≠ y := fun hh => hnd.1 (hh ▸ hs.subset ha)
    have hby : b ≠ y := fun hh => hnd.1 (hh ▸ hs.subset hb)
    have := ih hnd.2 ha hb h
    simp only [pyIdx, Ne.symm hay, Ne.symm hby, if_false]
    omega
  | cons₂ y hs ih =>
    rename_i l1 l2
    simp only [List.nodup_cons] at hnd
    by_cases hay : a = y
    · subst hay
      have hba : b ≠ a := by
        intro hh
        subst hh
        simp at h
      have e1 : pyIdx (a :: l2) a = 0 := by simp [pyIdx]
      have e2 : pyIdx (a :: l2) b = pyIdx l2 b + 1 := by simp [pyIdx, Ne.symm hba]
      omega
    · by_cases hby : b = y
      · subst hby
        have e1 : pyIdx (b :: l1) b = 0 := by simp [pyIdx]
        have e2 : pyIdx (b :: l1) a = pyIdx l1 a + 1 := by simp [pyIdx, Ne.symm hay]
        omega
      · have ha2 : a ∈ l1 := by
          rcases List.mem_cons.mp ha with h | h
          · exact absurd h hay
          · exact h
        have hb2 : b ∈ l1 := by
          rcases List.mem_cons.mp hb with h | h
          · exact absurd h hby
          · exact h
        simp only [pyIdx, Ne.symm hay, Ne.symm hby, if_false] at h ⊢
        have := ih hnd.2 ha2 hb2 (by omega)
        omega

theorem sublist_pyIdx_iff {l' l : List Player} {a b : Player}
    (hs : l'.Sublist l) (hnd : l.Nodup) (ha : a ∈ l') (hb : b ∈ l') :
    pyIdx l' a < pyIdx l' b ↔ pyIdx l a < pyIdx l b := by
  constructor
  · exact sublist_pyIdx_lt hs hnd ha hb
  · intro h
    rcases Nat.lt_trichotomy (pyIdx l' a) (pyIdx l' b) with hlt | heq | hgt
    · exact hlt
    · exact absurd (pyIdx_inj ha hb heq) (by rintro rfl; omega)
    · have := sublist_pyIdx_lt hs hnd hb ha hgt
      omega

theorem pairwise_pyIdx_of_sublist {l' l : List Player} (hs : l'.Sublist l)
    (hnd : l.Nodup) : l'.Pairwise (fun a b => pyIdx l a < pyIdx l b) := by
  have base : ∀ t : List Player, t.Nodup →
      t.Pairwise (fun a b => pyIdx t a < pyIdx t b) := by
    intro t
    induction t with
    | nil => simp
    | cons y rest ih =>
      intro hnd2
      simp only [List.nodup_cons] at hnd2
      refine List.Pairwise.cons ?_ ?_
      · intro b hb
        have hby : b ≠ y := fun hh => hnd2.1 (hh ▸ hb)
        simp [pyIdx, Ne.symm hby]
      · have := ih hnd2.2
        refine List.Pairwise.imp_of_mem ?_ this
        intro a b ha hb hlt
        have hay : a ≠ y := fun hh => hnd2.1 (hh ▸ ha)
        have hby : b ≠ y := fun hh => hnd2.1 (hh ▸ hb)
        simp only [pyIdx, Ne.symm hay, Ne.symm hby, if_false]
        omega
  exact (base l hnd).sublist hs

theorem pyMax_eq_none {l : List Nat} : pyMax l = none ↔ l = [] := by
  cases l with
  | nil => simp [pyMax]
  | cons x rest =>
    simp only [pyMax]
    cases pyMax rest <;> simp

theorem pyMax_mem {l : List Nat} {m : Nat} (h : pyMax l = some m) : m ∈ l := by
  induction l with
  | nil => simp [pyMax] at h
  | cons x rest ih =>
    simp only [pyMax] at h
    cases hr : pyMax rest with
    | none =>
      rw [hr] at h
      have h3 : x = m := Option.some.inj h
      simp [← h3]
    | some m2 =>
      rw [hr] at h
      have h3 : Nat.max x m2 = m := Option.some.inj h
      have h4 : max x m2 = m := h3
      have hor : m = x ∨ m = m2 := by
        rcases max_choice x m2 with hh | hh <;> omega
      rcases hor with h1 | h1
      · simp [h1]
      · exact List.mem_cons_of_mem _ (ih (by rw [hr, h1]))

theorem pyMax_ge {l : List Nat} {m : Nat} (h : pyMax l = some m) :
    ∀ y ∈ l, y ≤ m := by
  induction l generalizing m with
  | nil => simp
  | cons x rest ih =>
    simp only [pyMax] at h
    intro y hy
    cases hr : pyMax rest with
    | none =>
      rw [hr] at h
      have h3 : x = m := Option.some.inj h
      have : rest = [] := pyMax_eq_none.mp hr
      subst this
      simp at hy
      omega
    | some m2 =>
      rw [hr] at h
      have h3 : Nat.max x m2 = m := Option.some.inj h
      have h4 : max x m2 = m := h3
      have h5 := le_max_left x m2
      have h6 := le_max_right x m2
      rcases List.mem_cons.mp hy with hh | hh
      · omega
      · have := ih hr y hh
        omega

theorem pyMax_of_ne_nil {l : List Nat} (h : l ≠ []) : ∃ m, pyMax l = some m := by
  cases hm : pyMax l with
  | none => exact absurd (pyMax_eq_none.mp hm) h
  | some m => exact ⟨m, rfl⟩

theorem findKeyOfValue_mem {m : List (Player × Option Player)} {r k : Player}
    (h : findKeyOfValue m r = some k) : (k, some r) ∈ m := by
  induction m with
  | nil => simp [findKeyOfValue] at h
  | cons p rest ih =>
    simp only [findKeyOfValue] at h
    by_cases hp : p.2 = some r
    · simp [hp] at h
      cases p with
      | mk a b =>
        simp only at hp h
        subst hp
        subst h
        exact List.mem_cons_self _ _
    · simp [hp] at h
      exact List.mem_cons_of_mem _ (ih h)

theorem findKeyOfValue_none {m : List (Player × Option Player)} {r : Player}
    (h : findKeyOfValue m r = none) : ∀ p ∈ m, p.2 ≠ some r := by
  induction m with
  | nil => simp
  | cons p rest ih =>
    simp only [findKeyOfValue] at h
    by_cases hp : p.2 = some r
    · simp [hp] at h
    · simp [hp] at h
      intro q hq
      rcases List.mem_cons.mp hq with hh | hh
      · subst hh
        exact hp
      · exact ih h q hh

theorem nodup_subset_length {l1 l2 : List Player} (hnd : l1.Nodup)
    (hsub : ∀ x ∈ l1, x ∈ l2) : l1.length ≤ l2.length := by
  have h1 : l1.toFinset.card = l1.length := List.toFinset_card_of_nodup hnd
  have h2 : l1.toFinset ⊆ l2.toFinset := by
    intro x hx
    rw [List.mem_toFinset] at hx ⊢
    exact hsub x hx
  have h3 : l2.toFinset.card ≤ l2.length := l2.toFinset_card_le
  have := Finset.card_le_card h2
  omega

theorem mem_of_nodup_subset_ge_length {l1 l2 : List Player} (h1 : l1.Nodup)
    (h2 : l2.Nodup) (hsub : ∀ x ∈ l1, x ∈ l2) (hlen : l2.length ≤ l1.length) :
    ∀ x ∈ l2, x ∈ l1 := by
  have e1 : l1.toFinset.card = l1.length := List.toFinset_card_of_nodup h1
  have e2 : l2.toFinset.card = l2.length := List.toFinset_card_of_nodup h2
  have hss : l1.toFinset ⊆ l2.toFinset := by
    intro x hx
    rw [List.mem_toFinset] at hx ⊢
    exact hsub x hx
  have : l1.toFinset = l2.toFinset := Finset.eq_of_subset_of_card_le hss (by omega)
  intro x hx
  have : x ∈ l1.toFinset := by
    rw [this, List.mem_toFinset]
    exact hx
  rwa [List.mem_toFinset] at this

theorem filter_length_mono {L : List Player} {p p' : Player → Bool}
    (h : ∀ x ∈ L, p' x = true → p x = true) :
    (L.filter p').length ≤ (L.filter p).length := by
  induction L with
  | nil => simp
  | cons y rest ih =>
    have ih2 := ih (fun x hx => h x (List.mem_cons_of_mem _ hx))
    by_cases hy : p' y = true
    · have := h y (List.mem_cons_self _ _) hy
      simp [List.filter_cons, hy, this]
      omega
    · simp only [List.filter_cons, hy, if_false, Bool.false_eq_true]
      by_cases hy2 : p y = true <;> simp [hy2] <;> omega

theorem filter_length_strict {L : List Player} {p p' : Player → Bool} {a : Player}
    (h : ∀ x ∈ L, p' x = true → p x = true) (ha : a ∈ L) (hpa : p a = true)
    (hpa' : p' a = false) : (L.filter p').length < (L.filter p).length := by
  induction L with
  | nil => simp at ha
  | cons y rest ih =>
    have hmono := filter_length_mono (fun x hx => h x (List.mem_cons_of_mem _ hx))
    rcases List.mem_cons.mp ha with hh | hh
    · subst hh
      simp [List.filter_cons, hpa, hpa']
      omega
    · have ih2 := ih (fun x hx => h x (List.mem_cons_of_mem _ hx)) hh
      by_cases hy : p' y = true
      · have := h y (List.mem_cons_self _ _) hy
        simp [List.filter_cons, hy, this]
        omega
      · simp only [List.filter_cons, hy, if_false, Bool.false_eq_true]
        by_cases hy2 : p y = true <;> simp [hy2] <;> omega

theorem filter_length_or_le {L : List Player} (p q : Player → Bool) :
    (L.filter (fun x => p x || q x)).length ≤
      (L.filter p).length + (L.filter q).length := by
  induction L with
  | nil => simp
  | cons y rest ih =>
    by_cases hp : p y = true <;> by_cases hq : q y = true <;>
      simp [List.filter_cons, hp, hq] <;> omega

theorem filter_length_singleton {L : List Player} (a : Player) (hnd : L.Nodup) :
    (L.filter (fun x => decide (x = a))).length ≤ 1 := by
  induction L with
  | nil => simp
  | cons y rest ih =>
    simp only [List.nodup_cons] at hnd
    by_cases hy : y = a
    · subst hy
      have : rest.filter (fun x => decide (x = y)) = [] := by
        rw [List.filter_eq_nil_iff]
        intro x hx
        simp only [decide_eq_true_eq]
        intro hxy
        exact hnd.1 (hxy ▸ hx)
      simp [List.filter_cons, this]
    · simp only [List.filter_cons, decide_eq_true_eq, hy, if_false]
      exact ih hnd.2

theorem filter_length_le_add_one {L : List Player} {p p' : Player → Bool} {a : Player}
    (h : ∀ x ∈ L, p' x = true → p x = true ∨ x = a) (hnd : L.Nodup) :
    (L.filter p').length ≤ (L.filter p).length + 1 := by
  have h1 : (L.filter p').length ≤
      (L.filter (fun x => p x || decide (x = a))).length := by
    apply filter_length_mono
    intro x hx hpx
    rcases h x hx hpx with hh | hh
    · simp [hh]
    · simp [hh]
  have h2 := filter_length_or_le (L := L) p (fun x => decide (x = a))
  have h3 := filter_length_singleton (L := L) a hnd
  omega

theorem prefsLE_refl (d : PrefMap) : prefsLE d d :=
  fun _ l' h => ⟨l', h, List.Sublist.refl l'⟩

theorem prefsLE_trans {a b c : PrefMap} (h1 : prefsLE a b) (h2 : prefsLE b c) :
    prefsLE a c := by
  intro k l' hget
  obtain ⟨l, hl, hs⟩ := h1 k l' hget
  obtain ⟨l0, hl0, hs0⟩ := h2 k l hl
  exact ⟨l0, hl0, hs.trans hs0⟩

theorem prefsLE_pySet {d : PrefMap} {k : Player} {l l' : List Player}
    (hget : pyGet d k = some l) (hsub : l'.Sublist l) :
    prefsLE (pySet d k l') d := by
  intro x lx hx
  rw [pyGet_pySet] at hx
  by_cases hxk : x = k
  · rw [if_pos hxk, hget] at hx
    simp at hx
    subst hx
    exact ⟨l, hxk ▸ hget, hsub⟩
  · rw [if_neg hxk] at hx
    exact ⟨lx, hx, List.Sublist.refl lx⟩

theorem listTotal_pySet {d : PrefMap} {k : Player} {l : List Player}
    (hget : pyGet d k = some l) (v : List Player) :
    listTotal (pySet d k v) + l.length = listTotal d + v.length := by
  induction d with
  | nil => simp [pyGet] at hget
  | cons p rest ih =>
    simp only [pyGet] at hget
    by_cases hk : p.1 = k
    · rw [if_pos hk] at hget
      simp at hget
      simp [pySet, hk, listTotal, hget]
      omega
    · rw [if_neg hk] at hget
      have := ih hget
      simp [pySet, hk, listTotal] at this ⊢
      omega

theorem pruneSuccessors_shrink {reviewer : Player} {succs rlist : List Player}
    {sp : PrefMap} {rl' : List Player} {sp' : PrefMap}
    (h : pruneSuccessors reviewer rlist sp succs = some (rl', sp')) :
    rl'.Sublist rlist ∧ prefsLE sp' sp ∧ sp'.map (·.1) = sp.map (·.1) ∧
      listTotal sp' + succs.length ≤ listTotal sp := by
  induction succs generalizing rlist sp with
  | nil =>
    simp only [pruneSuccessors, Option.some.injEq, Prod.mk.injEq] at h
    obtain ⟨h1, h2⟩ := h
    subst h1
    subst h2
    exact ⟨List.Sublist.refl _, prefsLE_refl _, rfl, by simp⟩
  | cons succ rest ih =>
    simp only [pruneSuccessors, pyRemove, Option.bind_eq_bind, Option.bind_eq_some] at h
    obtain ⟨rlist1, hr1, sl, hsl, sl1, hsl1, hrec⟩ := h
    have hm1 : succ ∈ rlist := by
      by_contra hh
      rw [if_neg hh] at hr1
      exact Option.noConfusion hr1
    rw [if_pos hm1] at hr1
    have hrl1 : rlist1 = pyErase rlist succ := (Option.some.inj hr1).symm
    have hm2 : reviewer ∈ sl := by
      by_contra hh
      rw [if_neg hh] at hsl1
      exact Option.noConfusion hsl1
    rw [if_pos hm2] at hsl1
    have hsl1e : sl1 = pyErase sl reviewer := (Option.some.inj hsl1).symm
    subst hrl1
    subst hsl1e
    obtain ⟨ih1, ih2, ih3, ih4⟩ := ih hrec
    refine ⟨ih1.trans (pyErase_sublist _ _), ?_, ?_, ?_⟩
    · exact prefsLE_trans ih2 (prefsLE_pySet hsl (pyErase_sublist sl reviewer))
    · rw [ih3, pySet_map_fst]
    · have e1 := listTotal_pySet hsl (pyErase sl reviewer)
      have e2 := length_pyErase hm2
      simp only [List.length_cons]
      omega

theorem pruneSuccessors_spec {reviewer : Player} {succs rlist : List Player}
    {sp : PrefMap} (hnd : rlist.Nodup) (hsnd : succs.Nodup)
    (hsub : ∀ x ∈ succs, x ∈ rlist)
    (hin : ∀ x ∈ succs, ∃ sl, pyGet sp x = some sl ∧ reviewer ∈ sl) :
    ∃ rl' sp', pruneSuccessors reviewer rlist sp succs = some (rl', sp') ∧
      (∀ y, y ∈ rl' ↔ y ∈ rlist ∧ y ∉ succs) ∧ rl'.Sublist rlist ∧
      ∀ x, pyGet sp' x =
        if x ∈ succs then (pyGet sp x).map (fun sl => pyErase sl reviewer)
        else pyGet sp x := by
  induction succs generalizing rlist sp with
  | nil =>
    refine ⟨rlist, sp, rfl, ?_, List.Sublist.refl _, ?_⟩
    · intro y
      simp
    · intro x
      simp
  | cons succ rest ih =>
    have hm1 : succ ∈ rlist := hsub succ (List.mem_cons_self _ _)
    obtain ⟨sl, hsl, hrev⟩ := hin succ (List.mem_cons_self _ _)
    simp only [List.nodup_cons] at hsnd
    have hnd1 : (pyErase rlist succ).Nodup := (pyErase_sublist rlist succ).nodup hnd
    have hsub1 : ∀ x ∈ rest, x ∈ pyErase rlist succ := by
      intro x hx
      have hne : x ≠ succ := fun hh => hsnd.1 (hh ▸ hx)
      exact (mem_pyErase_of_ne hne).mpr (hsub x (List.mem_cons_of_mem _ hx))
    have hin1 : ∀ x ∈ rest, ∃ sl2,
        pyGet (pySet sp succ (pyErase sl reviewer)) x = some sl2 ∧ reviewer ∈ sl2 := by
      intro x hx
      have hne : x ≠ succ := fun hh => hsnd.1 (hh ▸ hx)
      obtain ⟨sl2, hsl2, hrev2⟩ := hin x (List.mem_cons_of_mem _ hx)
      exact ⟨sl2, by rw [pyGet_pySet_ne _ _ hne]; exact hsl2, hrev2⟩
    obtain ⟨rl', sp', hrun, hmem, hsubl, hpt⟩ := ih hnd1 hsnd.2 hsub1 hin1
    refine ⟨rl', sp', ?_, ?_, hsubl.trans (pyErase_sublist _ _), ?_⟩
    · simp only [pruneSuccessors, pyRemove, if_pos hm1, if_pos hrev, hsl,
        Option.bind_eq_bind, Option.some_bind]
      exact hrun
    · intro y
      rw [hmem y]
      by_cases hy : y = succ
      · subst hy
        simp [not_mem_pyErase_self hnd]
      · simp [mem_pyErase_of_ne hy, hy]
    · intro x
      by_cases hx : x = succ
      · subst hx
        have hxr : x ∉ rest := hsnd.1
        rw [hpt x, if_neg hxr, pyGet_pySet, if_pos rfl, hsl]
        simp
      · by_cases hxr : x ∈ rest
        · rw [hpt x, if_pos hxr, pyGet_pySet_ne _ _ hx,
            if_pos (List.mem_cons_of_mem _ hxr)]
        · rw [hpt x, if_neg hxr, pyGet_pySet_ne _ _ hx, if_neg (by simp [hx, hxr])]

theorem mem_values_of_pyGet {m : List (Player × Option Player)} {s r : Player}
    (h : pyGet m s = some (some r)) : r ∈ m.filterMap (·.2) := by
  rw [List.mem_filterMap]
  exact ⟨(s, some r), pyGet_mem h, rfl⟩

theorem values_nodup {m : List (Player × Option Player)}
    (hk : (m.map (·.1)).Nodup)
    (hinj : ∀ s1 s2 r, pyGet m s1 = some (some r) →
      pyGet m s2 = some (some r) → s1 = s2) : (m.filterMap (·.2)).Nodup := by
  induction m with
  | nil => simp
  | cons p rest ih =>
    simp only [List.map_cons, List.nodup_cons] at hk
    have hrestget : ∀ s v, pyGet rest s = some v → pyGet (p :: rest) s = some v := by
      intro s v hs
      have hsk : s ∈ rest.map (·.1) := pyGet_key hs
      have : p.1 ≠ s := fun hh => hk.1 (hh ▸ hsk)
      simp [pyGet, this, hs]
    have ih2 := ih hk.2 (fun s1 s2 r h1 h2 =>
      hinj s1 s2 r (hrestget _ _ h1) (hrestget _ _ h2))
    cases hv : p.2 with
    | none => simpa [List.filterMap_cons, hv] using ih2
    | some r =>
      simp only [List.filterMap_cons, hv, List.nodup_cons]
      refine ⟨?_, ih2⟩
      intro hmem
      rw [List.mem_filterMap] at hmem
      obtain ⟨q, hq, hq2⟩ := hmem
      have hq3 : pyGet rest q.1 = some (some r) := by
        have : (q.1, some r) ∈ rest := by
          have : q = (q.1, q.2) := rfl
          rw [hq2] at this
          exact this ▸ hq
        exact pyGet_of_mem_nodup hk.2 this
      have hhead : pyGet (p :: rest) p.1 = some (some r) := by simp [pyGet, hv]
      have := hinj p.1 q.1 r hhead (hrestget _ _ hq3)
      exact hk.1 (this ▸ List.mem_map_of_mem (·.1) hq)

theorem length_values_add_none (m : List (Player × Option Player)) :
    (m.filterMap (·.2)).length + (m.filter (fun p => p.2.isNone)).length =
      m.length := by
  induction m with
  | nil => simp
  | cons p rest ih =>
    cases hv : p.2 with
    | none => simp [List.filterMap_cons, List.filter_cons, hv]; omega
    | some r => simp [List.filterMap_cons, List.filter_cons, hv]; omega

theorem mem_noneKeys {m : List (Player × Option Player)} {s : Player}
    (h : pyGet m s = some none) :
    s ∈ (m.filter (fun p => p.2.isNone)).map (·.1) := by
  have := pyGet_mem h
  rw [List.mem_map]
  exact ⟨(s, none), List.mem_filter.mpr ⟨this, rfl⟩, rfl⟩

theorem head?_mem {l : List Player} {a : Player} (h : l.head? = some a) : a ∈ l := by
  cases l with
  | nil => simp at h
  | cons y rest =>
    simp at h
    simp [h]

theorem smStep_inv_core {sp0 rp0 : PrefMap} (hc : SMComplete sp0 rp0)
    {st : SMState} (inv : SMInv sp0 rp0 st) {suitor : Player} {rest : List Player}
    (hq : st.queue = suitor :: rest)
    {sl : List Player} (hsl : pyGet st.sprefs suitor = some sl)
    {reviewer : Player} (hhead : sl.head? = some reviewer)
    {rl : List Player} (hrl : pyGet st.rprefs reviewer = some rl)
    (hmemrl : suitor ∈ rl)
    {rl' : List Player} {sp' : PrefMap}
    (hmem' : ∀ y, y ∈ rl' ↔ y ∈ rl ∧ y ∉ rl.drop (pyIdx rl suitor + 1))
    (hsubl' : rl'.Sublist rl)
    (hspt : ∀ x, pyGet sp' x = if x ∈ rl.drop (pyIdx rl suitor + 1)
        then (pyGet st.sprefs x).map (fun l => pyErase l reviewer)
        else pyGet st.sprefs x)
    (hspkeys : sp'.map (·.1) = st.sprefs.map (·.1))
    {m2 : List (Player × Option Player)} {q1 : List Player}
    (hm2keys : m2.map (·.1) = st.matching.map (·.1))
    (hm2 : ∀ s, pyGet m2 s = if s = suitor then some (some reviewer)
        else if pyGet st.matching s = some (some reviewer) then some none
        else pyGet st.matching s)
    (hq1 : ∀ s, s ∈ q1 ↔ s ∈ rest ∨ pyGet st.matching s = some (some reviewer))
    (hq1nodup : q1.Nodup) :
    SMInv sp0 rp0 ⟨q1, sp', pySet st.rprefs reviewer rl', m2⟩ := by
  have hqmem : suitor ∈ st.queue := by rw [hq]; exact List.mem_cons_self _ _
  have hskey0 : suitor ∈ sp0.map (·.1) := inv.queue_sub suitor hqmem
  have hsuitfree : pyGet st.matching suitor = some none :=
    (inv.queue_free suitor hskey0).mp hqmem
  have hrevsl : reviewer ∈ sl := head?_mem hhead
  obtain ⟨rl0, hrl0, hsubrl⟩ := inv.rsub reviewer rl hrl
  have hrl0nodup : rl0.Nodup := (hc.rlists _ (pyGet_mem hrl0)).1
  have hrlnodup : rl.Nodup := hsubrl.nodup hrl0nodup
  have hsuit_notin_succs : suitor ∉ rl.drop (pyIdx rl suitor + 1) := by
    rw [mem_drop_pyIdx hrlnodup hmemrl]
    omega
  have hqnodup := inv.queue_nodup
  rw [hq, List.nodup_cons] at hqnodup
  -- lookups in the new reviewer prefs
  have hrp' : ∀ r, pyGet (pySet st.rprefs reviewer rl') r =
      if r = reviewer then some rl' else pyGet st.rprefs r := by
    intro r
    by_cases hr : r = reviewer
    · subst hr
      simp [pyGet_pySet, hrl]
    · simp [pyGet_pySet, hr]
  -- membership in the pruned reviewer list, in index form
  have hmem'' : ∀ y, y ∈ rl' ↔ y ∈ rl ∧ pyIdx rl y ≤ pyIdx rl suitor := by
    intro y
    rw [hmem' y]
    constructor
    · rintro ⟨h1, h2⟩
      refine ⟨h1, ?_⟩
      rw [mem_drop_pyIdx hrlnodup hmemrl] at h2
      push_neg at h2
      have := h2 h1
      omega
    · rintro ⟨h1, h2⟩
      refine ⟨h1, ?_⟩
      rw [mem_drop_pyIdx hrlnodup hmemrl]
      push_neg
      intro _
      omega
  have hsuit_mem_rl' : suitor ∈ rl' := (hmem' suitor).mpr ⟨hmemrl, hsuit_notin_succs⟩
  -- the pair removed from a suitor's list this step is exactly `reviewer`,
  -- and only for successors
  have hremoved : ∀ s slNew r', pyGet sp' s = some slNew → r' ∉ slNew →
      ∀ slOld, pyGet st.sprefs s = some slOld → r' ∈ slOld →
      r' = reviewer ∧ s ∈ rl.drop (pyIdx rl suitor + 1) := by
    intro s slNew r' hsNew hrnot slOld hsOld hrin
    by_cases hsin : s ∈ rl.drop (pyIdx rl suitor + 1)
    · rw [hspt s, if_pos hsin, hsOld] at hsNew
      simp at hsNew
      subst hsNew
      exact ⟨eq_of_not_mem_pyErase hrin hrnot, hsin⟩
    · rw [hspt s, if_neg hsin, hsOld] at hsNew
      simp at hsNew
      subst hsNew
      exact absurd hrin hrnot
  refine ⟨?_, ?_, ?_, ?_, ?_, ?_, ?_, hq1nodup, ?_, ?_, ?_, ?_, ?_⟩
  -- skeys
  · rw [hspkeys, inv.skeys]
  -- rkeys
  · rw [pySet_map_fst, inv.rkeys]
  -- mkeys
  · rw [hm2keys, inv.mkeys]
  -- ssub
  · intro s l' hget
    rw [hspt s] at hget
    by_cases hsin : s ∈ rl.drop (pyIdx rl suitor + 1)
    · rw [if_pos hsin] at hget
      cases hold : pyGet st.sprefs s with
      | none => rw [hold] at hget; simp at hget
      | some lOld =>
        rw [hold] at hget
        simp at hget
        obtain ⟨l0, h0, hs0⟩ := inv.ssub s lOld hold
        exact ⟨l0, h0, hget ▸ ((pyErase_sublist lOld reviewer).trans hs0)⟩
    · rw [if_neg hsin] at hget
      exact inv.ssub s l' hget
  -- rsub
  · intro r l' hget
    rw [hrp' r] at hget
    by_cases hr : r = reviewer
    · rw [if_pos hr] at hget
      simp at hget
      subst hget
      subst hr
      exact ⟨rl0, hrl0, hsubl'.trans hsubrl⟩
    · rw [if_neg hr] at hget
      exact inv.rsub r l' hget
  -- mc
  · intro s r slx rlx hs hr
    rw [hrp' r] at hr
    rw [hspt s] at hs
    by_cases hrrev : r = reviewer
    · subst hrrev
      rw [if_pos rfl] at hr
      simp at hr
      subst hr
      by_cases hsin : s ∈ rl.drop (pyIdx rl suitor + 1)
      · rw [if_pos hsin] at hs
        cases hold : pyGet st.sprefs s with
        | none => rw [hold] at hs; simp at hs
        | some lOld =>
          rw [hold] at hs
          simp at hs
          subst hs
          obtain ⟨l0, h0, hsub0⟩ := inv.ssub s lOld hold
          have hnodupOld : lOld.Nodup :=
            hsub0.nodup (hc.slists _ (pyGet_mem h0)).1
          constructor
          · intro hmem
            exact absurd hmem (not_mem_pyErase_self hnodupOld)
          · intro hmem
            rw [hmem'' s] at hmem
            rw [mem_drop_pyIdx hrlnodup hmemrl] at hsin
            exfalso
            obtain ⟨_, h1⟩ := hmem
            obtain ⟨_, h2⟩ := hsin
            omega
      · rw [if_neg hsin] at hs
        have := inv.mc s r slx rl hs hrl
        rw [this]
        rw [hmem' s]
        constructor
        · intro hmem
          exact ⟨hmem, hsin⟩
        · rintro ⟨hmem, _⟩
          exact hmem
    · rw [if_neg hrrev] at hr
      by_cases hsin : s ∈ rl.drop (pyIdx rl suitor + 1)
      · rw [if_pos hsin] at hs
        cases hold : pyGet st.sprefs s with
        | none => rw [hold] at hs; simp at hs
        | some lOld =>
          rw [hold] at hs
          simp at hs
          subst hs
          rw [mem_pyErase_of_ne hrrev]
          exact inv.mc s r lOld rlx hold hr
      · rw [if_neg hsin] at hs
        exact inv.mc s r slx rlx hs hr
  -- queue_sub
  · intro s hs
    rw [hq1 s] at hs
    rcases hs with hs | hs
    · exact inv.queue_sub s (by rw [hq]; exact List.mem_cons_of_mem _ hs)
    · have := pyGet_key hs
      rwa [inv.mkeys] at this
  -- queue_free
  · intro s hs0
    rw [hq1 s, hm2 s]
    by_cases hsuit : s = suitor
    · subst hsuit
      rw [if_pos rfl]
      constructor
      · rintro (hmem | hmem)
        · exact absurd hmem hqnodup.1
        · rw [hsuitfree] at hmem
          simp at hmem
      · intro hmem
        simp at hmem
    · rw [if_neg hsuit]
      by_cases hrev : pyGet st.matching s = some (some reviewer)
      · rw [if_pos hrev]
        simp [hrev]
      · rw [if_neg hrev]
        have := inv.queue_free s hs0
        rw [hq] at this
        simp only [List.mem_cons] at this
        constructor
        · rintro (hmem | hmem)
          · exact this.mp (Or.inr hmem)
          · exact absurd hmem hrev
        · intro hmem
          rcases this.mpr hmem with hmem2 | hmem2
          · exact absurd hmem2 hsuit
          · exact Or.inl hmem2
  -- matched_head
  · intro s r hs
    rw [hm2 s] at hs
    by_cases hsuit : s = suitor
    · rw [if_pos hsuit] at hs
      have hr : r = reviewer := by
        injection hs with hs1
        injection hs1 with hs2
        exact hs2.symm
      refine ⟨sl, ?_, ?_⟩
      · rw [hsuit, hspt suitor, if_neg hsuit_notin_succs]
        exact hsl
      · rw [hr]
        exact hhead
    · rw [if_neg hsuit] at hs
      by_cases hrev : pyGet st.matching s = some (some reviewer)
      · rw [if_pos hrev] at hs
        simp at hs
      · rw [if_neg hrev] at hs
        have hrne : r ≠ reviewer := by
          intro hh
          rw [hh] at hs
          exact hrev hs
        obtain ⟨slOld, hslOld, hheadOld⟩ := inv.matched_head s r hs
        by_cases hsin : s ∈ rl.drop (pyIdx rl suitor + 1)
        · refine ⟨pyErase slOld reviewer, ?_, ?_⟩
          · rw [hspt s, if_pos hsin, hslOld]
            rfl
          · exact pyErase_head hheadOld hrne
        · refine ⟨slOld, ?_, hheadOld⟩
          rw [hspt s, if_neg hsin]
          exact hslOld
  -- matched_last
  · intro s r hs
    rw [hm2 s] at hs
    by_cases hsuit : s = suitor
    · rw [if_pos hsuit] at hs
      have hr : r = reviewer := by
        injection hs with hs1
        injection hs1 with hs2
        exact hs2.symm
      rw [hsuit, hr]
      refine ⟨rl', by rw [hrp' reviewer, if_pos rfl], hsuit_mem_rl', ?_⟩
      intro y hy hyne
      have hy2 := (hmem'' y).mp hy
      have hlt : pyIdx rl y < pyIdx rl suitor := by
        rcases Nat.lt_or_ge (pyIdx rl y) (pyIdx rl suitor) with hh | hh
        · exact hh
        · have : pyIdx rl y = pyIdx rl suitor := by omega
          exact absurd (pyIdx_inj hy2.1 hmemrl this) hyne
      exact (sublist_pyIdx_iff hsubl' hrlnodup hy hsuit_mem_rl').mpr hlt
    · rw [if_neg hsuit] at hs
      by_cases hrev : pyGet st.matching s = some (some reviewer)
      · rw [if_pos hrev] at hs
        simp at hs
      · rw [if_neg hrev] at hs
        have hrne : r ≠ reviewer := by
          intro hh
          rw [hh] at hs
          exact hrev hs
        obtain ⟨rlOld, hrlOld, hmemOld, hlastOld⟩ := inv.matched_last s r hs
        refine ⟨rlOld, ?_, hmemOld, hlastOld⟩
        rw [hrp' r, if_neg hrne]
        exact hrlOld
  -- inj
  · intro s1 s2 r h1 h2
    rw [hm2 s1] at h1
    rw [hm2 s2] at h2
    have key : ∀ s, (if s = suitor then some (some reviewer)
        else if pyGet st.matching s = some (some reviewer) then some none
        else pyGet st.matching s) = some (some r) →
        s = suitor ∨ (r ≠ reviewer ∧ pyGet st.matching s = some (some r)) := by
      intro s hget
      by_cases hsuit : s = suitor
      · exact Or.inl hsuit
      · rw [if_neg hsuit] at hget
        by_cases hrev : pyGet st.matching s = some (some reviewer)
        · rw [if_pos hrev] at hget
          simp at hget
        · rw [if_neg hrev] at hget
          refine Or.inr ⟨?_, hget⟩
          intro hh
          subst hh
          exact hrev hget
    have hr1 : s1 = suitor → r = reviewer := by
      intro hh
      rw [if_pos hh] at h1
      injection h1 with h1a
      injection h1a with h1b
      exact h1b.symm
    have hr2 : s2 = suitor → r = reviewer := by
      intro hh
      rw [if_pos hh] at h2
      injection h2 with h2a
      injection h2a with h2b
      exact h2b.symm
    rcases key s1 h1 with k1 | k1 <;> rcases key s2 h2 with k2 | k2
    · rw [k1, k2]
    · exact absurd (hr1 k1) k2.1
    · exact absurd (hr2 k2) k1.1
    · exact inv.inj s1 s2 r k1.2 k2.2
  -- removed_better
  · intro s r sl0x slx h0 hnew hr0 hrnot
    have hskeyx : s ∈ st.sprefs.map (·.1) := by
      rw [inv.skeys]
      exact pyGet_key h0
    obtain ⟨slOld, hslOld⟩ := pyGet_of_key hskeyx
    by_cases holdin : r ∈ slOld
    · -- the pair (s, r) was pruned in this very step
      obtain ⟨hrrev, hsin⟩ := hremoved s slx r hnew hrnot slOld hslOld holdin
      subst hrrev
      refine ⟨suitor, rl0, ?_, hrl0, hsubrl.subset hmemrl, ?_, ?_⟩
      · rw [hm2 suitor, if_pos rfl]
      · exact hsubrl.subset ((List.drop_subset _ rl) hsin)
      · have hsrl : s ∈ rl := (List.drop_subset _ rl) hsin
        rw [mem_drop_pyIdx hrlnodup hmemrl] at hsin
        exact sublist_pyIdx_lt hsubrl hrl0nodup hmemrl hsrl hsin.2
    · -- the pair (s, r) had been pruned in an earlier step
      obtain ⟨s', rl0x, hs'get, hrl0x, hs'mem, hsmem, hrank⟩ :=
        inv.removed_better s r sl0x slOld h0 hslOld hr0 holdin
      by_cases hrrev : r = reviewer
      · have hrl0eq : rl0x = rl0 := by
          rw [hrrev] at hrl0x
          have := hrl0x.symm.trans hrl0
          simpa using this
        obtain ⟨rlw, hrlw, hs'w, hlastw⟩ := inv.matched_last s' r hs'get
        have hrlweq : rlw = rl := by
          rw [hrrev] at hrlw
          have := hrlw.symm.trans hrl
          simpa using this
        have hs'rl : s' ∈ rl := hrlweq ▸ hs'w
        have hs'ne : s' ≠ suitor := by
          intro hh
          rw [hh, hsuitfree] at hs'get
          simp at hs'get
        have hlt : pyIdx rl suitor < pyIdx rl s' := by
          have := hlastw suitor (hrlweq.symm ▸ hmemrl) (fun hh => hs'ne hh.symm)
          rwa [hrlweq] at this
        have hlt0 : pyIdx rl0 suitor < pyIdx rl0 s' :=
          sublist_pyIdx_lt hsubrl hrl0nodup hmemrl hs'rl hlt
        refine ⟨suitor, rl0x, ?_, hrl0x, ?_, hsmem, ?_⟩
        · rw [hm2 suitor, if_pos rfl, hrrev]
        · rw [hrl0eq]
          exact hsubrl.subset hmemrl
        · rw [hrl0eq] at hrank ⊢
          omega
      · refine ⟨s', rl0x, ?_, hrl0x, hs'mem, hsmem, hrank⟩
        rw [hm2 s']
        have hs'ne : s' ≠ suitor := by
          intro hh
          rw [hh, hsuitfree] at hs'get
          simp at hs'get
        rw [if_neg hs'ne]
        have : pyGet st.matching s' ≠ some (some reviewer) := by
          rw [hs'get]
          intro hh
          simp at hh
          exact hrrev hh
        rw [if_neg this]
        exact hs'get

theorem queue_list_ne_nil {sp0 rp0 : PrefMap} (hc : SMComplete sp0 rp0)
    {st : SMState} (inv : SMInv sp0 rp0 st) {suitor : Player}
    (hqmem : suitor ∈ st.queue) {sl : List Player}
    (hsl : pyGet st.sprefs suitor = some sl) : sl ≠ [] := by
  intro hnil
  subst hnil
  obtain ⟨sl0, hsl0, _⟩ := inv.ssub suitor [] hsl
  have hall : ∀ r ∈ rp0.map (·.1), ∃ s', pyGet st.matching s' = some (some r) := by
    intro r hr
    have hrin : r ∈ sl0 := (hc.slists _ (pyGet_mem hsl0)).2.2 r hr
    obtain ⟨s', _, hget, _, _, _, _⟩ :=
      inv.removed_better suitor r sl0 [] hsl0 hsl hrin (by simp)
    exact ⟨s', hget⟩
  have hmknodup : (st.matching.map (·.1)).Nodup := by
    rw [inv.mkeys]
    exact hc.snodup
  have hVnd : (st.matching.filterMap (·.2)).Nodup := values_nodup hmknodup inv.inj
  have hsubV : ∀ r ∈ rp0.map (·.1), r ∈ st.matching.filterMap (·.2) := by
    intro r hr
    obtain ⟨s', hget⟩ := hall r hr
    exact mem_values_of_pyGet hget
  have h1 : (rp0.map (·.1)).length ≤ (st.matching.filterMap (·.2)).length :=
    nodup_subset_length hc.rnodup hsubV
  have h2 := length_values_add_none st.matching
  have hqsubn : ∀ s ∈ st.queue,
      s ∈ (st.matching.filter (fun p => p.2.isNone)).map (·.1) := by
    intro s hs
    exact mem_noneKeys ((inv.queue_free s (inv.queue_sub s hs)).mp hs)
  have h3 : st.queue.length ≤
      ((st.matching.filter (fun p => p.2.isNone)).map (·.1)).length :=
    nodup_subset_length inv.queue_nodup hqsubn
  rw [List.length_map] at h3
  have h4 : 1 ≤ st.queue.length :=
    List.length_pos.mpr (List.ne_nil_of_mem hqmem)
  have h5 : st.matching.length = sp0.length := by
    have := congrArg List.length inv.mkeys
    simpa using this
  have h6 : (rp0.map (·.1)).length = rp0.length := by simp
  have h7 := hc.eqsize
  omega

theorem smStep_spec {sp0 rp0 : PrefMap} (hc : SMComplete sp0 rp0) {st : SMState}
    (inv : SMInv sp0 rp0 st) (hne : st.queue ≠ []) :
    ∃ st', smStep st = some st' ∧ SMInv sp0 rp0 st' ∧ smMeasure st' < smMeasure st := by
  obtain ⟨suitor, rest, hq⟩ := List.exists_cons_of_ne_nil hne
  have hqmem : suitor ∈ st.queue := by rw [hq]; exact List.mem_cons_self _ _
  have hskey0 : suitor ∈ sp0.map (·.1) := inv.queue_sub suitor hqmem
  have hskey : suitor ∈ st.sprefs.map (·.1) := by rw [inv.skeys]; exact hskey0
  obtain ⟨sl, hsl⟩ := pyGet_of_key hskey
  have hslne := queue_list_ne_nil hc inv hqmem hsl
  obtain ⟨reviewer, stail, hsleq⟩ := List.exists_cons_of_ne_nil hslne
  have hhead : sl.head? = some reviewer := by rw [hsleq]; rfl
  have hrevsl : reviewer ∈ sl := by rw [hsleq]; exact List.mem_cons_self _ _
  obtain ⟨sl0, hsl0, hsubsl⟩ := inv.ssub suitor sl hsl
  have hrev_r0 : reviewer ∈ rp0.map (·.1) :=
    (hc.slists _ (pyGet_mem hsl0)).2.1 reviewer (hsubsl.subset hrevsl)
  have hrevkey : reviewer ∈ st.rprefs.map (·.1) := by rw [inv.rkeys]; exact hrev_r0
  obtain ⟨rl, hrl⟩ := pyGet_of_key hrevkey
  have hmemrl : suitor ∈ rl := (inv.mc suitor reviewer sl rl hsl hrl).mp hrevsl
  obtain ⟨rl0, hrl0, hsubrl⟩ := inv.rsub reviewer rl hrl
  have hrl0nodup : rl0.Nodup := (hc.rlists _ (pyGet_mem hrl0)).1
  have hrlnodup : rl.Nodup := hsubrl.nodup hrl0nodup
  have hsuccs_sub : ∀ x ∈ rl.drop (pyIdx rl suitor + 1), x ∈ rl :=
    fun x hx => (List.drop_subset _ rl) hx
  have hsuccs_nd : (rl.drop (pyIdx rl suitor + 1)).Nodup :=
    (List.drop_sublist _ _).nodup hrlnodup
  have hin : ∀ x ∈ rl.drop (pyIdx rl suitor + 1),
      ∃ slx, pyGet st.sprefs x = some slx ∧ reviewer ∈ slx := by
    intro x hx
    have hxrl := hsuccs_sub x hx
    have hx0 : x ∈ rl0 := hsubrl.subset hxrl
    have hxkey0 : x ∈ sp0.map (·.1) := (hc.rlists _ (pyGet_mem hrl0)).2.1 x hx0
    have hxkey : x ∈ st.sprefs.map (·.1) := by rw [inv.skeys]; exact hxkey0
    obtain ⟨slx, hslx⟩ := pyGet_of_key hxkey
    exact ⟨slx, hslx, (inv.mc x reviewer slx rl hslx hrl).mpr hxrl⟩
  obtain ⟨rl', sp', hrun, hmem', hsubl', hspt⟩ :=
    pruneSuccessors_spec hrlnodup hsuccs_nd hsuccs_sub hin
  obtain ⟨_, hsple, hspkeys, hsptotal⟩ := pruneSuccessors_shrink hrun
  have hsuitfree : pyGet st.matching suitor = some none :=
    (inv.queue_free suitor hskey0).mp hqmem
  have hqnodup := inv.queue_nodup
  rw [hq, List.nodup_cons] at hqnodup
  have hmknodup : (st.matching.map (·.1)).Nodup := by
    rw [inv.mkeys]
    exact hc.snodup
  have hmeasq : smMeasure st = listTotal st.sprefs + (rest.length + 1) := by
    rw [smMeasure, hq]
    simp
  cases hfind : findKeyOfValue st.matching reviewer with
  | none =>
    have hnone := findKeyOfValue_none hfind
    have hnoget : ∀ s, pyGet st.matching s ≠ some (some reviewer) := by
      intro s hget
      exact hnone (s, some reviewer) (pyGet_mem hget) rfl
    refine ⟨⟨rest, sp', pySet st.rprefs reviewer rl',
      pySet st.matching suitor (some reviewer)⟩, ?_, ?_, ?_⟩
    · unfold smStep
      rw [hq]
      simp only [hsl, hhead, hfind, hrl, pyIndexOf, if_pos hmemrl, hrun,
        Option.bind_eq_bind, Option.some_bind]
    · apply smStep_inv_core hc inv hq hsl hhead hrl hmemrl hmem' hsubl' hspt
        hspkeys (pySet_map_fst _ _ _) ?_ ?_ hqnodup.2
      · intro s
        by_cases hsuit : s = suitor
        · rw [if_pos hsuit, hsuit]
          exact pyGet_pySet_self _ hsuitfree
        · rw [if_neg hsuit, if_neg (hnoget s)]
          exact pyGet_pySet_ne _ _ hsuit
      · intro s
        constructor
        · exact fun h => Or.inl h
        · rintro (h | h)
          · exact h
          · exact absurd h (hnoget s)
    · rw [smMeasure, hmeasq]
      simp only [List.length_cons]
      omega
  | some cp =>
    have hcpget : pyGet st.matching cp = some (some reviewer) :=
      pyGet_of_mem_nodup hmknodup (findKeyOfValue_mem hfind)
    have hcpne : cp ≠ suitor := by
      intro hh
      rw [hh, hsuitfree] at hcpget
      simp at hcpget
    have hcpkey0 : cp ∈ sp0.map (·.1) := by
      have := pyGet_key hcpget
      rwa [inv.mkeys] at this
    have hcp_not_queue : cp ∉ st.queue := by
      intro hh
      have := (inv.queue_free cp hcpkey0).mp hh
      rw [hcpget] at this
      simp at this
    obtain ⟨rlw, hrlw, hcprl, hlastw⟩ := inv.matched_last cp reviewer hcpget
    have hrlweq : rlw = rl := by
      have := hrlw.symm.trans hrl
      simpa using this
    have hcprl2 : cp ∈ rl := hrlweq ▸ hcprl
    have hltcp : pyIdx rl suitor < pyIdx rl cp := by
      have := hlastw suitor (hrlweq.symm ▸ hmemrl) (fun hh => hcpne hh.symm)
      rwa [hrlweq] at this
    have hcp_succs : cp ∈ rl.drop (pyIdx rl suitor + 1) := by
      rw [mem_drop_pyIdx hrlnodup hmemrl]
      exact ⟨hcprl2, hltcp⟩
    have hsuccs_ne : rl.drop (pyIdx rl suitor + 1) ≠ [] :=
      List.ne_nil_of_mem hcp_succs
    refine ⟨⟨rest ++ [cp], sp', pySet st.rprefs reviewer rl',
      pySet (pySet st.matching cp none) suitor (some reviewer)⟩, ?_, ?_, ?_⟩
    · unfold smStep
      rw [hq]
      simp only [hsl, hhead, hfind, hrl, pyIndexOf, if_pos hmemrl, hrun,
        Option.bind_eq_bind, Option.some_bind]
    · apply smStep_inv_core hc inv hq hsl hhead hrl hmemrl hmem' hsubl' hspt
        hspkeys ?_ ?_ ?_ ?_
      · rw [pySet_map_fst, pySet_map_fst]
      · intro s
        by_cases hsuit : s = suitor
        · rw [if_pos hsuit, hsuit]
          have : pyGet (pySet st.matching cp none) suitor = some none := by
            rw [pyGet_pySet_ne _ _ (Ne.symm hcpne)]
            exact hsuitfree
          exact pyGet_pySet_self _ this
        · rw [if_neg hsuit]
          by_cases hcp : s = cp
          · rw [hcp, if_pos hcpget]
            rw [pyGet_pySet_ne _ _ (hcp ▸ hsuit)]
            exact pyGet_pySet_self _ hcpget
          · have hnrev : pyGet st.matching s ≠ some (some reviewer) := by
              intro hget
              exact hcp (inv.inj s cp reviewer hget hcpget)
            rw [if_neg hnrev, pyGet_pySet_ne _ _ hsuit, pyGet_pySet_ne _ _ hcp]
      · intro s
        simp only [List.mem_append, List.mem_singleton]
        constructor
        · rintro (h | h)
          · exact Or.inl h
          · exact Or.inr (h ▸ hcpget)
        · rintro (h | h)
          · exact Or.inl h
          · exact Or.inr (inv.inj s cp reviewer h hcpget)
      · rw [List.nodup_append]
        refine ⟨hqnodup.2, List.nodup_singleton cp, ?_⟩
        intro x hx
        simp only [List.mem_singleton]
        intro hh
        rw [hh] at hx
        exact hcp_not_queue (by rw [hq]; exact List.mem_cons_of_mem _ hx)
    · rw [smMeasure, hmeasq]
      simp only [List.length_append, List.length_singleton]
      have hlen : 1 ≤ (rl.drop (pyIdx rl suitor + 1)).length :=
        List.length_pos.mpr hsuccs_ne
      omega

theorem smInit_inv {sp0 rp0 : PrefMap} (hc : SMComplete sp0 rp0) :
    SMInv sp0 rp0 (smInit sp0 rp0) := by
  have hminit : ∀ s, pyGet ((smInit sp0 rp0).matching) s =
      (pyGet sp0 s).map (fun _ => (none : Option Player)) := by
    intro s
    exact pyGet_map_value sp0 (fun _ => none) s
  refine ⟨rfl, rfl, ?_, prefsLE_refl _, prefsLE_refl _, ?_, ?_, hc.snodup, ?_, ?_, ?_, ?_, ?_⟩
  · show (sp0.map (fun p => (p.1, (none : Option Player)))).map (·.1) = sp0.map (·.1)
    rw [List.map_map]
    rfl
  · intro s r sl rl hs hr
    have h1 := (hc.slists _ (pyGet_mem hs)).2
    have h2 := (hc.rlists _ (pyGet_mem hr)).2
    constructor
    · intro _
      exact h2.2 s (pyGet_key hs)
    · intro _
      exact h1.2 r (pyGet_key hr)
  · intro s hs
    exact hs
  · intro s hs0
    obtain ⟨v, hv⟩ := pyGet_of_key hs0
    constructor
    · intro _
      rw [hminit s, hv]
      rfl
    · intro _
      exact hs0
  · intro s r hs
    rw [hminit s] at hs
    cases h : pyGet sp0 s <;> rw [h] at hs <;> simp at hs
  · intro s r hs
    rw [hminit s] at hs
    cases h : pyGet sp0 s <;> rw [h] at hs <;> simp at hs
  · intro s1 s2 r h1 h2
    rw [hminit s1] at h1
    cases h : pyGet sp0 s1 <;> rw [h] at h1 <;> simp at h1
  · intro s r sl0 slx h0 hnew hr0 hrnot
    have hnew2 : pyGet sp0 s = some slx := hnew
    rw [h0] at hnew2
    have heq : sl0 = slx := Option.some.inj hnew2
    rw [← heq] at hrnot
    exact absurd hr0 hrnot

theorem smRun_inv {sp0 rp0 : PrefMap} (hc : SMComplete sp0 rp0) :
    ∀ (n : Nat) (st st' : SMState), SMInv sp0 rp0 st →
      smRunState n st = some st' → SMInv sp0 rp0 st' ∧ st'.queue = [] := by
  intro n
  induction n with
  | zero =>
    intro st st' inv hrun
    rw [smRunState] at hrun
    by_cases hemp : st.queue.isEmpty
    · rw [if_pos hemp] at hrun
      have := Option.some.inj hrun
      subst this
      exact ⟨inv, List.isEmpty_iff.mp hemp⟩
    · rw [if_neg hemp] at hrun
      exact Option.noConfusion hrun
  | succ n ih =>
    intro st st' inv hrun
    rw [smRunState] at hrun
    by_cases hemp : st.queue.isEmpty
    · rw [if_pos hemp] at hrun
      have := Option.some.inj hrun
      subst this
      exact ⟨inv, List.isEmpty_iff.mp hemp⟩
    · rw [if_neg hemp] at hrun
      have hne : st.queue ≠ [] := by
        intro hh
        rw [hh] at hemp
        simp at hemp
      obtain ⟨st1, hstep, inv1, _⟩ := smStep_spec hc inv hne
      simp only [hstep, Option.bind_eq_bind, Option.some_bind] at hrun
      exact ih st1 st' inv1 hrun

theorem smRun_terminates {sp0 rp0 : PrefMap} (hc : SMComplete sp0 rp0) :
    ∀ (n : Nat) (st : SMState), SMInv sp0 rp0 st → smMeasure st ≤ n →
      ∃ st', smRunState n st = some st' := by
  intro n
  induction n with
  | zero =>
    intro st inv hm
    have : st.queue.length = 0 := by
      rw [smMeasure] at hm
      omega
    have hemp : st.queue.isEmpty := by
      rw [List.isEmpty_iff]
      exact List.length_eq_zero.mp this
    exact ⟨st, by rw [smRunState, if_pos hemp]⟩
  | succ n ih =>
    intro st inv hm
    by_cases hemp : st.queue.isEmpty
    · exact ⟨st, by rw [smRunState, if_pos hemp]⟩
    · have hne : st.queue ≠ [] := by
        intro hh
        rw [hh] at hemp
        simp at hemp
      obtain ⟨st1, hstep, inv1, hless⟩ := smStep_spec hc inv hne
      obtain ⟨st', hrun⟩ := ih st1 inv1 (by omega)
      refine ⟨st', ?_⟩
      rw [smRunState, if_neg hemp]
      simp only [hstep, Option.bind_eq_bind, Option.some_bind]
      exact hrun

theorem final_no_blocking {sp0 rp0 : PrefMap} (hc : SMComplete sp0 rp0)
    {st : SMState} (inv : SMInv sp0 rp0 st) :
    ∀ s r, ¬ smBlockingPair sp0 rp0 st.matching s r := by
  rintro s r ⟨sl0, rl0, rs, sr, hsl0, hrl0, hMs, hMr, hne, hpref1, hpref2⟩
  obtain ⟨hr_sl0, hrs_sl0, hpr1⟩ := hpref1
  obtain ⟨hs_rl0, hsr_rl0, hpr2⟩ := hpref2
  have hsl0nodup : sl0.Nodup := (hc.slists _ (pyGet_mem hsl0)).1
  obtain ⟨slc, hslc, hheadc⟩ := inv.matched_head s rs hMs
  obtain ⟨slc0, hslc0, hsubc⟩ := inv.ssub s slc hslc
  have hslceq : slc0 = sl0 := by
    have := hslc0.symm.trans hsl0
    simpa using this
  rw [hslceq] at hsubc
  obtain ⟨rs2, t, hslct⟩ := List.exists_cons_of_ne_nil
    (show slc ≠ [] by intro hh; rw [hh] at hheadc; simp at hheadc)
  have hrs2 : rs2 = rs := by
    rw [hslct] at hheadc
    simpa using hheadc
  rw [hrs2] at hslct
  have hrs_slc : rs ∈ slc := by rw [hslct]; exact List.mem_cons_self _ _
  by_cases hrin : r ∈ slc
  · have hlt : pyIdx slc rs < pyIdx slc r := by
      rw [hslct]
      have hner : r ≠ rs := hne
      simp [pyIdx, Ne.symm hner]
    have := sublist_pyIdx_lt hsubc hsl0nodup hrs_slc hrin hlt
    omega
  · obtain ⟨s', rl0x, hs'get, hrl0x, hs'mem, hsmem, hrank⟩ :=
      inv.removed_better s r sl0 slc hsl0 hslc hr_sl0 hrin
    have hrl0eq : rl0x = rl0 := by
      have := hrl0x.symm.trans hrl0
      simpa using this
    rw [hrl0eq] at hrank
    have hmknodup : (st.matching.map (·.1)).Nodup := by
      rw [inv.mkeys]
      exact hc.snodup
    have hsrget : pyGet st.matching sr = some (some r) :=
      pyGet_of_mem_nodup hmknodup (findKeyOfValue_mem hMr)
    have : sr = s' := inv.inj sr s' r hsrget hs'get
    rw [this] at hpr2
    omega

theorem final_bijection {sp0 rp0 : PrefMap} (hc : SMComplete sp0 rp0)
    {st : SMState} (inv : SMInv sp0 rp0 st) (hq : st.queue = []) :
    st.matching.map (·.1) = sp0.map (·.1) ∧
      (∀ p ∈ st.matching, p.2 ≠ none) ∧
      (st.matching.filterMap (·.2)).Nodup ∧
      (∀ r, r ∈ st.matching.filterMap (·.2) ↔ r ∈ rp0.map (·.1)) := by
  have hmknodup : (st.matching.map (·.1)).Nodup := by
    rw [inv.mkeys]
    exact hc.snodup
  have hallsome : ∀ p ∈ st.matching, p.2 ≠ none := by
    rintro ⟨k, v⟩ hp hv
    subst hv
    have hget : pyGet st.matching k = some none := pyGet_of_mem_nodup hmknodup hp
    have hk0 : k ∈ sp0.map (·.1) := by
      have := pyGet_key hget
      rwa [inv.mkeys] at this
    have := (inv.queue_free k hk0).mpr hget
    rw [hq] at this
    simp at this
  have hVnd : (st.matching.filterMap (·.2)).Nodup := values_nodup hmknodup inv.inj
  have hVsub : ∀ r ∈ st.matching.filterMap (·.2), r ∈ rp0.map (·.1) := by
    intro r hr
    rw [List.mem_filterMap] at hr
    obtain ⟨p, hp, hp2⟩ := hr
    have hget : pyGet st.matching p.1 = some (some r) := by
      have : (p.1, some r) ∈ st.matching := by
        have : p = (p.1, p.2) := rfl
        rw [hp2] at this
        exact this ▸ hp
      exact pyGet_of_mem_nodup hmknodup this
    obtain ⟨slc, hslc, hheadc⟩ := inv.matched_head p.1 r hget
    obtain ⟨slc0, hslc0, hsubc⟩ := inv.ssub p.1 slc hslc
    exact (hc.slists _ (pyGet_mem hslc0)).2.1 r (hsubc.subset (head?_mem hheadc))
  refine ⟨inv.mkeys, hallsome, hVnd, ?_⟩
  have hVlen : (st.matching.filterMap (·.2)).length = st.matching.length := by
    have h2 := length_values_add_none st.matching
    have hzero : (st.matching.filter (fun p => p.2.isNone)).length = 0 := by
      rw [List.length_eq_zero]
      rw [List.filter_eq_nil_iff]
      intro p hp
      have := hallsome p hp
      simp only [Option.isNone_iff_eq_none]
      simpa using this
    omega
  have hlen2 : st.matching.length = sp0.length := by
    have := congrArg List.length inv.mkeys
    simpa using this
  have hlen3 : (rp0.map (·.1)).length ≤ (st.matching.filterMap (·.2)).length := by
    rw [hVlen, hlen2, List.length_map]
    have := hc.eqsize
    omega
  intro r
  constructor
  · exact hVsub r
  · intro hr
    exact mem_of_nodup_subset_ge_length hVnd hc.rnodup hVsub
      (by rw [List.length_map] at hlen3 ⊢; exact hlen3) r hr

theorem SMComplete_symm {sp rp : PrefMap} (h : SMComplete sp rp) :
    SMComplete rp sp :=
  ⟨h.rnodup, h.snodup, h.rlists, h.slists, h.eqsize.symm⟩

theorem stable_marriage_eq_run (sp rp : PrefMap) (optimal : String) (fuel : Nat) :
    stable_marriage sp rp optimal fuel =
      if optimal == "reviewer"
      then (smRunState fuel (smInit rp sp)).map (·.matching)
      else (smRunState fuel (smInit sp rp)).map (·.matching) := by
  unfold stable_marriage
  by_cases hopt : (optimal == "reviewer") = true
  · simp [hopt]
  · simp [hopt]

theorem smStep_shrink {st st' : SMState} (h : smStep st = some st') :
    prefsLE st'.sprefs st.sprefs ∧ prefsLE st'.rprefs st.rprefs := by
  unfold smStep at h
  cases hq : st.queue with
  | nil =>
    rw [hq] at h
    exact Option.noConfusion h
  | cons suitor rest =>
    rw [hq] at h
    simp only [Option.bind_eq_bind, Option.bind_eq_some] at h
    obtain ⟨sl, hsl, reviewer, hhead, h⟩ := h
    rcases hmq : (match findKeyOfValue st.matching reviewer with
      | some cp => (pySet st.matching cp none, rest ++ [cp])
      | none => (st.matching, rest)) with ⟨m1, q1⟩
    rw [hmq] at h
    obtain ⟨rl, hrl, idx, hidx, h⟩ := h
    obtain ⟨⟨rl', sp'⟩, hprune, h⟩ := h
    have hst' : st' = ⟨q1, sp', pySet st.rprefs reviewer rl', pySet m1 suitor (some reviewer)⟩ := by
      have := Option.some.inj h
      exact this.symm
    obtain ⟨hsubl, hsple, _, _⟩ := pruneSuccessors_shrink hprune
    subst hst'
    refine ⟨hsple, ?_⟩
    exact prefsLE_pySet hrl hsubl

theorem smRunState_shrink {n : Nat} {st st' : SMState}
    (h : smRunState n st = some st') :
    prefsLE st'.sprefs st.sprefs ∧ prefsLE st'.rprefs st.rprefs := by
  induction n generalizing st with
  | zero =>
    rw [smRunState] at h
    by_cases hemp : st.queue.isEmpty
    · rw [if_pos hemp] at h
      have := Option.some.inj h
      subst this
      exact ⟨prefsLE_refl _, prefsLE_refl _⟩
    · rw [if_neg hemp] at h
      exact Option.noConfusion h
  | succ n ih =>
    rw [smRunState] at h
    by_cases hemp : st.queue.isEmpty
    · rw [if_pos hemp] at h
      have := Option.some.inj h
      subst this
      exact ⟨prefsLE_refl _, prefsLE_refl _⟩
    · rw [if_neg hemp] at h
      simp only [Option.bind_eq_bind, Option.bind_eq_some] at h
      obtain ⟨st1, hstep, hrun⟩ := h
      obtain ⟨h1, h2⟩ := smStep_shrink hstep
      obtain ⟨h3, h4⟩ := ih hrun
      exact ⟨prefsLE_trans h3 h1, prefsLE_trans h4 h2⟩

/-! ## Lemmas about the HR consistency check -/

theorem checkResident_false {hp : PrefMap} {r : Player} {rl : List Player}
    (hkeys : ∀ h ∈ rl, ∃ hl, pyGet hp h = some hl)
    (hviol : ∃ h ∈ rl, ∃ hl, pyGet hp h = some hl ∧ r ∉ hl) :
    checkResident hp r rl = some false := by
  induction rl with
  | nil => simp at hviol
  | cons h rest ih =>
    obtain ⟨hl, hhl⟩ := hkeys h (List.mem_cons_self _ _)
    rw [checkResident]
    simp only [hhl, Option.bind_eq_bind, Option.some_bind]
    by_cases hmem : r ∈ hl
    · rw [if_pos hmem]
      apply ih (fun x hx => hkeys x (List.mem_cons_of_mem _ hx))
      obtain ⟨h', hh', hl', hhl', hnot⟩ := hviol
      rcases List.mem_cons.mp hh' with hh | hh
      · rw [hh] at hhl'
        rw [hhl] at hhl'
        have := Option.some.inj hhl'
        rw [← this] at hnot
        exact absurd hmem hnot
      · exact ⟨h', hh, hl', hhl', hnot⟩
    · rw [if_neg hmem]

theorem checkResident_true {hp : PrefMap} {r : Player} {rl : List Player}
    (hkeys : ∀ h ∈ rl, ∃ hl, pyGet hp h = some hl)
    (hok : ∀ h ∈ rl, ∀ hl, pyGet hp h = some hl → r ∈ hl) :
    checkResident hp r rl = some true := by
  induction rl with
  | nil => rfl
  | cons h rest ih =>
    obtain ⟨hl, hhl⟩ := hkeys h (List.mem_cons_self _ _)
    rw [checkResident]
    simp only [hhl, Option.bind_eq_bind, Option.some_bind]
    rw [if_pos (hok h (List.mem_cons_self _ _) hl hhl)]
    exact ih (fun x hx => hkeys x (List.mem_cons_of_mem _ hx))
      (fun x hx => hok x (List.mem_cons_of_mem _ hx))

theorem checkInputs_false {hp rp : PrefMap} (hkeys : hrKeysOK hp rp)
    (hviol : hrViolation hp rp) : checkInputs hp rp = some false := by
  induction rp with
  | nil => simp [hrViolation] at hviol
  | cons p rest ih =>
    obtain ⟨r, rl⟩ := p
    rw [checkInputs]
    by_cases hhead : ∃ h ∈ rl, ∃ hl, pyGet hp h = some hl ∧ r ∉ hl
    · have := checkResident_false
        (fun h hh => hkeys (r, rl) (List.mem_cons_self _ _) h hh) hhead
      simp only [this, Option.bind_eq_bind, Option.some_bind]
      rfl
    · push_neg at hhead
      have htrue : checkResident hp r rl = some true := by
        apply checkResident_true
          (fun h hh => hkeys (r, rl) (List.mem_cons_self _ _) h hh)
        intro h hh hl hhl
        exact hhead h hh hl hhl
      simp only [htrue, Option.bind_eq_bind, Option.some_bind, if_pos]
      apply ih (fun q hq => hkeys q (List.mem_cons_of_mem _ hq))
      obtain ⟨q, hq, h, hh, hl, hhl, hnot⟩ := hviol
      rcases List.mem_cons.mp hq with hq2 | hq2
      · exfalso
        rw [hq2] at hh hnot
        exact hnot (hhead h hh hl hhl)
      · exact ⟨q, hq2, h, hh, hl, hhl, hnot⟩

theorem hospital_resident_of_checkFalse {hp rp : PrefMap} {caps : CapMap}
    {optimal : String} {fuel : Nat} (h : checkInputs hp rp = some false) :
    hospital_resident hp rp caps optimal fuel =
      some (Except.error HRError.inputConsistency) := by
  rw [hospital_resident]
  simp [h]

theorem hospital_resident_of_badOptimal {hp rp : PrefMap} {caps : CapMap}
    {optimal : String} {fuel : Nat} (h : checkInputs hp rp = some true)
    (h1 : (optimal == "resident") = false) (h2 : (optimal == "hospital") = false) :
    hospital_resident hp rp caps optimal fuel =
      some (Except.error HRError.invalidOptimality) := by
  rw [hospital_resident]
  simp [h, h1, h2]

/-! ## Capacity invariant of the HR loops -/

theorem iterOpt_inv {α : Type} {f : α → Option α} {P : α → Prop}
    (hstep : ∀ s s', P s → f s = some s' → P s') :
    ∀ (n : Nat) (s s' : α), P s → iterOpt f n s = some s' → P s' := by
  intro n
  induction n with
  | zero =>
    intro s s' hP hrun
    rw [iterOpt] at hrun
    have := Option.some.inj hrun
    subst this
    exact hP
  | succ n ih =>
    intro s s' hP hrun
    rw [iterOpt] at hrun
    simp only [Option.bind_eq_bind, Option.bind_eq_some] at hrun
    obtain ⟨s1, hstep1, hrun1⟩ := hrun
    exact ih s1 s' (hstep s s1 hP hstep1) hrun1

theorem hrInit_capOK (hp rp : PrefMap) (caps : CapMap) :
    capOK caps (hrInit hp rp).matching := by
  intro h ml c hml _
  have : pyGet (hp.map (fun p => (p.1, ([] : List Player)))) h =
      (pyGet hp h).map (fun _ => []) := pyGet_map_value hp (fun _ => []) h
  rw [show (hrInit hp rp).matching = hp.map (fun p => (p.1, [])) from rfl] at hml
  rw [this] at hml
  cases hh : pyGet hp h <;> rw [hh] at hml <;> simp at hml
  rw [hml]
  simp

theorem hrROStep_matching {caps : CapMap} {st st' : HRState}
    (h : hrROStep caps st = some st') :
    ∃ hospital ml0 cap mlNew, pyGet st.matching hospital = some ml0 ∧
      pyGet caps hospital = some cap ∧
      (mlNew.length ≤ cap ∨ mlNew.length = ml0.length) ∧
      pyGet st'.matching hospital = some mlNew ∧
      ∀ x, x ≠ hospital → pyGet st'.matching x = pyGet st.matching x := by
  unfold hrROStep at h
  cases hfree : getFreeResidents st.rprefs st.matching with
  | nil =>
    rw [hfree] at h
    exact Option.noConfusion h
  | cons resident frees =>
    rw [hfree] at h
    simp only [Option.bind_eq_bind, Option.bind_eq_some] at h
    obtain ⟨rl, hrl, hospital, hhead, ml0, hml0, cap, hcap, m2, hm2, ml2, hml2, h⟩ := h
    have hmatch : st'.matching = m2 := by
      by_cases hcapeq : ml2.length = cap
      · rw [if_pos hcapeq] at h
        simp only [Option.bind_eq_bind, Option.bind_eq_some] at h
        obtain ⟨worst2, _, hl2, _, h⟩ := h
        by_cases hempty : (hl2.drop (worst2 + 1)).isEmpty
        · rw [if_pos hempty] at h
          have := Option.some.inj h
          rw [← this]
        · rw [if_neg hempty] at h
          simp only [Option.bind_eq_bind, Option.bind_eq_some] at h
          obtain ⟨⟨hl', rp'⟩, _, h⟩ := h
          have := Option.some.inj h
          rw [← this]
      · rw [if_neg hcapeq] at h
        have := Option.some.inj h
        rw [← this]
    obtain ⟨ml1, hml1, hm2⟩ := hm2
    have hml1e : ml1 = ml0 ++ [resident] := by
      rw [pyGet_pySet_self _ hml0] at hml1
      exact (Option.some.inj hml1).symm
    by_cases hover : cap < ml1.length
    · rw [if_pos hover] at hm2
      simp only [Option.bind_eq_bind, Option.bind_eq_some, pyRemove] at hm2
      obtain ⟨worst, _, hl, _, worstRes, _, ml1', hrem, hm2⟩ := hm2
      have hwmem : worstRes ∈ ml1 := by
        by_contra hh
        rw [if_neg hh] at hrem
        exact Option.noConfusion hrem
      rw [if_pos hwmem] at hrem
      have hml1'e : ml1' = pyErase ml1 worstRes := (Option.some.inj hrem).symm
      have hm2e : m2 = pySet (pySet st.matching hospital (ml0 ++ [resident]))
          hospital ml1' := (Option.some.inj hm2).symm
      refine ⟨hospital, ml0, cap, ml1', hml0, hcap, ?_, ?_, ?_⟩
      · right
        have hlp := length_pyErase hwmem
        rw [hml1'e]
        rw [hml1e] at hlp ⊢
        simp only [List.length_append, List.length_singleton] at hlp
        omega
      · rw [hmatch, hm2e]
        have httt : pyGet (pySet st.matching hospital (ml0 ++ [resident]))
            hospital = some (ml0 ++ [resident]) := pyGet_pySet_self _ hml0
        exact pyGet_pySet_self _ httt
      · intro x hx
        rw [hmatch, hm2e, pyGet_pySet_ne _ _ hx, pyGet_pySet_ne _ _ hx]
    · rw [if_neg hover] at hm2
      have hm2e : m2 = pySet st.matching hospital (ml0 ++ [resident]) :=
        (Option.some.inj hm2).symm
      refine ⟨hospital, ml0, cap, ml0 ++ [resident], hml0, hcap, ?_, ?_, ?_⟩
      · left
        rw [hml1e] at hover
        omega
      · rw [hmatch, hm2e]
        exact pyGet_pySet_self _ hml0
      · intro x hx
        rw [hmatch, hm2e, pyGet_pySet_ne _ _ hx]

theorem hrROStep_capOK {caps : CapMap} {st st' : HRState}
    (hok : capOK caps st.matching) (h : hrROStep caps st = some st') :
    capOK caps st'.matching := by
  obtain ⟨hospital, ml0, cap, mlNew, hml0, hcap, hlen, hnew, hother⟩ :=
    hrROStep_matching h
  intro x ml c hml hc
  by_cases hx : x = hospital
  · rw [hx, hnew] at hml
    rw [hx, hcap] at hc
    have e1 := Option.some.inj hml
    have e2 := Option.some.inj hc
    have := hok hospital ml0 cap hml0 hcap
    rw [← e1, ← e2]
    omega
  · rw [hother x hx] at hml
    exact hok x ml c hml hc

theorem getFreeHospitals_spec {caps : CapMap}
    {m : List (Player × List Player)} {hp : PrefMap} {fs : List Player}
    (h : getFreeHospitals caps m hp = some fs) :
    ∀ x ∈ fs, ∃ ml cap, pyGet m x = some ml ∧ pyGet caps x = some cap ∧
      ml.length < cap ∧ ∃ hl, (x, hl) ∈ hp ∧ hl.any (fun r => r ∉ ml) := by
  induction hp generalizing fs with
  | nil =>
    rw [getFreeHospitals] at h
    have := Option.some.inj h
    subst this
    simp
  | cons p rest ih =>
    obtain ⟨h0, hl0⟩ := p
    rw [getFreeHospitals] at h
    simp only [Option.bind_eq_bind, Option.bind_eq_some] at h
    obtain ⟨ml, hml, cap, hcap, rest', hrest', hif⟩ := h
    by_cases hcond : ml.length < cap ∧ hl0.any (fun r => r ∉ ml)
    · rw [if_pos hcond] at hif
      have := Option.some.inj hif
      subst this
      intro x hx
      rcases List.mem_cons.mp hx with hh | hh
      · subst hh
        exact ⟨ml, cap, hml, hcap, hcond.1, hl0, List.mem_cons_self _ _, hcond.2⟩
      · obtain ⟨ml2, cap2, a, b, c, hl2, hmem, d⟩ := ih hrest' x hh
        exact ⟨ml2, cap2, a, b, c, hl2, List.mem_cons_of_mem _ hmem, d⟩
    · rw [if_neg hcond] at hif
      have := Option.some.inj hif
      subst this
      intro x hx
      obtain ⟨ml2, cap2, a, b, c, hl2, hmem, d⟩ := ih hrest' x hx
      exact ⟨ml2, cap2, a, b, c, hl2, List.mem_cons_of_mem _ hmem, d⟩

theorem hrHOStep_matching {caps : CapMap} {st st' : HRState}
    (h : hrHOStep caps st = some st') :
    ∃ hospital mlh cap, pyGet st.matching hospital = some mlh ∧
      pyGet caps hospital = some cap ∧ mlh.length < cap ∧
      (∃ mlNew, pyGet st'.matching hospital = some mlNew ∧
        mlNew.length ≤ mlh.length + 1) ∧
      ∀ x mlx', x ≠ hospital → pyGet st'.matching x = some mlx' →
        ∃ mlx, pyGet st.matching x = some mlx ∧ mlx'.length ≤ mlx.length := by
  unfold hrHOStep at h
  simp only [Option.bind_eq_bind, Option.bind_eq_some] at h
  obtain ⟨frees, hfrees, h⟩ := h
  cases hfr : frees with
  | nil =>
    rw [hfr] at h
    exact Option.noConfusion h
  | cons hospital rest =>
    rw [hfr] at h
    simp only [Option.bind_eq_bind, Option.bind_eq_some] at h
    obtain ⟨hl, hhl, mlh, hmlh, resident, hres, mlh1, hmlh1x, rl, hrl, idx, hidx, h⟩ := h
    have hmem : hospital ∈ frees := by rw [hfr]; exact List.mem_cons_self _ _
    obtain ⟨ml0, cap, hml0, hcap, hlt, _⟩ := getFreeHospitals_spec hfrees hospital hmem
    have hmleq : ml0 = mlh := by
      rw [hml0] at hmlh
      exact Option.some.inj hmlh
    rw [hmleq] at hml0 hlt
    have hresnotin : resident ∉ mlh := by
      have := head?_mem hres
      rw [List.mem_filter] at this
      simpa using this.2
    have hfuneq : (fun p : Player × List Player =>
        if resident ∈ p.2 then (p.1, pyErase p.2 resident) else p) =
        (fun p : Player × List Player =>
          (p.1, if resident ∈ p.2 then pyErase p.2 resident else p.2)) := by
      funext p
      by_cases hmm : resident ∈ p.2 <;> simp [hmm]
    have hm1get : ∀ x, pyGet (st.matching.map
        (fun p => if resident ∈ p.2 then (p.1, pyErase p.2 resident) else p)) x =
        (pyGet st.matching x).map
          (fun v => if resident ∈ v then pyErase v resident else v) := by
      intro x
      rw [hfuneq]
      exact pyGet_map_value st.matching
        (fun v => if resident ∈ v then pyErase v resident else v) x
    set m1 := st.matching.map
      (fun p => if resident ∈ p.2 then (p.1, pyErase p.2 resident) else p) with hm1
    have hmlh1e : mlh1 = mlh := by
      rw [hm1get hospital, hml0] at hmlh1x
      simp only [Option.map_some'] at hmlh1x
      have := Option.some.inj hmlh1x
      rw [← this, if_neg hresnotin]
    rw [hmlh1e] at h
    have hmlh1 : pyGet m1 hospital = some mlh := by
      rw [hm1, hm1get hospital, hml0]
      simp [hresnotin]
    have hmatch : st'.matching = pySet m1 hospital (mlh ++ [resident]) := by
      by_cases hempty : (rl.drop (idx + 1)).isEmpty
      · rw [if_pos hempty] at h
        have := Option.some.inj h
        rw [← this]
      · rw [if_neg hempty] at h
        simp only [Option.bind_eq_bind, Option.bind_eq_some] at h
        obtain ⟨⟨rl', hp'⟩, _, h⟩ := h
        have := Option.some.inj h
        rw [← this]
    refine ⟨hospital, mlh, cap, hml0, hcap, hlt, ?_, ?_⟩
    · refine ⟨mlh ++ [resident], ?_, by simp⟩
      rw [hmatch]
      exact pyGet_pySet_self _ hmlh1
    · intro x mlx' hx hgetx
      rw [hmatch, pyGet_pySet_ne _ _ hx, hm1get x] at hgetx
      cases hold : pyGet st.matching x with
      | none => rw [hold] at hgetx; simp at hgetx
      | some mlx =>
        rw [hold] at hgetx
        simp only [Option.map_some'] at hgetx
        refine ⟨mlx, rfl, ?_⟩
        have := Option.some.inj hgetx
        rw [← this]
        by_cases hmm : resident ∈ mlx
        · rw [if_pos hmm]
          exact (pyErase_sublist mlx resident).length_le
        · rw [if_neg hmm]

theorem hrHOStep_capOK {caps : CapMap} {st st' : HRState}
    (hok : capOK caps st.matching) (h : hrHOStep caps st = some st') :
    capOK caps st'.matching := by
  obtain ⟨hospital, mlh, cap, hmlh, hcap, hlt, ⟨mlNew, hnew, hlen⟩, hother⟩ :=
    hrHOStep_matching h
  intro x ml c hml hc
  by_cases hx : x = hospital
  · subst hx
    rw [hnew] at hml
    rw [hcap] at hc
    have e1 := Option.some.inj hml
    have e2 := Option.some.inj hc
    rw [← e1, ← e2]
    omega
  · obtain ⟨mlx, hmlx, hlenx⟩ := hother x ml hx hml
    have := hok x mlx c hmlx hc
    omega

theorem hrPrune_shrink {hospital : Player} {succs hl : List Player} {rp : PrefMap}
    {hl' : List Player} {rp' : PrefMap}
    (h : hrPrune hospital hl rp succs = some (hl', rp')) :
    hl'.Sublist hl ∧ prefsLE rp' rp ∧ rp'.map (·.1) = rp.map (·.1) ∧
      hl'.length + succs.length = hl.length := by
  induction succs generalizing hl rp with
  | nil =>
    rw [hrPrune] at h
    have := Option.some.inj h
    rw [Prod.mk.injEq] at this
    obtain ⟨h1, h2⟩ := this
    subst h1
    subst h2
    exact ⟨List.Sublist.refl _, prefsLE_refl _, rfl, by simp⟩
  | cons r rest ih =>
    rw [hrPrune] at h
    simp only [pyRemove, Option.bind_eq_bind, Option.bind_eq_some] at h
    obtain ⟨hl1, hhl1, rlx, hrlx, h⟩ := h
    have hrmem : r ∈ hl := by
      by_contra hh
      rw [if_neg hh] at hhl1
      exact Option.noConfusion hhl1
    rw [if_pos hrmem] at hhl1
    have hhl1e : hl1 = pyErase hl r := (Option.some.inj hhl1).symm
    subst hhl1e
    obtain ⟨ih1, ih2, ih3, ih4⟩ := ih h
    have hlen := length_pyErase hrmem
    refine ⟨ih1.trans (pyErase_sublist _ _), ?_, ?_, ?_⟩
    · refine prefsLE_trans ih2 ?_
      by_cases hmm : hospital ∈ rlx
      · rw [if_pos hmm]
        exact prefsLE_pySet hrlx (pyErase_sublist _ _)
      · rw [if_neg hmm]
        exact prefsLE_refl _
    · rw [ih3]
      by_cases hmm : hospital ∈ rlx
      · rw [if_pos hmm, pySet_map_fst]
      · rw [if_neg hmm]
    · simp only [List.length_cons]
      omega

theorem hoPrune_shrink {resident : Player} {succs rl : List Player} {hp : PrefMap}
    {rl' : List Player} {hp' : PrefMap}
    (h : hoPrune resident rl hp succs = some (rl', hp')) :
    rl'.Sublist rl ∧ prefsLE hp' hp ∧ hp'.map (·.1) = hp.map (·.1) ∧
      rl'.length + succs.length = rl.length ∧
      listTotal hp' + succs.length = listTotal hp := by
  induction succs generalizing rl hp with
  | nil =>
    rw [hoPrune] at h
    have := Option.some.inj h
    rw [Prod.mk.injEq] at this
    obtain ⟨h1, h2⟩ := this
    subst h1
    subst h2
    exact ⟨List.Sublist.refl _, prefsLE_refl _, rfl, by simp, by simp⟩
  | cons x rest ih =>
    rw [hoPrune] at h
    simp only [pyRemove, Option.bind_eq_bind, Option.bind_eq_some] at h
    obtain ⟨hlx, hhlx, hlx', hhlx', rl1, hrl1, h⟩ := h
    have hxmem : resident ∈ hlx := by
      by_contra hh
      rw [if_neg hh] at hhlx'
      exact Option.noConfusion hhlx'
    rw [if_pos hxmem] at hhlx'
    have hhlx'e : hlx' = pyErase hlx resident := (Option.some.inj hhlx').symm
    have hxrl : x ∈ rl := by
      by_contra hh
      rw [if_neg hh] at hrl1
      exact Option.noConfusion hrl1
    rw [if_pos hxrl] at hrl1
    have hrl1e : rl1 = pyErase rl x := (Option.some.inj hrl1).symm
    subst hhlx'e
    subst hrl1e
    obtain ⟨ih1, ih2, ih3, ih4, ih5⟩ := ih h
    have hlen1 := length_pyErase hxrl
    have hlen2 := length_pyErase hxmem
    have htot := listTotal_pySet hhlx (pyErase hlx resident)
    refine ⟨ih1.trans (pyErase_sublist _ _), ?_, ?_, ?_, ?_⟩
    · exact prefsLE_trans ih2 (prefsLE_pySet hhlx (pyErase_sublist _ _))
    · rw [ih3, pySet_map_fst]
    · simp only [List.length_cons]
      omega
    · simp only [List.length_cons]
      omega

theorem hrROStep_shrink {caps : CapMap} {st st' : HRState}
    (h : hrROStep caps st = some st') :
    prefsLE st'.hprefs st.hprefs ∧ prefsLE st'.rprefs st.rprefs := by
  unfold hrROStep at h
  cases hfree : getFreeResidents st.rprefs st.matching with
  | nil =>
    rw [hfree] at h
    exact Option.noConfusion h
  | cons resident frees =>
    rw [hfree] at h
    simp only [Option.bind_eq_bind, Option.bind_eq_some] at h
    obtain ⟨rl, hrl, hospital, hhead, ml0, hml0, cap, hcap, m2, hm2, ml2, hml2, h⟩ := h
    by_cases hcapeq : ml2.length = cap
    · rw [if_pos hcapeq] at h
      simp only [Option.bind_eq_bind, Option.bind_eq_some] at h
      obtain ⟨worst2, hworst2, hl2, hhl2, h⟩ := h
      by_cases hempty : (hl2.drop (worst2 + 1)).isEmpty
      · rw [if_pos hempty] at h
        have := Option.some.inj h
        rw [← this]
        exact ⟨prefsLE_refl _, prefsLE_refl _⟩
      · rw [if_neg hempty] at h
        simp only [Option.bind_eq_bind, Option.bind_eq_some] at h
        obtain ⟨⟨hl', rp'⟩, hprune, h⟩ := h
        have := Option.some.inj h
        rw [← this]
        obtain ⟨hsub, hle, _, _⟩ := hrPrune_shrink hprune
        exact ⟨prefsLE_pySet hhl2 hsub, hle⟩
    · rw [if_neg hcapeq] at h
      have := Option.some.inj h
      rw [← this]
      exact ⟨prefsLE_refl _, prefsLE_refl _⟩

theorem hrHOStep_shrink {caps : CapMap} {st st' : HRState}
    (h : hrHOStep caps st = some st') :
    prefsLE st'.hprefs st.hprefs ∧ prefsLE st'.rprefs st.rprefs := by
  unfold hrHOStep at h
  simp only [Option.bind_eq_bind, Option.bind_eq_some] at h
  obtain ⟨frees, hfrees, h⟩ := h
  cases hfr : frees with
  | nil =>
    rw [hfr] at h
    exact Option.noConfusion h
  | cons hospital rest =>
    rw [hfr] at h
    simp only [Option.bind_eq_bind, Option.bind_eq_some] at h
    obtain ⟨hl, hhl, mlh, hmlh, resident, hres, mlh1, hmlh1x, rl, hrl, idx, hidx, h⟩ := h
    by_cases hempty : (rl.drop (idx + 1)).isEmpty
    · rw [if_pos hempty] at h
      have := Option.some.inj h
      rw [← this]
      exact ⟨prefsLE_refl _, prefsLE_refl _⟩
    · rw [if_neg hempty] at h
      simp only [Option.bind_eq_bind, Option.bind_eq_some] at h
      obtain ⟨⟨rl', hp'⟩, hprune, h⟩ := h
      have := Option.some.inj h
      rw [← this]
      obtain ⟨hsub, hle, _, _, _⟩ := hoPrune_shrink hprune
      exact ⟨hle, prefsLE_pySet hrl hsub⟩

theorem hrROLoop_shrink {caps : CapMap} {n : Nat} {st st' : HRState}
    (h : hrROLoop caps n st = some st') :
    prefsLE st'.hprefs st.hprefs ∧ prefsLE st'.rprefs st.rprefs := by
  induction n generalizing st with
  | zero =>
    rw [hrROLoop] at h
    by_cases hemp : (getFreeResidents st.rprefs st.matching).isEmpty
    · rw [if_pos hemp] at h
      have := Option.some.inj h
      subst this
      exact ⟨prefsLE_refl _, prefsLE_refl _⟩
    · rw [if_neg hemp] at h
      exact Option.noConfusion h
  | succ n ih =>
    rw [hrROLoop] at h
    by_cases hemp : (getFreeResidents st.rprefs st.matching).isEmpty
    · rw [if_pos hemp] at h
      have := Option.some.inj h
      subst this
      exact ⟨prefsLE_refl _, prefsLE_refl _⟩
    · rw [if_neg hemp] at h
      simp only [Option.bind_eq_bind, Option.bind_eq_some] at h
      obtain ⟨st1, hstep, hrun⟩ := h
      obtain ⟨h1, h2⟩ := hrROStep_shrink hstep
      obtain ⟨h3, h4⟩ := ih hrun
      exact ⟨prefsLE_trans h3 h1, prefsLE_trans h4 h2⟩

theorem hrHOLoop_shrink {caps : CapMap} {n : Nat} {st st' : HRState}
    (h : hrHOLoop caps n st = some st') :
    prefsLE st'.hprefs st.hprefs ∧ prefsLE st'.rprefs st.rprefs := by
  induction n generalizing st with
  | zero =>
    rw [hrHOLoop] at h
    simp only [Option.bind_eq_bind, Option.bind_eq_some] at h
    obtain ⟨frees, hfrees, h⟩ := h
    by_cases hemp : frees.isEmpty
    · rw [if_pos hemp] at h
      have := Option.some.inj h
      subst this
      exact ⟨prefsLE_refl _, prefsLE_refl _⟩
    · rw [if_neg hemp] at h
      exact Option.noConfusion h
  | succ n ih =>
    rw [hrHOLoop] at h
    simp only [Option.bind_eq_bind, Option.bind_eq_some] at h
    obtain ⟨frees, hfrees, h⟩ := h
    by_cases hemp : frees.isEmpty
    · rw [if_pos hemp] at h
      have := Option.some.inj h
      subst this
      exact ⟨prefsLE_refl _, prefsLE_refl _⟩
    · rw [if_neg hemp] at h
      simp only [Option.bind_eq_bind, Option.bind_eq_some] at h
      obtain ⟨st1, hstep, hrun⟩ := h
      obtain ⟨h1, h2⟩ := hrHOStep_shrink hstep
      obtain ⟨h3, h4⟩ := ih hrun
      exact ⟨prefsLE_trans h3 h1, prefsLE_trans h4 h2⟩

/-! ## Lemmas about the final sort of hr_resident_optimal -/

theorem mem_insertByKey {key : Player → Nat} {x a : Player} {l : List Player} :
    a ∈ insertByKey key x l ↔ a = x ∨ a ∈ l := by
  induction l with
  | nil => simp [insertByKey]
  | cons y ys ih =>
    rw [insertByKey]
    by_cases hlt : key x < key y
    · simp [hlt]
    · rw [if_neg hlt]
      simp only [List.mem_cons, ih]
      tauto

theorem insertByKey_perm (key : Player → Nat) (x : Player) (l : List Player) :
    (insertByKey key x l).Perm (x :: l) := by
  induction l with
  | nil => simp [insertByKey]
  | cons y ys ih =>
    rw [insertByKey]
    by_cases hlt : key x < key y
    · rw [if_pos hlt]
    · rw [if_neg hlt]
      exact List.Perm.trans (List.Perm.cons y ih) (List.Perm.swap x y ys)

theorem sortByKey_perm (key : Player → Nat) (l : List Player) :
    (sortByKey key l).Perm l := by
  induction l with
  | nil => simp [sortByKey]
  | cons x xs ih =>
    rw [sortByKey]
    exact List.Perm.trans (insertByKey_perm key x _) (List.Perm.cons x ih)

theorem pairwise_insertByKey {key : Player → Nat} {x : Player} {l : List Player}
    (h : l.Pairwise (fun a b => key a ≤ key b)) :
    (insertByKey key x l).Pairwise (fun a b => key a ≤ key b) := by
  induction l with
  | nil => simp [insertByKey]
  | cons y ys ih =>
    rw [List.pairwise_cons] at h
    rw [insertByKey]
    by_cases hlt : key x < key y
    · rw [if_pos hlt]
      refine List.Pairwise.cons ?_ (List.Pairwise.cons h.1 h.2)
      intro b hb
      rcases List.mem_cons.mp hb with hh | hh
      · rw [hh]
        omega
      · have := h.1 b hh
        omega
    · rw [if_neg hlt]
      refine List.Pairwise.cons ?_ (ih h.2)
      intro b hb
      rcases mem_insertByKey.mp hb with hh | hh
      · rw [hh]
        omega
      · exact h.1 b hh

theorem pairwise_sortByKey (key : Player → Nat) (l : List Player) :
    (sortByKey key l).Pairwise (fun a b => key a ≤ key b) := by
  induction l with
  | nil => simp [sortByKey]
  | cons x xs ih =>
    rw [sortByKey]
    exact pairwise_insertByKey ih

theorem pairwise_lt_of_le {key : Player → Nat} {l : List Player}
    (h : l.Pairwise (fun a b => key a ≤ key b)) (hnd : l.Nodup)
    (hinj : ∀ a ∈ l, ∀ b ∈ l, key a = key b → a = b) :
    l.Pairwise (fun a b => key a < key b) := by
  induction l with
  | nil => simp
  | cons x xs ih =>
    rw [List.pairwise_cons] at h ⊢
    rw [List.nodup_cons] at hnd
    refine ⟨?_, ?_⟩
    · intro b hb
      have hle := h.1 b hb
      have hne : x ≠ b := fun hh => hnd.1 (hh ▸ hb)
      have : key x ≠ key b := fun hh =>
        hne (hinj x (List.mem_cons_self _ _) b (List.mem_cons_of_mem _ hb) hh)
      omega
    · exact ih h.2 hnd.2 (fun a ha b hb =>
        hinj a (List.mem_cons_of_mem _ ha) b (List.mem_cons_of_mem _ hb))

theorem hrSortMatching_spec {hp : PrefMap} {m m' : List (Player × List Player)}
    (h : hrSortMatching hp m = some m') :
    ∀ x ml', pyGet m' x = some ml' →
      ∃ ml hl, pyGet m x = some ml ∧ pyGet hp x = some hl ∧
        (∀ r ∈ ml, r ∈ hl) ∧ ml' = sortByKey (fun r => pyIdx hl r) ml := by
  induction m generalizing m' with
  | nil =>
    rw [hrSortMatching] at h
    have := Option.some.inj h
    subst this
    intro x ml' hx
    simp [pyGet] at hx
  | cons p rest ih =>
    obtain ⟨k, ml⟩ := p
    rw [hrSortMatching] at h
    simp only [Option.bind_eq_bind, Option.bind_eq_some] at h
    obtain ⟨hl, hhl, h⟩ := h
    by_cases hall : ml.all (· ∈ hl)
    · rw [if_pos hall] at h
      simp only [Option.bind_eq_bind, Option.bind_eq_some] at h
      obtain ⟨rest', hrest', h⟩ := h
      have hm'e : m' = (k, sortByKey (fun r => pyIdx hl r) ml) :: rest' := by
        have := Option.some.inj h
        rw [← this]
      subst hm'e
      intro x ml' hx
      rw [pyGet] at hx
      by_cases hk : k = x
      · simp only [hk, if_pos] at hx
        have hmle := Option.some.inj hx
        refine ⟨ml, hl, ?_, ?_, ?_, hmle.symm⟩
        · rw [pyGet]
          simp [hk]
        · rw [← hk]
          exact hhl
        · intro r hr
          rw [List.all_eq_true] at hall
          simpa using hall r hr
      · simp only [hk, if_false] at hx
        obtain ⟨ml2, hl2, a, b, c, d⟩ := ih hrest' x ml' hx
        refine ⟨ml2, hl2, ?_, b, c, d⟩
        rw [pyGet]
        simp only [hk, if_false]
        exact a
    · rw [if_neg hall] at h
      exact Option.noConfusion h

/-! ## Helper lemmas for the HR invariants -/

theorem pySet_self {d : List (Player × α)} {k : Player} {v : α}
    (h : pyGet d k = some v) : pySet d k v = d := by
  induction d with
  | nil => rfl
  | cons p rest ih =>
    rw [pyGet] at h
    rw [pySet]
    by_cases hk : p.1 = k
    · rw [if_pos hk]
      rw [if_pos hk] at h
      have := Option.some.inj h
      rw [← this, ← hk]
    · rw [if_neg hk]
      rw [if_neg hk] at h
      rw [ih h]

theorem matchedB_iff {m : List (Player × List Player)} {r : Player}
    (hk : (m.map (·.1)).Nodup) :
    matchedB m r = true ↔ ∃ h ml, pyGet m h = some ml ∧ r ∈ ml := by
  rw [matchedB, List.any_eq_true]
  constructor
  · rintro ⟨q, hq, hmem⟩
    refine ⟨q.1, q.2, pyGet_of_mem_nodup hk ?_, by simpa using hmem⟩
    exact hq
  · rintro ⟨h, ml, hget, hmem⟩
    exact ⟨(h, ml), pyGet_mem hget, by simpa using hmem⟩

theorem matchedB_false {m : List (Player × List Player)} {r : Player}
    (h : ∀ q ∈ m, r ∉ q.2) : matchedB m r = false := by
  rw [matchedB]
  rw [List.any_eq_false]
  intro q hq
  simpa using h q hq

theorem pyErase_append_self {l : List Player} {x : Player} (h : x ∉ l) :
    pyErase (l ++ [x]) x = l := by
  induction l with
  | nil => simp [pyErase]
  | cons y rest ih =>
    simp only [List.mem_cons, not_or] at h
    show (if y = x then rest ++ [x] else y :: pyErase (rest ++ [x]) x) = y :: rest
    rw [if_neg (Ne.symm h.1), ih h.2]

theorem getFreeResidents_mem {rp : PrefMap} {m : List (Player × List Player)}
    {r : Player} (h : r ∈ getFreeResidents rp m) :
    ∃ rl, (r, rl) ∈ rp ∧ rl ≠ [] ∧ ∀ q ∈ m, r ∉ q.2 := by
  rw [getFreeResidents, List.mem_map] at h
  obtain ⟨p, hp, hp1⟩ := h
  rw [List.mem_filter] at hp
  refine ⟨p.2, by rw [← hp1]; exact hp.1, ?_, ?_⟩
  · have := hp.2
    simp only [Bool.and_eq_true, Bool.not_eq_true'] at this
    intro hh
    rw [← List.isEmpty_iff] at hh
    rw [this.1] at hh
    exact Bool.noConfusion hh
  · have := hp.2
    simp only [Bool.and_eq_true, Bool.not_eq_true'] at this
    intro q hq hmem
    have h2 := this.2
    rw [List.any_eq_false] at h2
    have := h2 q hq
    rw [← hp1] at hmem
    simp [hmem] at this

theorem getWorstIdx_spec {hospital : Player} {hp : PrefMap}
    {m : List (Player × List Player)} {w : Nat}
    (h : getWorstIdx hospital hp m = some w) :
    ∃ hl ml r2, pyGet hp hospital = some hl ∧ pyGet m hospital = some ml ∧
      r2 ∈ hl ∧ r2 ∈ ml ∧ w = pyIdx hl r2 ∧
      ∀ x, x ∈ hl → x ∈ ml → pyIdx hl x ≤ w := by
  rw [getWorstIdx] at h
  simp only [Option.bind_eq_bind, Option.bind_eq_some] at h
  obtain ⟨hl, hhl, ml, hml, hmax⟩ := h
  have hwmem := pyMax_mem hmax
  rw [List.mem_map] at hwmem
  obtain ⟨r2, hr2, hr2w⟩ := hwmem
  rw [List.mem_filter] at hr2
  refine ⟨hl, ml, r2, hhl, hml, hr2.1, by simpa using hr2.2, hr2w.symm, ?_⟩
  intro x hx1 hx2
  apply pyMax_ge hmax
  rw [List.mem_map]
  exact ⟨x, List.mem_filter.mpr ⟨hx1, by simpa using hx2⟩, rfl⟩

theorem getWorstIdx_isSome {hospital : Player} {hp : PrefMap}
    {m : List (Player × List Player)} {hl ml : List Player} {x : Player}
    (hhl : pyGet hp hospital = some hl) (hml : pyGet m hospital = some ml)
    (hx1 : x ∈ hl) (hx2 : x ∈ ml) : ∃ w, getWorstIdx hospital hp m = some w := by
  rw [getWorstIdx]
  simp only [hhl, hml, Option.bind_eq_bind, Option.some_bind]
  apply pyMax_of_ne_nil
  intro hh
  have hmem : pyIdx hl x ∈ (hl.filter (fun r => r ∈ ml)).map (fun r => pyIdx hl r) :=
    List.mem_map.mpr ⟨x, List.mem_filter.mpr ⟨hx1, by simpa using hx2⟩, rfl⟩
  rw [hh] at hmem
  exact List.not_mem_nil _ hmem

theorem hrPrune_spec {hospital : Player} {succs hl : List Player} {rp : PrefMap}
    (hnd : hl.Nodup) (hsnd : succs.Nodup) (hsub : ∀ x ∈ succs, x ∈ hl)
    (hin : ∀ x ∈ succs, ∃ rlx, pyGet rp x = some rlx) :
    ∃ hl' rp', hrPrune hospital hl rp succs = some (hl', rp') ∧
      (∀ y, y ∈ hl' ↔ y ∈ hl ∧ y ∉ succs) ∧ hl'.Sublist hl ∧
      (∀ x, pyGet rp' x = if x ∈ succs
        then (pyGet rp x).map (fun rlx => pyErase rlx hospital)
        else pyGet rp x) ∧
      ((∀ x ∈ succs, ∀ rlx, pyGet rp x = some rlx → hospital ∈ rlx) →
        listTotal rp' + succs.length = listTotal rp) := by
  induction succs generalizing hl rp with
  | nil =>
    refine ⟨hl, rp, rfl, by simp, List.Sublist.refl _, by simp, by simp⟩
  | cons s rest ih =>
    have hsmem : s ∈ hl := hsub s (List.mem_cons_self _ _)
    obtain ⟨rls, hrls⟩ := hin s (List.mem_cons_self _ _)
    simp only [List.nodup_cons] at hsnd
    have hnd1 : (pyErase hl s).Nodup := (pyErase_sublist hl s).nodup hnd
    have hsub1 : ∀ x ∈ rest, x ∈ pyErase hl s := by
      intro x hx
      have hne : x ≠ s := fun hh => hsnd.1 (hh ▸ hx)
      exact (mem_pyErase_of_ne hne).mpr (hsub x (List.mem_cons_of_mem _ hx))
    set rp1 := if hospital ∈ rls then pySet rp s (pyErase rls hospital) else rp
      with hrp1
    have hrp1get : ∀ x, pyGet rp1 x = if x = s
        then some (pyErase rls hospital) else pyGet rp x := by
      intro x
      rw [hrp1]
      by_cases hmm : hospital ∈ rls
      · rw [if_pos hmm, pyGet_pySet]
        by_cases hx : x = s
        · rw [if_pos hx, if_pos hx, hrls]
          rfl
        · rw [if_neg hx, if_neg hx]
      · rw [if_neg hmm]
        by_cases hx : x = s
        · rw [if_pos hx, hx, hrls, pyErase_not_mem hmm]
        · rw [if_neg hx]
    have hin1 : ∀ x ∈ rest, ∃ rlx, pyGet rp1 x = some rlx := by
      intro x hx
      have hne : x ≠ s := fun hh => hsnd.1 (hh ▸ hx)
      rw [hrp1get x, if_neg hne]
      exact hin x (List.mem_cons_of_mem _ hx)
    obtain ⟨hl', rp', hrun, hmem, hsubl, hpt, htot⟩ := ih hnd1 hsnd.2 hsub1 hin1
    refine ⟨hl', rp', ?_, ?_, hsubl.trans (pyErase_sublist _ _), ?_, ?_⟩
    · rw [hrPrune]
      simp only [pyRemove, if_pos hsmem, hrls, Option.bind_eq_bind,
        Option.some_bind]
      exact hrun
    · intro y
      rw [hmem y]
      by_cases hy : y = s
      · subst hy
        simp [not_mem_pyErase_self hnd]
      · simp [mem_pyErase_of_ne hy, hy]
    · intro x
      rw [hpt x]
      by_cases hx : x = s
      · subst hx
        have hxr : x ∉ rest := hsnd.1
        rw [if_neg hxr, hrp1get x, if_pos rfl, hrls, if_pos (List.mem_cons_self _ _)]
        rfl
      · by_cases hxr : x ∈ rest
        · rw [if_pos hxr, hrp1get x, if_neg hx, if_pos (List.mem_cons_of_mem _ hxr)]
        · rw [if_neg hxr, hrp1get x, if_neg hx, if_neg (by simp [hx, hxr])]
    · intro hmc
      have hsin : hospital ∈ rls :=
        hmc s (List.mem_cons_self _ _) rls hrls
      have htot2 := htot ?_
      · have htot3 : listTotal rp1 + 1 = listTotal rp := by
          rw [hrp1, if_pos hsin]
          have := listTotal_pySet hrls (pyErase rls hospital)
          have hlen := length_pyErase hsin
          omega
        simp only [List.length_cons]
        omega
      · intro x hx rlx hrlx
        have hne : x ≠ s := fun hh => hsnd.1 (hh ▸ hx)
        rw [hrp1get x, if_neg hne] at hrlx
        exact hmc x (List.mem_cons_of_mem _ hx) rlx hrlx

theorem pyRemove_eq_some {l l' : List Player} {x : Player}
    (h : pyRemove l x = some l') : x ∈ l ∧ l' = pyErase l x := by
  rw [pyRemove] at h
  by_cases hx : x ∈ l
  · rw [if_pos hx] at h
    exact ⟨hx, (Option.some.inj h).symm⟩
  · rw [if_neg hx] at h
    exact Option.noConfusion h

theorem hrPrune_keys {hospital : Player} {succs : List Player} :
    ∀ {hl hl' : List Player} {rp rp' : PrefMap},
    hrPrune hospital hl rp succs = some (hl', rp') →
    rp'.map (·.1) = rp.map (·.1) := by
  induction succs with
  | nil =>
    intro hl hl' rp rp' h
    rw [hrPrune] at h
    have h2 := Option.some.inj h
    cases h2
    rfl
  | cons s rest ih =>
    intro hl hl' rp rp' h
    rw [hrPrune] at h
    simp only [Option.bind_eq_bind, Option.bind_eq_some] at h
    obtain ⟨hl1, hhl1, rl, hrl, h2⟩ := h
    have h3 := ih h2
    by_cases hm : hospital ∈ rl
    · rw [if_pos hm] at h3
      rw [h3, pySet_map_fst]
    · rw [if_neg hm] at h3
      exact h3

theorem hrPrune_length {hospital : Player} {succs : List Player} :
    ∀ {hl hl' : List Player} {rp rp' : PrefMap},
    hrPrune hospital hl rp succs = some (hl', rp') →
    hl'.length + succs.length = hl.length := by
  induction succs with
  | nil =>
    intro hl hl' rp rp' h
    rw [hrPrune] at h
    have h2 := Option.some.inj h
    cases h2
    simp
  | cons s rest ih =>
    intro hl hl' rp rp' h
    rw [hrPrune] at h
    simp only [Option.bind_eq_bind, Option.bind_eq_some] at h
    obtain ⟨hl1, hhl1, rl, hrl, h2⟩ := h
    obtain ⟨hs, hl1e⟩ := pyRemove_eq_some hhl1
    have h3 := ih h2
    have h4 : hl1.length + 1 = hl.length := hl1e ▸ length_pyErase hs
    simp only [List.length_cons]
    omega

/-- Preservation of the `hr_resident_optimal` invariants by one loop body,
stated over the destructured effects of the body: the new matching `m2`
changes only `hospital`'s sequence, and the preference dicts change as by the
pruning loop over `succs` (which is empty when no pruning happens). -/
theorem hrROInv_core {hp0 rp0 : PrefMap} {caps : CapMap} {st : HRState}
    (hc : HRConsistent hp0 rp0 caps) (inv : HRInvR hp0 rp0 caps st)
    {hospital resident : Player} {rl hl ml0 : List Player} {cap : Nat}
    (hrlget : pyGet st.rprefs resident = some rl)
    (hhosp : hospital ∈ rl)
    (hfree : ∀ q ∈ st.matching, resident ∉ q.2)
    (hhl : pyGet st.hprefs hospital = some hl)
    (hml0 : pyGet st.matching hospital = some ml0)
    (hcap : pyGet caps hospital = some cap)
    {m2 : List (Player × List Player)} {ml2 : List Player}
    (hm2get : ∀ h, pyGet m2 h =
      if h = hospital then some ml2 else pyGet st.matching h)
    (hm2keys : m2.map (·.1) = st.matching.map (·.1))
    (hml2sub : ∀ r ∈ ml2, r ∈ ml0 ∨ r = resident)
    (hml2nd : ml2.Nodup)
    (hml2len : ml2.length ≤ cap)
    {succs hl' : List Player} {rp' : PrefMap}
    (hsuccs : ∀ y ∈ succs, y ∈ hl ∧ y ∉ ml2)
    (hmem' : ∀ y, y ∈ hl' ↔ y ∈ hl ∧ y ∉ succs)
    (hsubl' : hl'.Sublist hl)
    (hrpkeys : rp'.map (·.1) = st.rprefs.map (·.1))
    (hrpget : ∀ x, pyGet rp' x = if x ∈ succs
      then (pyGet st.rprefs x).map (fun rlx => pyErase rlx hospital)
      else pyGet st.rprefs x) :
    HRInvR hp0 rp0 caps
      { hprefs := pySet st.hprefs hospital hl', rprefs := rp', matching := m2 } := by
  have hres_hl : resident ∈ hl :=
    (inv.mc hospital resident hl rl hhl hrlget).mpr hhosp
  have hml2hl : ∀ r ∈ ml2, r ∈ hl := by
    intro r hr
    rcases hml2sub r hr with hr0 | hr0
    · obtain ⟨hlx, hhlx, hsx⟩ := inv.matched_sub hospital ml0 hml0
      rw [hhl] at hhlx
      exact (Option.some.inj hhlx) ▸ hsx r hr0
    · exact hr0 ▸ hres_hl
  refine ⟨?_, ?_, ?_, ?_, ?_, ?_, ?_, ?_, ?_, ?_⟩
  · -- caple
    intro h ml c hmlget hcget
    have hmlget2 : pyGet m2 h = some ml := hmlget
    rw [hm2get h] at hmlget2
    by_cases hh : h = hospital
    · rw [if_pos hh] at hmlget2
      rw [hh, hcap] at hcget
      rw [← Option.some.inj hmlget2, ← Option.some.inj hcget]
      exact hml2len
    · rw [if_neg hh] at hmlget2
      exact inv.caple h ml c hmlget2 hcget
  · -- hkeys
    show (pySet st.hprefs hospital hl').map (·.1) = hp0.map (·.1)
    rw [pySet_map_fst]
    exact inv.hkeys
  · -- rkeys
    exact hrpkeys.trans inv.rkeys
  · -- mkeys
    exact hm2keys.trans inv.mkeys
  · -- hsub
    exact prefsLE_trans (prefsLE_pySet hhl hsubl') inv.hsub
  · -- rsub
    intro x lx hx
    have hx2 : pyGet rp' x = some lx := hx
    rw [hrpget x] at hx2
    by_cases hxs : x ∈ succs
    · rw [if_pos hxs] at hx2
      obtain ⟨rlx, hrlx, hlxe⟩ := Option.map_eq_some'.mp hx2
      obtain ⟨l0, hl0, hs0⟩ := inv.rsub x rlx hrlx
      exact ⟨l0, hl0, hlxe ▸ (pyErase_sublist rlx hospital).trans hs0⟩
    · rw [if_neg hxs] at hx2
      exact inv.rsub x lx hx2
  · -- mc
    intro h r hlh rlr hhlh hrlr
    have hhlh2 : pyGet (pySet st.hprefs hospital hl') h = some hlh := hhlh
    have hrlr2 : pyGet rp' r = some rlr := hrlr
    rw [pyGet_pySet] at hhlh2
    rw [hrpget r] at hrlr2
    by_cases hh : h = hospital
    · rw [if_pos hh, hhl] at hhlh2
      have hlhe : hlh = hl' := (Option.some.inj hhlh2).symm
      subst hlhe
      by_cases hrs : r ∈ succs
      · rw [if_pos hrs] at hrlr2
        obtain ⟨rlr0, hrlr0, hre⟩ := Option.map_eq_some'.mp hrlr2
        have hrlr0nd : rlr0.Nodup := by
          obtain ⟨l0, hl0, hs0⟩ := inv.rsub r rlr0 hrlr0
          exact hs0.nodup (hc.rlists _ (pyGet_mem hl0)).1
        constructor
        · intro hmem
          exact absurd hrs ((hmem' r).mp hmem).2
        · intro hmem
          rw [hh, ← hre] at hmem
          exact absurd hmem (not_mem_pyErase_self hrlr0nd)
      · rw [if_neg hrs] at hrlr2
        have hold := inv.mc hospital r hl rlr hhl hrlr2
        rw [hmem' r, hh]
        constructor
        · intro hmem
          exact hold.mp hmem.1
        · intro hmem
          exact ⟨hold.mpr hmem, hrs⟩
    · rw [if_neg hh] at hhlh2
      by_cases hrs : r ∈ succs
      · rw [if_pos hrs] at hrlr2
        obtain ⟨rlr0, hrlr0, hre⟩ := Option.map_eq_some'.mp hrlr2
        have hold := inv.mc h r hlh rlr0 hhlh2 hrlr0
        rw [← hre, mem_pyErase_of_ne hh]
        exact hold
      · rw [if_neg hrs] at hrlr2
        exact inv.mc h r hlh rlr hhlh2 hrlr2
  · -- matched_sub
    intro h ml hmlget
    have hmlget2 : pyGet m2 h = some ml := hmlget
    rw [hm2get h] at hmlget2
    by_cases hh : h = hospital
    · rw [if_pos hh] at hmlget2
      have hmle : ml = ml2 := (Option.some.inj hmlget2).symm
      refine ⟨hl', ?_, ?_⟩
      · show pyGet (pySet st.hprefs hospital hl') h = some hl'
        rw [hh]
        exact pyGet_pySet_self hl' hhl
      · intro r hr
        rw [hmle] at hr
        refine (hmem' r).mpr ⟨hml2hl r hr, ?_⟩
        intro hrs
        exact (hsuccs r hrs).2 hr
    · rw [if_neg hh] at hmlget2
      obtain ⟨hlh, hhlh, hsub⟩ := inv.matched_sub h ml hmlget2
      refine ⟨hlh, ?_, hsub⟩
      show pyGet (pySet st.hprefs hospital hl') h = some hlh
      rw [pyGet_pySet_ne _ _ hh]
      exact hhlh
  · -- matched_nodup
    intro h ml hmlget
    have hmlget2 : pyGet m2 h = some ml := hmlget
    rw [hm2get h] at hmlget2
    by_cases hh : h = hospital
    · rw [if_pos hh] at hmlget2
      exact (Option.some.inj hmlget2) ▸ hml2nd
    · rw [if_neg hh] at hmlget2
      exact inv.matched_nodup h ml hmlget2
  · -- matched_uniq
    intro h1 h2 mla mlb r hga hgb hra hrb
    have hga2 : pyGet m2 h1 = some mla := hga
    have hgb2 : pyGet m2 h2 = some mlb := hgb
    rw [hm2get h1] at hga2
    rw [hm2get h2] at hgb2
    by_cases hh1 : h1 = hospital
    · rw [if_pos hh1] at hga2
      by_cases hh2 : h2 = hospital
      · rw [hh1, hh2]
      · rw [if_neg hh2] at hgb2
        rw [← Option.some.inj hga2] at hra
        rcases hml2sub r hra with hr0 | hr0
        · exact absurd (inv.matched_uniq hospital h2 ml0 mlb r hml0 hgb2 hr0 hrb)
            (fun hcon => hh2 hcon.symm)
        · exact absurd hrb (hr0 ▸ hfree (h2, mlb) (pyGet_mem hgb2))
    · rw [if_neg hh1] at hga2
      by_cases hh2 : h2 = hospital
      · rw [if_pos hh2] at hgb2
        rw [← Option.some.inj hgb2] at hrb
        rcases hml2sub r hrb with hr0 | hr0
        · exact (inv.matched_uniq h1 hospital mla ml0 r hga2 hml0 hra hr0).trans hh2.symm
        · exact absurd hra (hr0 ▸ hfree (h1, mla) (pyGet_mem hga2))
      · rw [if_neg hh2] at hgb2
        exact inv.matched_uniq h1 h2 mla mlb r hga2 hgb2 hra hrb

/-- When a free resident is appended to a hospital's sequence and nobody is
evicted, the number of unmatched residents strictly decreases. -/
theorem hrCount_strict {K : List Player} {mOld m2 : List (Player × List Player)}
    {hospital resident : Player} {ml0 ml2 : List Player}
    (hm2get : ∀ h, pyGet m2 h = if h = hospital then some ml2 else pyGet mOld h)
    (hml0 : pyGet mOld hospital = some ml0)
    (hmnd : (mOld.map (·.1)).Nodup)
    (hm2keys : m2.map (·.1) = mOld.map (·.1))
    (hsub : ∀ r ∈ ml0, r ∈ ml2) (hres2 : resident ∈ ml2)
    (hresK : resident ∈ K)
    (hfree : ∀ q ∈ mOld, resident ∉ q.2) :
    (K.filter (fun r => !matchedB m2 r)).length <
      (K.filter (fun r => !matchedB mOld r)).length := by
  have hm2nd : (m2.map (·.1)).Nodup := hm2keys ▸ hmnd
  have key : ∀ x, matchedB mOld x = true → matchedB m2 x = true := by
    intro x hx
    obtain ⟨h, ml, hget, hxm⟩ := (matchedB_iff hmnd).mp hx
    by_cases hh : h = hospital
    · rw [hh, hml0] at hget
      refine (matchedB_iff hm2nd).mpr ⟨hospital, ml2, ?_, ?_⟩
      · rw [hm2get hospital, if_pos rfl]
      · exact hsub x ((Option.some.inj hget) ▸ hxm)
    · refine (matchedB_iff hm2nd).mpr ⟨h, ml, ?_, hxm⟩
      rw [hm2get h, if_neg hh]
      exact hget
  apply filter_length_strict (a := resident)
  · intro x _ hx'
    rw [Bool.not_eq_true'] at hx' ⊢
    cases hmo : matchedB mOld x
    · rfl
    · rw [key x hmo] at hx'
      exact hx'
  · exact hresK
  · rw [Bool.not_eq_true', matchedB_false hfree]
  · rw [Bool.not_eq_false']
    refine (matchedB_iff hm2nd).mpr ⟨hospital, ml2, ?_, hres2⟩
    rw [hm2get hospital, if_pos rfl]

/-- When the proposing resident displaces the hospital's worst resident
`r2`, the number of unmatched residents grows by at most one. -/
theorem hrCount_le_add_one {K : List Player}
    {mOld m2 : List (Player × List Player)}
    {hospital r2 : Player} {ml0 ml2 : List Player}
    (hm2get : ∀ h, pyGet m2 h = if h = hospital then some ml2 else pyGet mOld h)
    (hml0 : pyGet mOld hospital = some ml0)
    (hmnd : (mOld.map (·.1)).Nodup)
    (hm2keys : m2.map (·.1) = mOld.map (·.1))
    (hsub : ∀ x ∈ ml0, x ≠ r2 → x ∈ ml2)
    (hKnd : K.Nodup) :
    (K.filter (fun r => !matchedB m2 r)).length ≤
      (K.filter (fun r => !matchedB mOld r)).length + 1 := by
  have hm2nd : (m2.map (·.1)).Nodup := hm2keys ▸ hmnd
  apply filter_length_le_add_one (a := r2) ?_ hKnd
  intro x _ hx'
  rw [Bool.not_eq_true'] at hx'
  by_cases hxr : x = r2
  · exact Or.inr hxr
  · left
    rw [Bool.not_eq_true']
    cases hmo : matchedB mOld x
    · rfl
    · exfalso
      obtain ⟨h, ml, hget, hxm⟩ := (matchedB_iff hmnd).mp hmo
      have hx2 : matchedB m2 x = true := by
        by_cases hh : h = hospital
        · rw [hh, hml0] at hget
          refine (matchedB_iff hm2nd).mpr ⟨hospital, ml2, ?_, ?_⟩
          · rw [hm2get hospital, if_pos rfl]
          · exact hsub x ((Option.some.inj hget) ▸ hxm) hxr
        · refine (matchedB_iff hm2nd).mpr ⟨h, ml, ?_, hxm⟩
          rw [hm2get h, if_neg hh]
          exact hget
      rw [hx2] at hx'
      exact Bool.noConfusion hx'

/-- One iteration of the `hr_resident_optimal` loop on a consistent instance
succeeds, preserves the invariants, and strictly decreases the measure. -/
theorem hrROStep_spec {hp0 rp0 : PrefMap} {caps : CapMap} {st : HRState}
    (hc : HRConsistent hp0 rp0 caps) (inv : HRInvR hp0 rp0 caps st)
    (hne : getFreeResidents st.rprefs st.matching ≠ []) :
    ∃ st', hrROStep caps st = some st' ∧ HRInvR hp0 rp0 caps st' ∧
      hrMeasure st' < hrMeasure st := by
  obtain ⟨resident, rest, hq⟩ := List.exists_cons_of_ne_nil hne
  have hresmem : resident ∈ getFreeResidents st.rprefs st.matching := by
    rw [hq]
    exact List.mem_cons_self _ _
  obtain ⟨rl, hrlmem, hrlne, hfree⟩ := getFreeResidents_mem hresmem
  have hrpnd : (st.rprefs.map (·.1)).Nodup := by
    rw [inv.rkeys]
    exact hc.rnodup
  have hmnd : (st.matching.map (·.1)).Nodup := by
    rw [inv.mkeys]
    exact hc.hnodup
  have hrlget : pyGet st.rprefs resident = some rl := pyGet_of_mem_nodup hrpnd hrlmem
  obtain ⟨hospital, rl', hrle⟩ := List.exists_cons_of_ne_nil hrlne
  have hhead : rl.head? = some hospital := by
    rw [hrle]
    rfl
  have hhosp : hospital ∈ rl := by
    rw [hrle]
    exact List.mem_cons_self _ _
  obtain ⟨rl0, hrl0, hsubrl⟩ := inv.rsub resident rl hrlget
  have hhospkey : hospital ∈ hp0.map (·.1) :=
    (hc.rlists _ (pyGet_mem hrl0)).2 hospital (hsubrl.subset hhosp)
  obtain ⟨hl, hhl⟩ := pyGet_of_key (show hospital ∈ st.hprefs.map (·.1) by
    rw [inv.hkeys]; exact hhospkey)
  obtain ⟨ml0, hml0⟩ := pyGet_of_key (show hospital ∈ st.matching.map (·.1) by
    rw [inv.mkeys]; exact hhospkey)
  obtain ⟨cap, hcap, hcappos⟩ := hc.capskeys hospital hhospkey
  have hres_hl : resident ∈ hl :=
    (inv.mc hospital resident hl rl hhl hrlget).mpr hhosp
  have hml0cap : ml0.length ≤ cap := inv.caple hospital ml0 cap hml0 hcap
  have hresml0 : resident ∉ ml0 := hfree (hospital, ml0) (pyGet_mem hml0)
  have hml0nd : ml0.Nodup := inv.matched_nodup hospital ml0 hml0
  have hml0hl : ∀ r ∈ ml0, r ∈ hl := by
    obtain ⟨hlx, hhlx, hsx⟩ := inv.matched_sub hospital ml0 hml0
    rw [hhl] at hhlx
    exact (Option.some.inj hhlx) ▸ hsx
  obtain ⟨hl0, hhl0, hsubhl⟩ := inv.hsub hospital hl hhl
  have hlnd : hl.Nodup := hsubhl.nodup (hc.hlists _ (pyGet_mem hhl0)).1
  have hresK : resident ∈ st.rprefs.map (·.1) := pyGet_key hrlget
  have hm1get : ∀ h, pyGet (pySet st.matching hospital (ml0 ++ [resident])) h =
      if h = hospital then some (ml0 ++ [resident]) else pyGet st.matching h := by
    intro h
    rw [pyGet_pySet]
    by_cases hh : h = hospital
    · rw [if_pos hh, if_pos hh, hml0]
      rfl
    · rw [if_neg hh, if_neg hh]
  have hm1hosp : pyGet (pySet st.matching hospital (ml0 ++ [resident])) hospital =
      some (ml0 ++ [resident]) := by
    rw [hm1get, if_pos rfl]
  have hml1nd : (ml0 ++ [resident]).Nodup := by
    rw [List.nodup_append]
    exact ⟨hml0nd, List.nodup_singleton _, by
      intro a ha hb
      rw [List.mem_singleton] at hb
      exact hresml0 (hb ▸ ha)⟩
  have hml1hl : ∀ r ∈ ml0 ++ [resident], r ∈ hl := by
    intro r hr
    rw [List.mem_append, List.mem_singleton] at hr
    rcases hr with hr | hr
    · exact hml0hl r hr
    · exact hr ▸ hres_hl
  have hresml1 : resident ∈ ml0 ++ [resident] := by
    rw [List.mem_append, List.mem_singleton]
    exact Or.inr rfl
  have hm1keys : (pySet st.matching hospital (ml0 ++ [resident])).map (·.1) =
      st.matching.map (·.1) := pySet_map_fst _ _ _
  have hin_succs : ∀ x ∈ hl, ∃ rlx, pyGet st.rprefs x = some rlx := by
    intro x hx
    apply pyGet_of_key
    rw [inv.rkeys]
    exact (hc.hlists _ (pyGet_mem hhl0)).2 x (hsubhl.subset hx)
  by_cases hlt : cap < (ml0 ++ [resident]).length
  · -- eviction: the hospital was exactly full before the proposal
    have hml0len : ml0.length = cap := by
      have : (ml0 ++ [resident]).length = ml0.length + 1 := by simp
      omega
    obtain ⟨worst1, hw1⟩ := getWorstIdx_isSome hhl hm1hosp hres_hl hresml1
    obtain ⟨hlx, mlx, r2, hhlx, hmlx, hr2hl, hr2ml1, hw1eq, hw1max⟩ :=
      getWorstIdx_spec hw1
    rw [hhl] at hhlx
    rw [hm1hosp] at hmlx
    have hhlxe : hlx = hl := (Option.some.inj hhlx).symm
    have hmlxe : mlx = ml0 ++ [resident] := (Option.some.inj hmlx).symm
    rw [hhlxe] at hr2hl hw1eq hw1max
    rw [hmlxe] at hr2ml1 hw1max
    have hget2 : hl.get? worst1 = some r2 := by
      rw [hw1eq]
      exact get_pyIdx hr2hl
    have hremv : pyRemove (ml0 ++ [resident]) r2 =
        some (pyErase (ml0 ++ [resident]) r2) := by
      rw [pyRemove, if_pos hr2ml1]
    have hm2get : ∀ h, pyGet (pySet (pySet st.matching hospital (ml0 ++ [resident]))
        hospital (pyErase (ml0 ++ [resident]) r2)) h =
        if h = hospital then some (pyErase (ml0 ++ [resident]) r2)
        else pyGet st.matching h := by
      intro h
      rw [pyGet_pySet]
      by_cases hh : h = hospital
      · rw [if_pos hh, if_pos hh, hm1hosp]
        rfl
      · rw [if_neg hh, if_neg hh, hm1get, if_neg hh]
    have hm2hosp : pyGet (pySet (pySet st.matching hospital (ml0 ++ [resident]))
        hospital (pyErase (ml0 ++ [resident]) r2)) hospital =
        some (pyErase (ml0 ++ [resident]) r2) := by
      rw [hm2get, if_pos rfl]
    have hm2keys : (pySet (pySet st.matching hospital (ml0 ++ [resident]))
        hospital (pyErase (ml0 ++ [resident]) r2)).map (·.1) =
        st.matching.map (·.1) := by
      rw [pySet_map_fst, pySet_map_fst]
    have hml2len : (pyErase (ml0 ++ [resident]) r2).length = cap := by
      have h1 := length_pyErase hr2ml1
      have h2 : (ml0 ++ [resident]).length = ml0.length + 1 := by simp
      omega
    have hml2nd : (pyErase (ml0 ++ [resident]) r2).Nodup :=
      (pyErase_sublist _ _).nodup hml1nd
    have hml2sub : ∀ r ∈ pyErase (ml0 ++ [resident]) r2, r ∈ ml0 ∨ r = resident := by
      intro r hr
      have := (pyErase_sublist (ml0 ++ [resident]) r2).subset hr
      rw [List.mem_append, List.mem_singleton] at this
      exact this
    have hml2hl : ∀ r ∈ pyErase (ml0 ++ [resident]) r2, r ∈ hl := by
      intro r hr
      exact hml1hl r ((pyErase_sublist _ _).subset hr)
    have hr2not2 : r2 ∉ pyErase (ml0 ++ [resident]) r2 :=
      not_mem_pyErase_self hml1nd
    have hml2ne : pyErase (ml0 ++ [resident]) r2 ≠ [] := by
      intro hcon
      rw [hcon] at hml2len
      simp at hml2len
      omega
    obtain ⟨x0, ml2', hml2e⟩ := List.exists_cons_of_ne_nil hml2ne
    have hx0ml2 : x0 ∈ pyErase (ml0 ++ [resident]) r2 := by
      rw [hml2e]
      exact List.mem_cons_self _ _
    obtain ⟨worst2, hw2⟩ := getWorstIdx_isSome hhl hm2hosp (hml2hl x0 hx0ml2) hx0ml2
    obtain ⟨hly, mly, r2', hhly, hmly, hr2'hl, hr2'ml2, hw2eq, hw2max⟩ :=
      getWorstIdx_spec hw2
    rw [hhl] at hhly
    rw [hm2hosp] at hmly
    have hhlye : hly = hl := (Option.some.inj hhly).symm
    have hmlye : mly = pyErase (ml0 ++ [resident]) r2 := (Option.some.inj hmly).symm
    rw [hhlye] at hr2'hl hw2eq hw2max
    rw [hmlye] at hr2'ml2 hw2max
    have hr2'ne : r2' ≠ r2 := by
      intro hcon
      exact hr2not2 (hcon ▸ hr2'ml2)
    have hidxlt : pyIdx hl r2' < pyIdx hl r2 := by
      have hle : pyIdx hl r2' ≤ worst1 :=
        hw1max r2' hr2'hl ((pyErase_sublist _ _).subset hr2'ml2)
      rw [hw1eq] at hle
      rcases Nat.lt_or_ge (pyIdx hl r2') (pyIdx hl r2) with h | h
      · exact h
      · exact absurd (pyIdx_inj hr2'hl hr2hl (Nat.le_antisymm hle h)) hr2'ne
    have hr2succs : r2 ∈ hl.drop (worst2 + 1) := by
      rw [hw2eq]
      exact (mem_drop_pyIdx hlnd hr2'hl).mpr ⟨hr2hl, hidxlt⟩
    have hsuccs : ∀ y ∈ hl.drop (worst2 + 1), y ∈ hl ∧
        y ∉ pyErase (ml0 ++ [resident]) r2 := by
      intro y hy
      rw [hw2eq] at hy
      have h1 := (mem_drop_pyIdx hlnd hr2'hl).mp hy
      refine ⟨h1.1, ?_⟩
      intro hy2
      have := hw2max y h1.1 hy2
      rw [hw2eq] at this
      omega
    have hse : (hl.drop (worst2 + 1)).isEmpty = false := by
      cases hemp : (hl.drop (worst2 + 1)).isEmpty
      · rfl
      · rw [List.isEmpty_iff] at hemp
        rw [hemp] at hr2succs
        exact absurd hr2succs (List.not_mem_nil r2)
    have hsnd : (hl.drop (worst2 + 1)).Nodup := (List.drop_sublist _ _).nodup hlnd
    obtain ⟨hl', rp', hprune, hmem', hsubl', hpt, htot⟩ :=
      hrPrune_spec hlnd hsnd (fun x hx => (hsuccs x hx).1)
        (fun x hx => hin_succs x (hsuccs x hx).1)
    have hmc2 : ∀ x ∈ hl.drop (worst2 + 1), ∀ rlx,
        pyGet st.rprefs x = some rlx → hospital ∈ rlx := by
      intro x hx rlx hrlx
      exact (inv.mc hospital x hl rlx hhl hrlx).mp (hsuccs x hx).1
    have htot2 := htot hmc2
    have hrpkeys := hrPrune_keys hprune
    have hlen := hrPrune_length hprune
    have hslen : 1 ≤ (hl.drop (worst2 + 1)).length :=
      List.length_pos.mpr (List.ne_nil_of_mem hr2succs)
    refine ⟨HRState.mk (pySet st.hprefs hospital hl') rp'
      (pySet (pySet st.matching hospital (ml0 ++ [resident]))
        hospital (pyErase (ml0 ++ [resident]) r2)), ?_, ?_, ?_⟩
    · unfold hrROStep
      rw [hq]
      simp only [hrlget, hhead, hml0, hcap, hm1hosp, Option.bind_eq_bind,
        Option.some_bind]
      rw [if_pos hlt]
      simp only [hw1, hhl, hget2, hremv, Option.bind_eq_bind, Option.some_bind,
        Option.pure_def, hm2hosp]
      rw [if_pos hml2len]
      simp only [hw2, Option.some_bind, Option.bind_eq_bind, Option.pure_def]
      rw [if_neg (show ¬(hl.drop (worst2 + 1)).isEmpty = true by
        rw [hse]; exact Bool.false_ne_true)]
      simp only [hprune, Option.some_bind, Option.bind_eq_bind, Option.pure_def]
    · exact hrROInv_core hc inv hrlget hhosp hfree hhl hml0 hcap hm2get hm2keys
        hml2sub hml2nd (Nat.le_of_eq hml2len) hsuccs hmem' hsubl' hrpkeys hpt
    · show listTotal (pySet st.hprefs hospital hl') + listTotal rp' +
        ((rp'.map (·.1)).filter (fun r => !matchedB (pySet (pySet st.matching
          hospital (ml0 ++ [resident])) hospital
          (pyErase (ml0 ++ [resident]) r2)) r)).length <
        listTotal st.hprefs + listTotal st.rprefs +
        ((st.rprefs.map (·.1)).filter (fun r => !matchedB st.matching r)).length
      rw [hrpkeys]
      have hTh := listTotal_pySet hhl hl'
      have hsubml : ∀ x ∈ ml0, x ≠ r2 → x ∈ pyErase (ml0 ++ [resident]) r2 := by
        intro x hx hxr
        rw [mem_pyErase_of_ne hxr, List.mem_append]
        exact Or.inl hx
      have hcount : ((st.rprefs.map (·.1)).filter (fun r => !matchedB (pySet
          (pySet st.matching hospital (ml0 ++ [resident])) hospital
          (pyErase (ml0 ++ [resident]) r2)) r)).length ≤
          ((st.rprefs.map (·.1)).filter (fun r => !matchedB st.matching r)).length
            + 1 :=
        hrCount_le_add_one hm2get hml0 hmnd hm2keys hsubml hrpnd
      omega
  · -- no eviction
    have hnoev : ¬ cap < (ml0 ++ [resident]).length := hlt
    have hml1len : (ml0 ++ [resident]).length ≤ cap := Nat.le_of_not_lt hnoev
    have hml1sub : ∀ r ∈ ml0 ++ [resident], r ∈ ml0 ∨ r = resident := by
      intro r hr
      rw [List.mem_append, List.mem_singleton] at hr
      exact hr
    have hcount : ((st.rprefs.map (·.1)).filter (fun r => !matchedB (pySet
        st.matching hospital (ml0 ++ [resident])) r)).length <
        ((st.rprefs.map (·.1)).filter (fun r => !matchedB st.matching r)).length := by
      apply hrCount_strict hm1get hml0 hmnd hm1keys ?_ hresml1 hresK hfree
      intro r hr
      rw [List.mem_append]
      exact Or.inl hr
    by_cases hatcap : (ml0 ++ [resident]).length = cap
    · -- the hospital is now exactly full: prune the worst's successors
      obtain ⟨worst2, hw2⟩ := getWorstIdx_isSome hhl hm1hosp hres_hl hresml1
      obtain ⟨hly, mly, r2', hhly, hmly, hr2'hl, hr2'ml2, hw2eq, hw2max⟩ :=
        getWorstIdx_spec hw2
      rw [hhl] at hhly
      rw [hm1hosp] at hmly
      have hhlye : hly = hl := (Option.some.inj hhly).symm
      have hmlye : mly = ml0 ++ [resident] := (Option.some.inj hmly).symm
      rw [hhlye] at hr2'hl hw2eq hw2max
      rw [hmlye] at hr2'ml2 hw2max
      have hsuccs : ∀ y ∈ hl.drop (worst2 + 1), y ∈ hl ∧
          y ∉ ml0 ++ [resident] := by
        intro y hy
        rw [hw2eq] at hy
        have h1 := (mem_drop_pyIdx hlnd hr2'hl).mp hy
        refine ⟨h1.1, ?_⟩
        intro hy2
        have := hw2max y h1.1 hy2
        rw [hw2eq] at this
        omega
      cases hemp : (hl.drop (worst2 + 1)).isEmpty
      · -- successors exist: prune them
        have hsnd : (hl.drop (worst2 + 1)).Nodup := (List.drop_sublist _ _).nodup hlnd
        obtain ⟨hl', rp', hprune, hmem', hsubl', hpt, htot⟩ :=
          hrPrune_spec hlnd hsnd (fun x hx => (hsuccs x hx).1)
            (fun x hx => hin_succs x (hsuccs x hx).1)
        have hmc2 : ∀ x ∈ hl.drop (worst2 + 1), ∀ rlx,
            pyGet st.rprefs x = some rlx → hospital ∈ rlx := by
          intro x hx rlx hrlx
          exact (inv.mc hospital x hl rlx hhl hrlx).mp (hsuccs x hx).1
        have htot2 := htot hmc2
        have hrpkeys := hrPrune_keys hprune
        have hlen := hrPrune_length hprune
        refine ⟨HRState.mk (pySet st.hprefs hospital hl') rp'
          (pySet st.matching hospital (ml0 ++ [resident])), ?_, ?_, ?_⟩
        · unfold hrROStep
          rw [hq]
          simp only [hrlget, hhead, hml0, hcap, hm1hosp, Option.bind_eq_bind,
            Option.some_bind]
          rw [if_neg hnoev]
          simp only [hm1hosp, Option.some_bind, Option.bind_eq_bind,
            Option.pure_def]
          rw [if_pos hatcap]
          simp only [hw2, hhl, Option.some_bind, Option.bind_eq_bind,
            Option.pure_def]
          rw [if_neg (show ¬(hl.drop (worst2 + 1)).isEmpty = true by
            rw [hemp]; exact Bool.false_ne_true)]
          simp only [hprune, Option.some_bind, Option.bind_eq_bind,
            Option.pure_def]
        · exact hrROInv_core hc inv hrlget hhosp hfree hhl hml0 hcap hm1get hm1keys
            hml1sub hml1nd hml1len hsuccs hmem' hsubl' hrpkeys hpt
        · show listTotal (pySet st.hprefs hospital hl') + listTotal rp' +
            ((rp'.map (·.1)).filter (fun r => !matchedB (pySet st.matching
              hospital (ml0 ++ [resident])) r)).length <
            listTotal st.hprefs + listTotal st.rprefs +
            ((st.rprefs.map (·.1)).filter (fun r => !matchedB st.matching r)).length
          rw [hrpkeys]
          have hTh := listTotal_pySet hhl hl'
          omega
      · -- no successors: the state only gains the new match
        refine ⟨HRState.mk st.hprefs st.rprefs
            (pySet st.matching hospital (ml0 ++ [resident])), ?_, ?_, ?_⟩
        · unfold hrROStep
          rw [hq]
          simp only [hrlget, hhead, hml0, hcap, hm1hosp, Option.bind_eq_bind,
            Option.some_bind]
          rw [if_neg hnoev]
          simp only [hm1hosp, Option.some_bind, Option.bind_eq_bind,
            Option.pure_def]
          rw [if_pos hatcap]
          simp only [hw2, hhl, Option.some_bind, Option.bind_eq_bind,
            Option.pure_def]
          rw [if_pos hemp]
        · have hsuccs0 : ∀ y ∈ ([] : List Player), y ∈ hl ∧
              y ∉ ml0 ++ [resident] :=
            fun y hy => absurd hy (List.not_mem_nil y)
          have hmem0 : ∀ y, y ∈ hl ↔ y ∈ hl ∧ y ∉ ([] : List Player) :=
            fun y => by simp
          have hrpget0 : ∀ x, pyGet st.rprefs x = if x ∈ ([] : List Player)
              then (pyGet st.rprefs x).map (fun rlx => pyErase rlx hospital)
              else pyGet st.rprefs x :=
            fun x => by rw [if_neg (List.not_mem_nil x)]
          have hcore := hrROInv_core hc inv hrlget hhosp hfree hhl hml0 hcap
            hm1get hm1keys hml1sub hml1nd hml1len hsuccs0 hmem0
            (List.Sublist.refl hl) rfl hrpget0
          rw [pySet_self hhl] at hcore
          exact hcore
        · show listTotal st.hprefs + listTotal st.rprefs +
            ((st.rprefs.map (·.1)).filter (fun r => !matchedB (pySet st.matching
              hospital (ml0 ++ [resident])) r)).length <
            listTotal st.hprefs + listTotal st.rprefs +
            ((st.rprefs.map (·.1)).filter (fun r => !matchedB st.matching r)).length
          omega
    · -- the hospital is still under capacity
      refine ⟨HRState.mk st.hprefs st.rprefs
          (pySet st.matching hospital (ml0 ++ [resident])), ?_, ?_, ?_⟩
      · unfold hrROStep
        rw [hq]
        simp only [hrlget, hhead, hml0, hcap, hm1hosp, Option.bind_eq_bind,
          Option.some_bind]
        rw [if_neg hnoev]
        simp only [hm1hosp, Option.some_bind, Option.bind_eq_bind,
          Option.pure_def]
        rw [if_neg hatcap]
      · have hsuccs0 : ∀ y ∈ ([] : List Player), y ∈ hl ∧
            y ∉ ml0 ++ [resident] :=
          fun y hy => absurd hy (List.not_mem_nil y)
        have hmem0 : ∀ y, y ∈ hl ↔ y ∈ hl ∧ y ∉ ([] : List Player) :=
          fun y => by simp
        have hrpget0 : ∀ x, pyGet st.rprefs x = if x ∈ ([] : List Player)
            then (pyGet st.rprefs x).map (fun rlx => pyErase rlx hospital)
            else pyGet st.rprefs x :=
          fun x => by rw [if_neg (List.not_mem_nil x)]
        have hcore := hrROInv_core hc inv hrlget hhosp hfree hhl hml0 hcap
          hm1get hm1keys hml1sub hml1nd hml1len hsuccs0 hmem0
          (List.Sublist.refl hl) rfl hrpget0
        rw [pySet_self hhl] at hcore
        exact hcore
      · show listTotal st.hprefs + listTotal st.rprefs +
          ((st.rprefs.map (·.1)).filter (fun r => !matchedB (pySet st.matching
            hospital (ml0 ++ [resident])) r)).length <
          listTotal st.hprefs + listTotal st.rprefs +
          ((st.rprefs.map (·.1)).filter (fun r => !matchedB st.matching r)).length
        omega

theorem hrInit_matching_get (hp rp : PrefMap) (h : Player) :
    pyGet (hrInit hp rp).matching h = (pyGet hp h).map (fun _ => []) :=
  pyGet_map_value hp (fun _ => []) h

/-- The initial state of `hr_resident_optimal` satisfies the loop invariants. -/
theorem hrROInit_inv {hp0 rp0 : PrefMap} {caps : CapMap}
    (hc : HRConsistent hp0 rp0 caps) : HRInvR hp0 rp0 caps (hrInit hp0 rp0) := by
  have hmget : ∀ h ml, pyGet (hrInit hp0 rp0).matching h = some ml → ml = [] := by
    intro h ml hml
    rw [hrInit_matching_get] at hml
    cases hh : pyGet hp0 h <;> rw [hh] at hml <;> simp at hml
    exact hml
  refine ⟨?_, rfl, rfl, ?_, prefsLE_refl _, prefsLE_refl _, hc.mcInit, ?_, ?_, ?_⟩
  · intro h ml c hml _
    rw [hmget h ml hml]
    simp
  · show (hp0.map (fun p => (p.1, ([] : List Player)))).map (·.1) = hp0.map (·.1)
    rw [List.map_map]
    rfl
  · intro h ml hml
    have hkey : h ∈ (hrInit hp0 rp0).matching.map (·.1) := pyGet_key hml
    have hkey2 : h ∈ hp0.map (·.1) := by
      rw [show (hrInit hp0 rp0).matching.map (·.1) = hp0.map (·.1) by
        show (hp0.map (fun p => (p.1, ([] : List Player)))).map (·.1) = hp0.map (·.1)
        rw [List.map_map]
        rfl] at hkey
      exact hkey
    obtain ⟨hl, hhl⟩ := pyGet_of_key hkey2
    refine ⟨hl, hhl, ?_⟩
    rw [hmget h ml hml]
    intro r hr
    exact absurd hr (List.not_mem_nil r)
  · intro h ml hml
    rw [hmget h ml hml]
    exact List.nodup_nil
  · intro h1 h2 ml1 ml2 r hg1 _ hr1 _
    rw [hmget h1 ml1 hg1] at hr1
    exact absurd hr1 (List.not_mem_nil r)

/-- With fuel at least the measure, the `hr_resident_optimal` loop reaches a
state with no free residents, and the invariants hold there. -/
theorem hrROLoop_spec {hp0 rp0 : PrefMap} {caps : CapMap} :
    ∀ (fuel : Nat) {st : HRState}, HRConsistent hp0 rp0 caps →
    HRInvR hp0 rp0 caps st → hrMeasure st ≤ fuel →
    ∃ st', hrROLoop caps fuel st = some st' ∧ HRInvR hp0 rp0 caps st' ∧
      getFreeResidents st'.rprefs st'.matching = [] := by
  intro fuel
  induction fuel with
  | zero =>
    intro st hc inv hm
    by_cases hq : getFreeResidents st.rprefs st.matching = []
    · refine ⟨st, ?_, inv, hq⟩
      rw [hrROLoop, if_pos (List.isEmpty_iff.mpr hq)]
    · obtain ⟨st', _, _, hlt⟩ := hrROStep_spec hc inv hq
      omega
  | succ n ih =>
    intro st hc inv hm
    by_cases hq : getFreeResidents st.rprefs st.matching = []
    · refine ⟨st, ?_, inv, hq⟩
      rw [hrROLoop, if_pos (List.isEmpty_iff.mpr hq)]
    · obtain ⟨st1, hstep, inv1, hlt⟩ := hrROStep_spec hc inv hq
      obtain ⟨st', hrun, inv', hdone⟩ := ih hc inv1 (by omega)
      refine ⟨st', ?_, inv', hdone⟩
      rw [hrROLoop, if_neg ?_]
      · simp only [hstep, Option.bind_eq_bind, Option.some_bind]
        exact hrun
      · intro hcon
        rw [List.isEmpty_iff] at hcon
        exact hq hcon

theorem hrSortMatching_keys {hp : PrefMap} {m m' : List (Player × List Player)} :
    hrSortMatching hp m = some m' → m'.map (·.1) = m.map (·.1) := by
  induction m generalizing m' with
  | nil =>
    intro h
    rw [hrSortMatching] at h
    rw [← Option.some.inj h]
  | cons q rest ih =>
    obtain ⟨qh, qml⟩ := q
    intro h
    rw [hrSortMatching] at h
    simp only [Option.bind_eq_bind, Option.bind_eq_some, Option.pure_def] at h
    obtain ⟨hl, hhl, h2⟩ := h
    by_cases hall : qml.all (fun x => decide (x ∈ hl)) = true
    · rw [if_pos hall] at h2
      simp only [Option.bind_eq_bind, Option.bind_eq_some, Option.pure_def] at h2
      obtain ⟨rest', hrest, h3⟩ := h2
      rw [← Option.some.inj h3]
      simp only [List.map_cons]
      rw [ih hrest]
    · rw [if_neg hall] at h2
      exact Option.noConfusion h2

theorem hrSortMatching_isSome {hp : PrefMap} {m : List (Player × List Player)}
    (h : ∀ p ∈ m, ∃ hl, pyGet hp p.1 = some hl ∧ ∀ r ∈ p.2, r ∈ hl) :
    ∃ m', hrSortMatching hp m = some m' := by
  induction m with
  | nil => exact ⟨[], rfl⟩
  | cons q rest ih =>
    obtain ⟨qh, qml⟩ := q
    obtain ⟨hl, hhl, hall⟩ := h (qh, qml) (List.mem_cons_self _ _)
    obtain ⟨rest', hrest⟩ := ih (fun p hp2 => h p (List.mem_cons_of_mem _ hp2))
    refine ⟨(qh, sortByKey (fun r => pyIdx hl r) qml) :: rest', ?_⟩
    rw [hrSortMatching]
    simp only [hhl, Option.bind_eq_bind, Option.some_bind, Option.pure_def]
    rw [if_pos ?_]
    · simp only [hrest, Option.some_bind]
    · rw [List.all_eq_true]
      intro x hx
      exact decide_eq_true (hall x hx)

/-- On a consistent instance, `hr_resident_optimal` succeeds given enough
fuel, keeps the hospital keys, and returns every hospital's sequence sorted
ascending by that hospital's original preference rank. -/
theorem hr_resident_optimal_spec {hp0 rp0 : PrefMap} {caps : CapMap} {fuel : Nat}
    (hc : HRConsistent hp0 rp0 caps)
    (hfuel : hrMeasure (hrInit hp0 rp0) ≤ fuel) :
    ∃ M, hr_resident_optimal hp0 rp0 caps fuel = some M ∧
      M.map (·.1) = hp0.map (·.1) ∧
      capOK caps M ∧
      ∀ h ml, pyGet M h = some ml → ∃ hl0, pyGet hp0 h = some hl0 ∧
        sortedByRank hl0 ml := by
  obtain ⟨st', hrun, inv', hdone⟩ := hrROLoop_spec fuel hc (hrROInit_inv hc) hfuel
  have hmnd : (st'.matching.map (·.1)).Nodup := by
    rw [inv'.mkeys]
    exact hc.hnodup
  have hsort_pre : ∀ p ∈ st'.matching, ∃ hl, pyGet st'.hprefs p.1 = some hl ∧
      ∀ r ∈ p.2, r ∈ hl := by
    intro p hp2
    exact inv'.matched_sub p.1 p.2 (pyGet_of_mem_nodup hmnd hp2)
  obtain ⟨M, hM⟩ := hrSortMatching_isSome hsort_pre
  have hMkeys : M.map (·.1) = hp0.map (·.1) := (hrSortMatching_keys hM).trans inv'.mkeys
  refine ⟨M, ?_, hMkeys, ?_, ?_⟩
  · unfold hr_resident_optimal
    simp only [hrun, Option.bind_eq_bind, Option.some_bind]
    exact hM
  · intro h ml c hml hcget
    obtain ⟨mlp, hl, hmlp, hhl, hall, hmle⟩ := hrSortMatching_spec hM h ml hml
    have hperm : ml.Perm mlp := hmle ▸ sortByKey_perm _ mlp
    rw [hperm.length_eq]
    exact inv'.caple h mlp c hmlp hcget
  · intro h ml hml
    obtain ⟨mlp, hl, hmlp, hhl, hall, hmle⟩ := hrSortMatching_spec hM h ml hml
    obtain ⟨hl0, hhl0, hsubhl⟩ := inv'.hsub h hl hhl
    have hl0nd : hl0.Nodup := (hc.hlists _ (pyGet_mem hhl0)).1
    have hlnd : hl.Nodup := hsubhl.nodup hl0nd
    have hmlpnd : mlp.Nodup := inv'.matched_nodup h mlp hmlp
    have hperm : ml.Perm mlp := hmle ▸ sortByKey_perm _ mlp
    have hmlnd : ml.Nodup := hperm.nodup_iff.mpr hmlpnd
    have hmlhl : ∀ r ∈ ml, r ∈ hl := fun r hr => hall r (hperm.subset hr)
    have hle : ml.Pairwise (fun a b => pyIdx hl a ≤ pyIdx hl b) :=
      hmle ▸ pairwise_sortByKey _ mlp
    have hltp : ml.Pairwise (fun a b => pyIdx hl a < pyIdx hl b) :=
      pairwise_lt_of_le hle hmlnd
        (fun a ha b hb he => pyIdx_inj (hmlhl a ha) (hmlhl b hb) he)
    refine ⟨hl0, hhl0, ?_⟩
    refine List.Pairwise.imp_of_mem ?_ hltp
    intro a b ha hb hab
    exact sublist_pyIdx_lt hsubhl hl0nd (hmlhl a ha) (hmlhl b hb)
      ((sublist_pyIdx_iff (List.Sublist.refl hl) hlnd (hmlhl a ha) (hmlhl b hb)).mpr
        hab)

theorem take_pyErase_of_not_mem {l : List Player} {x : Player} :
    ∀ {k : Nat}, x ∉ l.take k → (pyErase l x).take k = l.take k := by
  induction l with
  | nil => intro k _; rfl
  | cons y rest ih =>
    intro k h
    cases k with
    | zero => rfl
    | succ j =>
      rw [List.take_succ_cons] at h
      rw [List.mem_cons, not_or] at h
      show (if y = x then rest else y :: pyErase rest x).take (j + 1) =
        (y :: rest).take (j + 1)
      rw [if_neg (Ne.symm h.1)]
      rw [List.take_succ_cons, List.take_succ_cons, ih h.2]

theorem take_pyErase_of_mem {l : List Player} {x : Player} :
    ∀ {k : Nat}, x ∈ l.take (k + 1) →
      pyErase (l.take (k + 1)) x = (pyErase l x).take k := by
  induction l with
  | nil => intro k h; simp at h
  | cons y rest ih =>
    intro k h
    have h2 : x ∈ y :: rest.take k := h
    show pyErase (y :: rest.take k) x =
      (if y = x then rest else y :: pyErase rest x).take k
    by_cases hy : y = x
    · rw [if_pos hy]
      show (if y = x then rest.take k else y :: pyErase (rest.take k) x) =
        rest.take k
      rw [if_pos hy]
    · rw [if_neg hy]
      rw [List.mem_cons] at h2
      rcases h2 with h2 | h2
      · exact absurd h2.symm hy
      · cases k with
        | zero => simp at h2
        | succ j =>
          rw [List.take_succ_cons]
          show (if y = x then rest.take (j + 1)
            else y :: pyErase (rest.take (j + 1)) x) = y :: (pyErase rest x).take j
          rw [if_neg hy, ih h2]

theorem filter_not_take {l : List Player} :
    ∀ (k : Nat), l.Nodup →
      l.filter (fun r => r ∉ l.take k) = l.drop k := by
  induction l with
  | nil => intro k _; simp
  | cons y rest ih =>
    intro k hnd
    rw [List.nodup_cons] at hnd
    cases k with
    | zero =>
      simp only [List.take_zero, List.drop_zero]
      apply List.filter_eq_self.mpr
      intro a _
      simp
    | succ j =>
      rw [List.take_succ_cons, List.drop_succ_cons]
      rw [List.filter_cons]
      rw [if_neg (by simp)]
      have hcongr : rest.filter (fun r => decide (r ∉ y :: rest.take j)) =
          rest.filter (fun r => decide (r ∉ rest.take j)) := by
        apply List.filter_congr
        intro x hx
        have hxy : x ≠ y := fun hh => hnd.1 (hh ▸ hx)
        simp [List.mem_cons, hxy]
      rw [hcongr]
      exact ih j hnd.2

theorem pyGet_map_ite_erase (m : List (Player × List Player))
    (resident x : Player) :
    pyGet (m.map (fun p => if resident ∈ p.2 then (p.1, pyErase p.2 resident)
      else p)) x =
      (pyGet m x).map (fun ml => if resident ∈ ml then pyErase ml resident
        else ml) := by
  induction m with
  | nil => rfl
  | cons p rest ih =>
    rw [List.map_cons]
    by_cases hp : resident ∈ p.2
    · rw [if_pos hp]
      show (if p.1 = x then some (pyErase p.2 resident) else _) = _
      by_cases hx : p.1 = x
      · rw [if_pos hx]
        show _ = (if p.1 = x then some p.2 else pyGet rest x).map _
        rw [if_pos hx, Option.map_some', if_pos hp]
      · rw [if_neg hx]
        show _ = (if p.1 = x then some p.2 else pyGet rest x).map _
        rw [if_neg hx]
        exact ih
    · rw [if_neg hp]
      show (if p.1 = x then some p.2 else _) = _
      by_cases hx : p.1 = x
      · rw [if_pos hx]
        show _ = (if p.1 = x then some p.2 else pyGet rest x).map _
        rw [if_pos hx, Option.map_some', if_neg hp]
      · rw [if_neg hx]
        show _ = (if p.1 = x then some p.2 else pyGet rest x).map _
        rw [if_neg hx]
        exact ih

theorem map_ite_erase_keys (m : List (Player × List Player)) (resident : Player) :
    (m.map (fun p => if resident ∈ p.2 then (p.1, pyErase p.2 resident)
      else p)).map (·.1) = m.map (·.1) := by
  induction m with
  | nil => rfl
  | cons p rest ih =>
    rw [List.map_cons, List.map_cons, List.map_cons]
    by_cases hp : resident ∈ p.2
    · rw [if_pos hp]
      rw [ih]
    · rw [if_neg hp]
      rw [ih]

theorem getFreeHospitals_isSome {caps : CapMap}
    {m : List (Player × List Player)} :
    ∀ {hp : PrefMap},
    (∀ p ∈ hp, (∃ ml, pyGet m p.1 = some ml) ∧ ∃ c, pyGet caps p.1 = some c) →
    ∃ fr, getFreeHospitals caps m hp = some fr := by
  intro hp
  induction hp with
  | nil => exact fun _ => ⟨[], rfl⟩
  | cons p rest ih =>
    intro h
    obtain ⟨ph, phl⟩ := p
    obtain ⟨⟨ml, hml⟩, c, hcget⟩ := h (ph, phl) (List.mem_cons_self _ _)
    obtain ⟨fr, hfr⟩ := ih (fun q hq => h q (List.mem_cons_of_mem _ hq))
    rw [getFreeHospitals]
    simp only [hml, hcget, hfr, Option.bind_eq_bind, Option.some_bind,
      Option.pure_def]
    by_cases hcond : ml.length < c ∧ phl.any (fun r => decide (r ∉ ml)) = true
    · rw [if_pos hcond]
      exact ⟨ph :: fr, rfl⟩
    · rw [if_neg hcond]
      exact ⟨fr, rfl⟩

theorem hoPrune_spec {resident : Player} {succs : List Player} :
    ∀ {rl : List Player} {hp : PrefMap},
    rl.Nodup → succs.Nodup → (∀ h ∈ succs, h ∈ rl) →
    (∀ h ∈ succs, ∃ hlh, pyGet hp h = some hlh ∧ resident ∈ hlh) →
    ∃ rl' hp', hoPrune resident rl hp succs = some (rl', hp') ∧
      (∀ y, y ∈ rl' ↔ y ∈ rl ∧ y ∉ succs) ∧ rl'.Sublist rl ∧
      (∀ x, pyGet hp' x = if x ∈ succs
        then (pyGet hp x).map (fun hlx => pyErase hlx resident)
        else pyGet hp x) := by
  induction succs with
  | nil =>
    intro rl hp _ _ _ _
    exact ⟨rl, hp, rfl, by simp, List.Sublist.refl _, by simp⟩
  | cons s rest ih =>
    intro rl hp hrlnd hsnd hsub hin
    rw [List.nodup_cons] at hsnd
    obtain ⟨hls, hhls, hresin⟩ := hin s (List.mem_cons_self _ _)
    have hsrl : s ∈ rl := hsub s (List.mem_cons_self _ _)
    have hremh : pyRemove hls resident = some (pyErase hls resident) := by
      rw [pyRemove, if_pos hresin]
    have hremr : pyRemove rl s = some (pyErase rl s) := by
      rw [pyRemove, if_pos hsrl]
    have hnd1 : (pyErase rl s).Nodup := (pyErase_sublist rl s).nodup hrlnd
    have hsub1 : ∀ h ∈ rest, h ∈ pyErase rl s := by
      intro h hh
      have hne : h ≠ s := fun hcon => hsnd.1 (hcon ▸ hh)
      exact (mem_pyErase_of_ne hne).mpr (hsub h (List.mem_cons_of_mem _ hh))
    have hget1 : ∀ x, pyGet (pySet hp s (pyErase hls resident)) x =
        if x = s then some (pyErase hls resident) else pyGet hp x := by
      intro x
      rw [pyGet_pySet]
      by_cases hx : x = s
      · rw [if_pos hx, if_pos hx, hhls]
        rfl
      · rw [if_neg hx, if_neg hx]
    have hin1 : ∀ h ∈ rest, ∃ hlh,
        pyGet (pySet hp s (pyErase hls resident)) h = some hlh ∧
        resident ∈ hlh := by
      intro h hh
      have hne : h ≠ s := fun hcon => hsnd.1 (hcon ▸ hh)
      rw [hget1 h, if_neg hne]
      exact hin h (List.mem_cons_of_mem _ hh)
    obtain ⟨rl', hp', hrun, hmem, hsubl, hpt⟩ := ih hnd1 hsnd.2 hsub1 hin1
    refine ⟨rl', hp', ?_, ?_, hsubl.trans (pyErase_sublist _ _), ?_⟩
    · rw [hoPrune]
      simp only [hhls, hremh, hremr, Option.bind_eq_bind, Option.some_bind]
      exact hrun
    · intro y
      rw [hmem y]
      by_cases hy : y = s
      · subst hy
        simp [not_mem_pyErase_self hrlnd]
      · simp [mem_pyErase_of_ne hy, hy]
    · intro x
      rw [hpt x]
      by_cases hx : x = s
      · subst hx
        have hxr : x ∉ rest := hsnd.1
        rw [if_neg hxr, hget1 x, if_pos rfl, hhls,
          if_pos (List.mem_cons_self _ _)]
        rfl
      · by_cases hxr : x ∈ rest
        · rw [if_pos hxr, hget1 x, if_neg hx,
            if_pos (List.mem_cons_of_mem _ hxr)]
        · rw [if_neg hxr, hget1 x, if_neg hx, if_neg (by simp [hx, hxr])]

/-- Preservation of the `hr_hospital_optimal` invariants by one loop body,
stated over the destructured effects of the body: `resident` is removed from
wherever it was matched and appended to `hospital`'s sequence, and both
preference dicts are pruned along the successors of `hospital` in
`resident`'s list. -/
theorem hrHOInv_core {hp0 rp0 : PrefMap} {caps : CapMap} {st : HRState}
    (hc : HRConsistent hp0 rp0 caps) (inv : HRInvH hp0 rp0 st)
    {hospital resident : Player} {hl mlh rl : List Player}
    (hhl : pyGet st.hprefs hospital = some hl)
    (hmlh : pyGet st.matching hospital = some mlh)
    (hrl : pyGet st.rprefs resident = some rl)
    (hhosp_rl : hospital ∈ rl)
    (hml2take : mlh ++ [resident] = hl.take (mlh.length + 1))
    {succs rl' : List Player} {hp' : PrefMap}
    (hsuccs_iff : ∀ y, y ∈ succs ↔ y ∈ rl ∧ pyIdx rl hospital < pyIdx rl y)
    (hmem' : ∀ y, y ∈ rl' ↔ y ∈ rl ∧ y ∉ succs)
    (hsubl' : rl'.Sublist rl)
    (hppt : ∀ x, pyGet hp' x = if x ∈ succs
      then (pyGet st.hprefs x).map (fun hlx => pyErase hlx resident)
      else pyGet st.hprefs x)
    (hpkeys : hp'.map (·.1) = st.hprefs.map (·.1))
    {m2 : List (Player × List Player)}
    (hm2get : ∀ h, pyGet m2 h = if h = hospital then some (mlh ++ [resident])
      else (pyGet st.matching h).map
        (fun ml => if resident ∈ ml then pyErase ml resident else ml))
    (hm2keys : m2.map (·.1) = st.matching.map (·.1)) :
    HRInvH hp0 rp0 (HRState.mk hp' (pySet st.rprefs resident rl') m2) := by
  obtain ⟨rl0, hrl0, hsubrl⟩ := inv.rsub resident rl hrl
  have hrlnd : rl.Nodup := hsubrl.nodup (hc.rlists _ (pyGet_mem hrl0)).1
  have hlistnd : ∀ h lh, pyGet st.hprefs h = some lh → lh.Nodup := by
    intro h lh hlh
    obtain ⟨l0, hl0, hsb⟩ := inv.hsub h lh hlh
    exact hsb.nodup (hc.hlists _ (pyGet_mem hl0)).1
  have hmlnd : ∀ h ml, pyGet st.matching h = some ml → ml.Nodup := by
    intro h ml hml
    obtain ⟨hlh, hhlh, htake⟩ := inv.matched_take h ml hml
    have := hlistnd h hlh hhlh
    rw [htake]
    exact (List.take_sublist _ _).nodup this
  have hhosp_nsuccs : hospital ∉ succs := by
    intro hcon
    have := (hsuccs_iff hospital).mp hcon
    omega
  have hnew_other : ∀ h ml r, h ≠ hospital → pyGet m2 h = some ml → r ∈ ml →
      r ≠ resident ∧ ∃ mlx, pyGet st.matching h = some mlx ∧ r ∈ mlx := by
    intro h ml r hh hml hr
    rw [hm2get h, if_neg hh] at hml
    obtain ⟨mlx, hmlx, hmle⟩ := Option.map_eq_some'.mp hml
    by_cases hres : resident ∈ mlx
    · rw [if_pos hres] at hmle
      rw [← hmle] at hr
      constructor
      · intro hcon
        rw [hcon] at hr
        exact not_mem_pyErase_self (hmlnd h mlx hmlx) hr
      · exact ⟨mlx, hmlx, (pyErase_sublist _ _).subset hr⟩
    · rw [if_neg hres] at hmle
      rw [← hmle] at hr
      constructor
      · intro hcon
        exact hres (hcon ▸ hr)
      · exact ⟨mlx, hmlx, hr⟩
  refine ⟨?_, ?_, ?_, ?_, ?_, ?_, ?_, ?_, ?_⟩
  · -- hkeys
    exact hpkeys.trans inv.hkeys
  · -- rkeys
    show (pySet st.rprefs resident rl').map (·.1) = rp0.map (·.1)
    rw [pySet_map_fst]
    exact inv.rkeys
  · -- mkeys
    exact hm2keys.trans inv.mkeys
  · -- hsub
    intro x lx hx
    have hx2 : pyGet hp' x = some lx := hx
    rw [hppt x] at hx2
    by_cases hxs : x ∈ succs
    · rw [if_pos hxs] at hx2
      obtain ⟨lx0, hlx0, hle⟩ := Option.map_eq_some'.mp hx2
      obtain ⟨l0, hl0, hs0⟩ := inv.hsub x lx0 hlx0
      exact ⟨l0, hl0, hle ▸ (pyErase_sublist lx0 resident).trans hs0⟩
    · rw [if_neg hxs] at hx2
      exact inv.hsub x lx hx2
  · -- rsub
    exact prefsLE_trans (prefsLE_pySet hrl hsubl') inv.rsub
  · -- mc
    intro h r hlh' rlr' hhlh' hrlr'
    have hhlh'2 : pyGet hp' h = some hlh' := hhlh'
    have hrlr'2 : pyGet (pySet st.rprefs resident rl') r = some rlr' := hrlr'
    rw [hppt h] at hhlh'2
    rw [pyGet_pySet] at hrlr'2
    by_cases hr : r = resident
    · rw [if_pos hr, hrl] at hrlr'2
      have hrlr'e : rlr' = rl' := (Option.some.inj hrlr'2).symm
      subst hrlr'e
      by_cases hhs : h ∈ succs
      · rw [if_pos hhs] at hhlh'2
        obtain ⟨hlh0, hhlh0, hle⟩ := Option.map_eq_some'.mp hhlh'2
        constructor
        · intro hmem
          rw [hr, ← hle] at hmem
          exact absurd hmem (not_mem_pyErase_self (hlistnd h hlh0 hhlh0))
        · intro hmem
          exact absurd hhs ((hmem' h).mp hmem).2
      · rw [if_neg hhs] at hhlh'2
        have hold := inv.mc h resident hlh' rl hhlh'2 hrl
        rw [hr, hmem' h]
        constructor
        · intro hmem
          exact ⟨hold.mp hmem, hhs⟩
        · intro hmem
          exact hold.mpr hmem.1
    · rw [if_neg hr] at hrlr'2
      by_cases hhs : h ∈ succs
      · rw [if_pos hhs] at hhlh'2
        obtain ⟨hlh0, hhlh0, hle⟩ := Option.map_eq_some'.mp hhlh'2
        have hold := inv.mc h r hlh0 rlr' hhlh0 hrlr'2
        rw [← hle, mem_pyErase_of_ne hr]
        exact hold
      · rw [if_neg hhs] at hhlh'2
        exact inv.mc h r hlh' rlr' hhlh'2 hrlr'2
  · -- matched_take
    intro h ml hml
    have hml2 : pyGet m2 h = some ml := hml
    rw [hm2get h] at hml2
    by_cases hh : h = hospital
    · rw [if_pos hh] at hml2
      have hmle : ml = mlh ++ [resident] := (Option.some.inj hml2).symm
      refine ⟨hl, ?_, ?_⟩
      · show pyGet hp' h = some hl
        rw [hppt h, hh, if_neg hhosp_nsuccs]
        exact hhl
      · have hlen : ml.length = mlh.length + 1 := by
          rw [hmle]
          simp
        rw [hlen, hmle]
        exact hml2take
    · rw [if_neg hh] at hml2
      obtain ⟨mlx, hmlx, hmle⟩ := Option.map_eq_some'.mp hml2
      obtain ⟨hlh, hhlh, htake⟩ := inv.matched_take h mlx hmlx
      by_cases hres : resident ∈ mlx
      · rw [if_pos hres] at hmle
        obtain ⟨rlx, hrlx, hhin, hmax⟩ :=
          inv.matched_last h resident mlx hmlx hres
        rw [hrl] at hrlx
        have hrlxe : rlx = rl := (Option.some.inj hrlx).symm
        rw [hrlxe] at hhin hmax
        have hlt : pyIdx rl hospital < pyIdx rl h :=
          hmax hospital hhosp_rl (fun hcon => hh hcon.symm)
        have hhs : h ∈ succs := (hsuccs_iff h).mpr ⟨hhin, hlt⟩
        have hph : pyGet hp' h = some (pyErase hlh resident) := by
          rw [hppt h, if_pos hhs, hhlh]
          rfl
        obtain ⟨k, hk⟩ : ∃ k, mlx.length = k + 1 := by
          cases hml0 : mlx with
          | nil =>
            rw [hml0] at hres
            exact absurd hres (List.not_mem_nil resident)
          | cons a t => exact ⟨t.length, by simp⟩
        have htake2 : mlx = hlh.take (k + 1) := by rw [htake, hk]
        have hresin : resident ∈ hlh.take (k + 1) := htake2 ▸ hres
        have herase : pyErase mlx resident = (pyErase hlh resident).take k := by
          rw [htake2]
          exact take_pyErase_of_mem hresin
        refine ⟨pyErase hlh resident, hph, ?_⟩
        have hlen : ml.length = k := by
          have h1 := length_pyErase hres
          rw [hmle] at h1
          omega
        rw [hlen, ← hmle]
        exact herase
      · rw [if_neg hres] at hmle
        by_cases hhs : h ∈ succs
        · have hph : pyGet hp' h = some (pyErase hlh resident) := by
            rw [hppt h, if_pos hhs, hhlh]
            rfl
          refine ⟨pyErase hlh resident, hph, ?_⟩
          have hnin : resident ∉ hlh.take mlx.length := by
            rw [← htake]
            exact hres
          rw [← hmle]
          rw [take_pyErase_of_not_mem hnin, ← htake]
        · have hph : pyGet hp' h = some hlh := by
            rw [hppt h, if_neg hhs]
            exact hhlh
          refine ⟨hlh, hph, ?_⟩
          rw [← hmle]
          exact htake
  · -- matched_uniq
    intro h1 h2 mla mlb r hga hgb hra hrb
    have hga2 : pyGet m2 h1 = some mla := hga
    have hgb2 : pyGet m2 h2 = some mlb := hgb
    by_cases hh1 : h1 = hospital
    · by_cases hh2 : h2 = hospital
      · rw [hh1, hh2]
      · obtain ⟨hrne, mlx2, hmlx2, hrin2⟩ := hnew_other h2 mlb r hh2 hgb2 hrb
        rw [hm2get h1, if_pos hh1] at hga2
        have hmla : mla = mlh ++ [resident] := (Option.some.inj hga2).symm
        rw [hmla, List.mem_append, List.mem_singleton] at hra
        rcases hra with hra | hra
        · have := inv.matched_uniq hospital h2 mlh mlx2 r hmlh hmlx2 hra hrin2
          exact absurd this.symm hh2
        · exact absurd hra hrne
    · by_cases hh2 : h2 = hospital
      · obtain ⟨hrne, mlx1, hmlx1, hrin1⟩ := hnew_other h1 mla r hh1 hga2 hra
        rw [hm2get h2, if_pos hh2] at hgb2
        have hmlb : mlb = mlh ++ [resident] := (Option.some.inj hgb2).symm
        rw [hmlb, List.mem_append, List.mem_singleton] at hrb
        rcases hrb with hrb | hrb
        · have := inv.matched_uniq h1 hospital mlx1 mlh r hmlx1 hmlh hrin1 hrb
          rw [this, hh2]
        · exact absurd hrb hrne
      · obtain ⟨_, mlx1, hmlx1, hrin1⟩ := hnew_other h1 mla r hh1 hga2 hra
        obtain ⟨_, mlx2, hmlx2, hrin2⟩ := hnew_other h2 mlb r hh2 hgb2 hrb
        exact inv.matched_uniq h1 h2 mlx1 mlx2 r hmlx1 hmlx2 hrin1 hrin2
  · -- matched_last
    intro h r ml hml hrml
    have hml2 : pyGet m2 h = some ml := hml
    by_cases hr : r = resident
    · subst hr
      have hh : h = hospital := by
        by_contra hcon
        obtain ⟨hrne, _, _, _⟩ := hnew_other h ml r hcon hml2 hrml
        exact hrne rfl
      subst hh
      refine ⟨rl', ?_, ?_, ?_⟩
      · show pyGet (pySet st.rprefs r rl') r = some rl'
        exact pyGet_pySet_self rl' hrl
      · exact (hmem' h).mpr ⟨hhosp_rl, hhosp_nsuccs⟩
      · intro y hy hyh
        have hy2 := (hmem' y).mp hy
        have hyrl : y ∈ rl := hy2.1
        have hynidx : ¬ pyIdx rl h < pyIdx rl y := by
          intro hcon
          exact hy2.2 ((hsuccs_iff y).mpr ⟨hyrl, hcon⟩)
        have hne : pyIdx rl y ≠ pyIdx rl h :=
          fun hcon => hyh (pyIdx_inj hyrl hhosp_rl hcon)
        have hlt : pyIdx rl y < pyIdx rl h := by omega
        exact (sublist_pyIdx_iff hsubl' hrlnd hy
          ((hmem' h).mpr ⟨hhosp_rl, hhosp_nsuccs⟩)).mpr hlt
    · have hrget : pyGet (pySet st.rprefs resident rl') r = pyGet st.rprefs r :=
        pyGet_pySet_ne _ _ hr
      by_cases hh : h = hospital
      · subst hh
        rw [hm2get h, if_pos rfl] at hml2
        have hmle : ml = mlh ++ [resident] := (Option.some.inj hml2).symm
        rw [hmle, List.mem_append, List.mem_singleton] at hrml
        rcases hrml with hrml | hrml
        · obtain ⟨rlx, hrlx, hhin, hmax⟩ := inv.matched_last h r mlh hmlh hrml
          refine ⟨rlx, ?_, hhin, hmax⟩
          show pyGet (pySet st.rprefs resident rl') r = some rlx
          rw [hrget]
          exact hrlx
        · exact absurd hrml hr
      · obtain ⟨hrne, mlx, hmlx, hrin⟩ := hnew_other h ml r hh hml2 hrml
        obtain ⟨rlx, hrlx, hhin, hmax⟩ := inv.matched_last h r mlx hmlx hrin
        refine ⟨rlx, ?_, hhin, hmax⟩
        show pyGet (pySet st.rprefs resident rl') r = some rlx
        rw [hrget]
        exact hrlx

/-- One iteration of the `hr_hospital_optimal` loop on a consistent instance
succeeds, preserves the invariants, and strictly decreases the measure. -/
theorem hrHOStep_spec {hp0 rp0 : PrefMap} {caps : CapMap} {st : HRState}
    {hospital : Player} {frtail : List Player}
    (hc : HRConsistent hp0 rp0 caps) (inv : HRInvH hp0 rp0 st)
    (hfrees : getFreeHospitals caps st.matching st.hprefs =
      some (hospital :: frtail)) :
    ∃ st', hrHOStep caps st = some st' ∧ HRInvH hp0 rp0 st' ∧
      hrMeasure st' < hrMeasure st := by
  have hhospmem := getFreeHospitals_spec hfrees hospital (List.mem_cons_self _ _)
  obtain ⟨mlh, cap, hmlh, hcap, hltcap, hl, hhlmem, hany⟩ := hhospmem
  have hhpnd : (st.hprefs.map (·.1)).Nodup := by
    rw [inv.hkeys]
    exact hc.hnodup
  have hmnd : (st.matching.map (·.1)).Nodup := by
    rw [inv.mkeys]
    exact hc.hnodup
  have hrpnd : (st.rprefs.map (·.1)).Nodup := by
    rw [inv.rkeys]
    exact hc.rnodup
  have hhl : pyGet st.hprefs hospital = some hl := pyGet_of_mem_nodup hhpnd hhlmem
  obtain ⟨hl0, hhl0, hsubhl⟩ := inv.hsub hospital hl hhl
  have hlnd : hl.Nodup := hsubhl.nodup (hc.hlists _ (pyGet_mem hhl0)).1
  obtain ⟨hlx, hhlx, htake⟩ := inv.matched_take hospital mlh hmlh
  rw [hhl] at hhlx
  have hhlxe : hlx = hl := (Option.some.inj hhlx).symm
  rw [hhlxe] at htake
  obtain ⟨n, hn⟩ : ∃ n, mlh.length = n := ⟨_, rfl⟩
  rw [hn] at htake
  have hfilter : hl.filter (fun r => r ∉ mlh) = hl.drop n := by
    rw [htake]
    exact filter_not_take n hlnd
  have hfilne : hl.filter (fun r => r ∉ mlh) ≠ [] := by
    rw [List.any_eq_true] at hany
    obtain ⟨r0, hr0, hr0n⟩ := hany
    have : r0 ∈ hl.filter (fun r => r ∉ mlh) :=
      List.mem_filter.mpr ⟨hr0, hr0n⟩
    exact List.ne_nil_of_mem this
  obtain ⟨resident, dtail, hdrop0⟩ := List.exists_cons_of_ne_nil hfilne
  have hres : (hl.filter (fun r => r ∉ mlh)).head? = some resident := by
    rw [hdrop0]
    rfl
  have hresfil : resident ∈ hl.filter (fun r => r ∉ mlh) := by
    rw [hdrop0]
    exact List.mem_cons_self _ _
  have hres_hl : resident ∈ hl := List.mem_of_mem_filter hresfil
  have hres_nmlh : resident ∉ mlh := by
    have := List.of_mem_filter hresfil
    simpa using this
  have hdrop : hl.drop n = resident :: dtail := by
    rw [← hfilter]
    exact hdrop0
  have hml2take0 : mlh ++ [resident] = hl.take (n + 1) := by
    have h1 : hl.take (n + 1) = hl.take n ++ (hl.drop n).take 1 :=
      List.take_add hl n 1
    rw [h1, hdrop, ← htake]
    rfl
  have hml2take : mlh ++ [resident] = hl.take (mlh.length + 1) := by
    rw [hn]
    exact hml2take0
  have hm1get : ∀ h, pyGet (st.matching.map (fun p => if resident ∈ p.2
      then (p.1, pyErase p.2 resident) else p)) h =
      (pyGet st.matching h).map
        (fun ml => if resident ∈ ml then pyErase ml resident else ml) :=
    fun h => pyGet_map_ite_erase st.matching resident h
  have hm1hosp : pyGet (st.matching.map (fun p => if resident ∈ p.2
      then (p.1, pyErase p.2 resident) else p)) hospital = some mlh := by
    rw [hm1get, hmlh, Option.map_some', if_neg hres_nmlh]
  have hm2get : ∀ h, pyGet (pySet (st.matching.map (fun p => if resident ∈ p.2
      then (p.1, pyErase p.2 resident) else p)) hospital (mlh ++ [resident])) h =
      if h = hospital then some (mlh ++ [resident])
      else (pyGet st.matching h).map
        (fun ml => if resident ∈ ml then pyErase ml resident else ml) := by
    intro h
    rw [pyGet_pySet]
    by_cases hh : h = hospital
    · rw [if_pos hh, if_pos hh, hm1hosp]
      rfl
    · rw [if_neg hh, if_neg hh, hm1get]
  have hm2keys : (pySet (st.matching.map (fun p => if resident ∈ p.2
      then (p.1, pyErase p.2 resident) else p)) hospital
      (mlh ++ [resident])).map (·.1) = st.matching.map (·.1) := by
    rw [pySet_map_fst, map_ite_erase_keys]
  have hresrp : resident ∈ st.rprefs.map (·.1) := by
    rw [inv.rkeys]
    exact (hc.hlists _ (pyGet_mem hhl0)).2 resident (hsubhl.subset hres_hl)
  obtain ⟨rl, hrlget⟩ := pyGet_of_key hresrp
  obtain ⟨rl0, hrl0, hsubrl⟩ := inv.rsub resident rl hrlget
  have hrlnd : rl.Nodup := hsubrl.nodup (hc.rlists _ (pyGet_mem hrl0)).1
  have hhosp_rl : hospital ∈ rl :=
    (inv.mc hospital resident hl rl hhl hrlget).mp hres_hl
  have hidx : pyIndexOf rl hospital = some (pyIdx rl hospital) := by
    rw [pyIndexOf, if_pos hhosp_rl]
  have hsuccs_iff : ∀ y, y ∈ rl.drop (pyIdx rl hospital + 1) ↔
      y ∈ rl ∧ pyIdx rl hospital < pyIdx rl y :=
    fun y => mem_drop_pyIdx hrlnd hhosp_rl
  have hKcount := pyGet_key hrlget
  cases hemp : (rl.drop (pyIdx rl hospital + 1)).isEmpty
  · -- successors exist: prune them
    have hsnd : (rl.drop (pyIdx rl hospital + 1)).Nodup :=
      (List.drop_sublist _ _).nodup hrlnd
    have hsubs : ∀ h ∈ rl.drop (pyIdx rl hospital + 1), h ∈ rl :=
      fun h hh => ((hsuccs_iff h).mp hh).1
    have hin : ∀ h ∈ rl.drop (pyIdx rl hospital + 1), ∃ hlh,
        pyGet st.hprefs h = some hlh ∧ resident ∈ hlh := by
      intro h hh
      have hhrl : h ∈ rl := hsubs h hh
      have hhkey : h ∈ st.hprefs.map (·.1) := by
        rw [inv.hkeys]
        exact (hc.rlists _ (pyGet_mem hrl0)).2 h (hsubrl.subset hhrl)
      obtain ⟨hlh, hhlh⟩ := pyGet_of_key hhkey
      exact ⟨hlh, hhlh, (inv.mc h resident hlh rl hhlh hrlget).mpr hhrl⟩
    obtain ⟨rl', hp', hprun, hmem', hsubl', hppt⟩ :=
      hoPrune_spec hrlnd hsnd hsubs hin
    obtain ⟨_, _, hpkeys, hrllen, hptot⟩ := hoPrune_shrink hprun
    have hslen : 1 ≤ (rl.drop (pyIdx rl hospital + 1)).length := by
      apply List.length_pos.mpr
      intro hcon
      rw [hcon] at hemp
      simp at hemp
    refine ⟨HRState.mk hp' (pySet st.rprefs resident rl')
      (pySet (st.matching.map (fun p => if resident ∈ p.2
        then (p.1, pyErase p.2 resident) else p)) hospital
        (mlh ++ [resident])), ?_, ?_, ?_⟩
    · unfold hrHOStep
      simp only [hfrees, hhl, hmlh, hres, hm1hosp, hrlget, hidx,
        Option.bind_eq_bind, Option.some_bind, Option.pure_def]
      rw [if_neg (show ¬(rl.drop (pyIdx rl hospital + 1)).isEmpty = true by
        rw [hemp]; exact Bool.false_ne_true)]
      simp only [hprun, Option.bind_eq_bind, Option.some_bind]
    · exact hrHOInv_core hc inv hhl hmlh hrlget hhosp_rl hml2take hsuccs_iff
        hmem' hsubl' hppt hpkeys hm2get hm2keys
    · show listTotal hp' + listTotal (pySet st.rprefs resident rl') +
        (((pySet st.rprefs resident rl').map (·.1)).filter
          (fun r => !matchedB (pySet (st.matching.map (fun p =>
            if resident ∈ p.2 then (p.1, pyErase p.2 resident) else p))
            hospital (mlh ++ [resident])) r)).length <
        listTotal st.hprefs + listTotal st.rprefs +
        ((st.rprefs.map (·.1)).filter (fun r => !matchedB st.matching r)).length
      rw [pySet_map_fst]
      have hTr := listTotal_pySet hrlget rl'
      have hcount : ((st.rprefs.map (·.1)).filter (fun r => !matchedB
          (pySet (st.matching.map (fun p => if resident ∈ p.2
            then (p.1, pyErase p.2 resident) else p)) hospital
            (mlh ++ [resident])) r)).length ≤
          ((st.rprefs.map (·.1)).filter
            (fun r => !matchedB st.matching r)).length := by
        apply filter_length_mono
        intro x _ hx'
        rw [Bool.not_eq_true'] at hx' ⊢
        cases hmo : matchedB st.matching x
        · rfl
        · exfalso
          obtain ⟨h, ml, hget, hxm⟩ := (matchedB_iff hmnd).mp hmo
          have hx2 : matchedB (pySet (st.matching.map (fun p =>
              if resident ∈ p.2 then (p.1, pyErase p.2 resident) else p))
              hospital (mlh ++ [resident])) x = true := by
            by_cases hxres : x = resident
            · refine (matchedB_iff (hm2keys ▸ hmnd)).mpr
                ⟨hospital, mlh ++ [resident], ?_, ?_⟩
              · rw [hm2get, if_pos rfl]
              · rw [List.mem_append, List.mem_singleton]
                exact Or.inr hxres
            · by_cases hh : h = hospital
              · refine (matchedB_iff (hm2keys ▸ hmnd)).mpr
                  ⟨hospital, mlh ++ [resident], ?_, ?_⟩
                · rw [hm2get, if_pos rfl]
                · rw [List.mem_append]
                  rw [hh, hmlh] at hget
                  exact Or.inl ((Option.some.inj hget) ▸ hxm)
              · refine (matchedB_iff (hm2keys ▸ hmnd)).mpr
                  ⟨h, if resident ∈ ml then pyErase ml resident else ml, ?_, ?_⟩
                · rw [hm2get, if_neg hh, hget]
                  rfl
                · by_cases hrml : resident ∈ ml
                  · rw [if_pos hrml]
                    exact (mem_pyErase_of_ne hxres).mpr hxm
                  · rw [if_neg hrml]
                    exact hxm
          rw [hx2] at hx'
          exact Bool.noConfusion hx'
      omega
  · -- no successors: only the matching changes
    have hempeq : rl.drop (pyIdx rl hospital + 1) = [] := List.isEmpty_iff.mp hemp
    have hfree : ∀ q ∈ st.matching, resident ∉ q.2 := by
      intro q hq hmem
      have hget : pyGet st.matching q.1 = some q.2 := pyGet_of_mem_nodup hmnd hq
      obtain ⟨rlx, hrlx, hhin, hmax⟩ :=
        inv.matched_last q.1 resident q.2 hget hmem
      rw [hrlget] at hrlx
      have hrlxe : rlx = rl := (Option.some.inj hrlx).symm
      rw [hrlxe] at hhin hmax
      have hqne : q.1 ≠ hospital := by
        intro hcon
        rw [hcon, hmlh] at hget
        exact hres_nmlh ((Option.some.inj hget) ▸ hmem)
      have hlt : pyIdx rl hospital < pyIdx rl q.1 :=
        hmax hospital hhosp_rl (fun hcon => hqne hcon.symm)
      have : q.1 ∈ rl.drop (pyIdx rl hospital + 1) :=
        (hsuccs_iff q.1).mpr ⟨hhin, hlt⟩
      rw [hempeq] at this
      exact absurd this (List.not_mem_nil _)
    have hm2get' : ∀ h, pyGet (pySet (st.matching.map (fun p =>
        if resident ∈ p.2 then (p.1, pyErase p.2 resident) else p)) hospital
        (mlh ++ [resident])) h =
        if h = hospital then some (mlh ++ [resident])
        else pyGet st.matching h := by
      intro h
      rw [hm2get h]
      by_cases hh : h = hospital
      · rw [if_pos hh, if_pos hh]
      · rw [if_neg hh, if_neg hh]
        cases hget : pyGet st.matching h
        · rfl
        · rw [Option.map_some']
          rw [if_neg (hfree _ (pyGet_mem hget))]
    refine ⟨HRState.mk st.hprefs st.rprefs
      (pySet (st.matching.map (fun p => if resident ∈ p.2
        then (p.1, pyErase p.2 resident) else p)) hospital
        (mlh ++ [resident])), ?_, ?_, ?_⟩
    · unfold hrHOStep
      simp only [hfrees, hhl, hmlh, hres, hm1hosp, hrlget, hidx,
        Option.bind_eq_bind, Option.some_bind, Option.pure_def]
      rw [if_pos hemp]
    · have hmem0 : ∀ y, y ∈ rl ↔ y ∈ rl ∧
          y ∉ rl.drop (pyIdx rl hospital + 1) :=
        fun y => by simp [hempeq]
      have hppt0 : ∀ x, pyGet st.hprefs x =
          if x ∈ rl.drop (pyIdx rl hospital + 1)
          then (pyGet st.hprefs x).map (fun hlx => pyErase hlx resident)
          else pyGet st.hprefs x :=
        fun x => by rw [hempeq, if_neg (List.not_mem_nil x)]
      have hcore := hrHOInv_core hc inv hhl hmlh hrlget hhosp_rl hml2take
        hsuccs_iff hmem0 (List.Sublist.refl rl) hppt0 rfl hm2get hm2keys
      rw [pySet_self hrlget] at hcore
      exact hcore
    · show listTotal st.hprefs + listTotal st.rprefs +
        ((st.rprefs.map (·.1)).filter (fun r => !matchedB
          (pySet (st.matching.map (fun p => if resident ∈ p.2
            then (p.1, pyErase p.2 resident) else p)) hospital
            (mlh ++ [resident])) r)).length <
        listTotal st.hprefs + listTotal st.rprefs +
        ((st.rprefs.map (·.1)).filter (fun r => !matchedB st.matching r)).length
      have hcount := hrCount_strict hm2get' hmlh hmnd hm2keys
        (fun r hr => by rw [List.mem_append]; exact Or.inl hr)
        (by rw [List.mem_append, List.mem_singleton]; exact Or.inr rfl)
        hKcount hfree
      omega

/-- The initial state of `hr_hospital_optimal` satisfies the loop invariants. -/
theorem hrHOInit_inv {hp0 rp0 : PrefMap} {caps : CapMap}
    (hc : HRConsistent hp0 rp0 caps) : HRInvH hp0 rp0 (hrInit hp0 rp0) := by
  have hmget : ∀ h ml, pyGet (hrInit hp0 rp0).matching h = some ml → ml = [] := by
    intro h ml hml
    rw [hrInit_matching_get] at hml
    cases hh : pyGet hp0 h <;> rw [hh] at hml <;> simp at hml
    exact hml
  refine ⟨rfl, rfl, ?_, prefsLE_refl _, prefsLE_refl _, hc.mcInit, ?_, ?_, ?_⟩
  · show (hp0.map (fun p => (p.1, ([] : List Player)))).map (·.1) = hp0.map (·.1)
    rw [List.map_map]
    rfl
  · intro h ml hml
    have hkey : h ∈ (hrInit hp0 rp0).matching.map (·.1) := pyGet_key hml
    have hkey2 : h ∈ hp0.map (·.1) := by
      rw [show (hrInit hp0 rp0).matching.map (·.1) = hp0.map (·.1) by
        show (hp0.map (fun p => (p.1, ([] : List Player)))).map (·.1) = hp0.map (·.1)
        rw [List.map_map]
        rfl] at hkey
      exact hkey
    obtain ⟨hl, hhl⟩ := pyGet_of_key hkey2
    refine ⟨hl, hhl, ?_⟩
    rw [hmget h ml hml]
    rfl
  · intro h1 h2 ml1 ml2 r hg1 _ hr1 _
    rw [hmget h1 ml1 hg1] at hr1
    exact absurd hr1 (List.not_mem_nil r)
  · intro h r ml hml hrml
    rw [hmget h ml hml] at hrml
    exact absurd hrml (List.not_mem_nil r)

/-- With fuel at least the measure, the `hr_hospital_optimal` loop reaches a
state with no free hospitals, and the invariants hold there. -/
theorem hrHOLoop_spec {hp0 rp0 : PrefMap} {caps : CapMap} :
    ∀ (fuel : Nat) {st : HRState}, HRConsistent hp0 rp0 caps →
    HRInvH hp0 rp0 st → hrMeasure st ≤ fuel →
    ∃ st', hrHOLoop caps fuel st = some st' ∧ HRInvH hp0 rp0 st' := by
  intro fuel
  induction fuel with
  | zero =>
    intro st hc inv hm
    have hpre : ∀ p ∈ st.hprefs, (∃ ml, pyGet st.matching p.1 = some ml) ∧
        ∃ c, pyGet caps p.1 = some c := by
      intro p hp2
      constructor
      · apply pyGet_of_key
        rw [inv.mkeys, ← inv.hkeys]
        exact List.mem_map_of_mem _ hp2
      · obtain ⟨c, hcget, _⟩ := hc.capskeys p.1 (by
          rw [← inv.hkeys]
          exact List.mem_map_of_mem _ hp2)
        exact ⟨c, hcget⟩
    obtain ⟨frees, hfrees⟩ := getFreeHospitals_isSome hpre
    cases hfr : frees with
    | nil =>
      refine ⟨st, ?_, inv⟩
      rw [hrHOLoop]
      rw [hfr] at hfrees
      simp only [hfrees, Option.bind_eq_bind, Option.some_bind]
      rfl
    | cons hospital frtail =>
      rw [hfr] at hfrees
      obtain ⟨st', _, _, hlt⟩ := hrHOStep_spec hc inv hfrees
      omega
  | succ n ih =>
    intro st hc inv hm
    have hpre : ∀ p ∈ st.hprefs, (∃ ml, pyGet st.matching p.1 = some ml) ∧
        ∃ c, pyGet caps p.1 = some c := by
      intro p hp2
      constructor
      · apply pyGet_of_key
        rw [inv.mkeys, ← inv.hkeys]
        exact List.mem_map_of_mem _ hp2
      · obtain ⟨c, hcget, _⟩ := hc.capskeys p.1 (by
          rw [← inv.hkeys]
          exact List.mem_map_of_mem _ hp2)
        exact ⟨c, hcget⟩
    obtain ⟨frees, hfrees⟩ := getFreeHospitals_isSome hpre
    cases hfr : frees with
    | nil =>
      refine ⟨st, ?_, inv⟩
      rw [hrHOLoop]
      rw [hfr] at hfrees
      simp only [hfrees, Option.bind_eq_bind, Option.some_bind]
      rfl
    | cons hospital frtail =>
      rw [hfr] at hfrees
      obtain ⟨st1, hstep, inv1, hlt⟩ := hrHOStep_spec hc inv hfrees
      obtain ⟨st', hrun, inv'⟩ := ih hc inv1 (by omega)
      refine ⟨st', ?_, inv'⟩
      rw [hrHOLoop]
      simp only [hfrees, Option.bind_eq_bind, Option.some_bind]
      rw [if_neg (by simp)]
      simp only [hstep, Option.bind_eq_bind, Option.some_bind]
      exact hrun

/-- On a consistent instance, `hr_hospital_optimal` succeeds given enough
fuel, keeps the hospital keys, and returns every hospital's sequence sorted
ascending by that hospital's original preference rank, without any final
sort. -/
theorem hr_hospital_optimal_spec {hp0 rp0 : PrefMap} {caps : CapMap}
    {fuel : Nat} (hc : HRConsistent hp0 rp0 caps)
    (hfuel : hrMeasure (hrInit hp0 rp0) ≤ fuel) :
    ∃ M, hr_hospital_optimal hp0 rp0 caps fuel = some M ∧
      M.map (·.1) = hp0.map (·.1) ∧
      ∀ h ml, pyGet M h = some ml → ∃ hl0, pyGet hp0 h = some hl0 ∧
        sortedByRank hl0 ml := by
  obtain ⟨st', hrun, inv'⟩ := hrHOLoop_spec fuel hc (hrHOInit_inv hc) hfuel
  refine ⟨st'.matching, ?_, inv'.mkeys, ?_⟩
  · unfold hr_hospital_optimal
    rw [hrun, Option.map_some']
  · intro h ml hml
    obtain ⟨hl, hhl, htake⟩ := inv'.matched_take h ml hml
    obtain ⟨hl0, hhl0, hsub⟩ := inv'.hsub h hl hhl
    have hl0nd : hl0.Nodup := (hc.hlists _ (pyGet_mem hhl0)).1
    refine ⟨hl0, hhl0, ?_⟩
    have hmlsub : ml.Sublist hl0 := by
      rw [htake]
      exact (List.take_sublist _ _).trans hsub
    exact pairwise_pyIdx_of_sublist hmlsub hl0nd

/-- Invariant propagation along any successful `hr_resident_optimal` loop
run, regardless of the fuel supplied. -/
theorem hrROLoop_inv {hp0 rp0 : PrefMap} {caps : CapMap}
    (hc : HRConsistent hp0 rp0 caps) :
    ∀ (fuel : Nat) {st st' : HRState}, HRInvR hp0 rp0 caps st →
    hrROLoop caps fuel st = some st' → HRInvR hp0 rp0 caps st' := by
  intro fuel
  induction fuel with
  | zero =>
    intro st st' inv h
    rw [hrROLoop] at h
    by_cases hemp : (getFreeResidents st.rprefs st.matching).isEmpty
    · rw [if_pos hemp] at h
      exact (Option.some.inj h) ▸ inv
    · rw [if_neg hemp] at h
      exact Option.noConfusion h
  | succ n ih =>
    intro st st' inv h
    rw [hrROLoop] at h
    by_cases hemp : (getFreeResidents st.rprefs st.matching).isEmpty
    · rw [if_pos hemp] at h
      exact (Option.some.inj h) ▸ inv
    · rw [if_neg hemp] at h
      simp only [Option.bind_eq_bind, Option.bind_eq_some] at h
      obtain ⟨st1, hstep, hrun⟩ := h
      have hne : getFreeResidents st.rprefs st.matching ≠ [] := by
        intro hcon
        exact hemp (by rw [hcon]; rfl)
      obtain ⟨st1', hstep', inv1, _⟩ := hrROStep_spec hc inv hne
      have he : st1' = st1 := Option.some.inj (hstep'.symm.trans hstep)
      exact ih (he ▸ inv1) hrun

/-- Invariant propagation along any successful `hr_hospital_optimal` loop
run, regardless of the fuel supplied. -/
theorem hrHOLoop_inv {hp0 rp0 : PrefMap} {caps : CapMap}
    (hc : HRConsistent hp0 rp0 caps) :
    ∀ (fuel : Nat) {st st' : HRState}, HRInvH hp0 rp0 st →
    hrHOLoop caps fuel st = some st' → HRInvH hp0 rp0 st' := by
  intro fuel
  induction fuel with
  | zero =>
    intro st st' inv h
    rw [hrHOLoop] at h
    simp only [Option.bind_eq_bind, Option.bind_eq_some] at h
    obtain ⟨frees, hfrees, h2⟩ := h
    by_cases hemp : frees.isEmpty
    · rw [if_pos hemp] at h2
      exact (Option.some.inj h2) ▸ inv
    · rw [if_neg hemp] at h2
      exact Option.noConfusion h2
  | succ n ih =>
    intro st st' inv h
    rw [hrHOLoop] at h
    simp only [Option.bind_eq_bind, Option.bind_eq_some] at h
    obtain ⟨frees, hfrees, h2⟩ := h
    by_cases hemp : frees.isEmpty
    · rw [if_pos hemp] at h2
      exact (Option.some.inj h2) ▸ inv
    · rw [if_neg hemp] at h2
      simp only [Option.bind_eq_bind, Option.bind_eq_some] at h2
      obtain ⟨st1, hstep, hrun⟩ := h2
      have hne : frees ≠ [] := by
        intro hcon
        exact hemp (by rw [hcon]; rfl)
      obtain ⟨hospital, frtail, hfr⟩ := List.exists_cons_of_ne_nil hne
      rw [hfr] at hfrees
      obtain ⟨st1', hstep', inv1, _⟩ := hrHOStep_spec hc inv hfrees
      have he : st1' = st1 := Option.some.inj (hstep'.symm.trans hstep)
      exact ih (he ▸ inv1) hrun

/-- Under the `hr_resident_optimal` invariants, the final per-hospital sort
produces sequences sorted ascending by original preference rank. -/
theorem hrRO_sorted_of_inv {hp0 rp0 : PrefMap} {caps : CapMap} {st' : HRState}
    (hc : HRConsistent hp0 rp0 caps) (inv' : HRInvR hp0 rp0 caps st')
    {M : List (Player × List Player)}
    (hM : hrSortMatching st'.hprefs st'.matching = some M) :
    ∀ h ml, pyGet M h = some ml → ∃ hl0, pyGet hp0 h = some hl0 ∧
      sortedByRank hl0 ml := by
  intro h ml hml
  obtain ⟨mlp, hl, hmlp, hhl, hall, hmle⟩ := hrSortMatching_spec hM h ml hml
  obtain ⟨hl0, hhl0, hsubhl⟩ := inv'.hsub h hl hhl
  have hl0nd : hl0.Nodup := (hc.hlists _ (pyGet_mem hhl0)).1
  have hlnd : hl.Nodup := hsubhl.nodup hl0nd
  have hmlpnd : mlp.Nodup := inv'.matched_nodup h mlp hmlp
  have hperm : ml.Perm mlp := hmle ▸ sortByKey_perm _ mlp
  have hmlnd : ml.Nodup := hperm.nodup_iff.mpr hmlpnd
  have hmlhl : ∀ r ∈ ml, r ∈ hl := fun r hr => hall r (hperm.subset hr)
  have hle : ml.Pairwise (fun a b => pyIdx hl a ≤ pyIdx hl b) :=
    hmle ▸ pairwise_sortByKey _ mlp
  have hltp : ml.Pairwise (fun a b => pyIdx hl a < pyIdx hl b) :=
    pairwise_lt_of_le hle hmlnd
      (fun a ha b hb he => pyIdx_inj (hmlhl a ha) (hmlhl b hb) he)
  refine ⟨hl0, hhl0, ?_⟩
  refine List.Pairwise.imp_of_mem ?_ hltp
  intro a b ha hb hab
  exact sublist_pyIdx_lt hsubhl hl0nd (hmlhl a ha) (hmlhl b hb)
    ((sublist_pyIdx_iff (List.Sublist.refl hl) hlnd (hmlhl a ha)
      (hmlhl b hb)).mpr hab)

/-- Under the `hr_hospital_optimal` invariants, each hospital's sequence is
already sorted ascending by original preference rank. -/
theorem hrHO_sorted_of_inv {hp0 rp0 : PrefMap} {caps : CapMap} {st' : HRState}
    (hc : HRConsistent hp0 rp0 caps) (inv' : HRInvH hp0 rp0 st') :
    ∀ h ml, pyGet st'.matching h = some ml → ∃ hl0, pyGet hp0 h = some hl0 ∧
      sortedByRank hl0 ml := by
  intro h ml hml
  obtain ⟨hl, hhl, htake⟩ := inv'.matched_take h ml hml
  obtain ⟨hl0, hhl0, hsub⟩ := inv'.hsub h hl hhl
  have hl0nd : hl0.Nodup := (hc.hlists _ (pyGet_mem hhl0)).1
  refine ⟨hl0, hhl0, ?_⟩
  have hmlsub : ml.Sublist hl0 := by
    rw [htake]
    exact (List.take_sublist _ _).trans hsub
  exact pairwise_pyIdx_of_sublist hmlsub hl0nd

/-- Builds `HRConsistent` from decidable, list-bounded checks. -/
theorem HRConsistent_mk {hp rp : PrefMap} {caps : CapMap}
    (h1 : (hp.map (·.1)).Nodup) (h2 : (rp.map (·.1)).Nodup)
    (h3 : ∀ p ∈ hp, p.2.Nodup ∧ ∀ x ∈ p.2, x ∈ rp.map (·.1))
    (h4 : ∀ p ∈ rp, p.2.Nodup ∧ ∀ x ∈ p.2, x ∈ hp.map (·.1))
    (h5 : ∀ p ∈ hp, ∀ q ∈ rp, (q.1 ∈ p.2 ↔ p.1 ∈ q.2))
    (h6 : ∀ h ∈ hp.map (·.1), 1 ≤ (pyGet caps h).getD 0) :
    HRConsistent hp rp caps := by
  refine ⟨h1, h2, h3, h4, ?_, ?_⟩
  · intro h r hl rl hhl hrl
    exact h5 (h, hl) (pyGet_mem hhl) (r, rl) (pyGet_mem hrl)
  · intro h hh
    have := h6 h hh
    cases hget : pyGet caps h with
    | none =>
      rw [hget] at this
      simp at this
    | some c =>
      rw [hget] at this
      exact ⟨c, rfl, by simpa using this⟩

/-- Builds `hrKeysOK` from a decidable, list-bounded check. -/
theorem hrKeysOK_mk {hp rp : PrefMap}
    (h : ∀ p ∈ rp, ∀ x ∈ p.2, (pyGet hp x).isSome = true) : hrKeysOK hp rp := by
  intro p hp2 x hx
  have := h p hp2 x hx
  cases hget : pyGet hp x with
  | none =>
    rw [hget] at this
    exact Bool.noConfusion this
  | some hl => exact ⟨hl, rfl⟩

/-! ## Key preservation: no dict key is ever added or removed -/

theorem smStep_keys {st st' : SMState} (h : smStep st = some st') :
    st'.sprefs.map (·.1) = st.sprefs.map (·.1) ∧
    st'.rprefs.map (·.1) = st.rprefs.map (·.1) := by
  unfold smStep at h
  cases hq : st.queue with
  | nil =>
    rw [hq] at h
    exact Option.noConfusion h
  | cons suitor rest =>
    rw [hq] at h
    simp only [Option.bind_eq_bind, Option.bind_eq_some] at h
    obtain ⟨sl, hsl, reviewer, hhead, h⟩ := h
    rcases hmq : (match findKeyOfValue st.matching reviewer with
      | some cp => (pySet st.matching cp none, rest ++ [cp])
      | none => (st.matching, rest)) with ⟨m1, q1⟩
    rw [hmq] at h
    obtain ⟨rl, hrl, idx, hidx, h⟩ := h
    obtain ⟨⟨rl', sp'⟩, hprune, h⟩ := h
    have hst' : st' = ⟨q1, sp', pySet st.rprefs reviewer rl',
        pySet m1 suitor (some reviewer)⟩ := by
      have := Option.some.inj h
      exact this.symm
    obtain ⟨_, _, hkeys, _⟩ := pruneSuccessors_shrink hprune
    subst hst'
    exact ⟨hkeys, pySet_map_fst _ _ _⟩

theorem smRunState_keys {n : Nat} {st st' : SMState}
    (h : smRunState n st = some st') :
    st'.sprefs.map (·.1) = st.sprefs.map (·.1) ∧
    st'.rprefs.map (·.1) = st.rprefs.map (·.1) := by
  induction n generalizing st with
  | zero =>
    rw [smRunState] at h
    by_cases hemp : st.queue.isEmpty
    · rw [if_pos hemp] at h
      have := Option.some.inj h
      subst this
      exact ⟨rfl, rfl⟩
    · rw [if_neg hemp] at h
      exact Option.noConfusion h
  | succ n ih =>
    rw [smRunState] at h
    by_cases hemp : st.queue.isEmpty
    · rw [if_pos hemp] at h
      have := Option.some.inj h
      subst this
      exact ⟨rfl, rfl⟩
    · rw [if_neg hemp] at h
      simp only [Option.bind_eq_bind, Option.bind_eq_some] at h
      obtain ⟨st1, hstep, hrun⟩ := h
      obtain ⟨h1, h2⟩ := smStep_keys hstep
      obtain ⟨h3, h4⟩ := ih hrun
      exact ⟨h3.trans h1, h4.trans h2⟩

theorem hrROStep_keys {caps : CapMap} {st st' : HRState}
    (h : hrROStep caps st = some st') :
    st'.hprefs.map (·.1) = st.hprefs.map (·.1) ∧
    st'.rprefs.map (·.1) = st.rprefs.map (·.1) := by
  unfold hrROStep at h
  cases hfree : getFreeResidents st.rprefs st.matching with
  | nil =>
    rw [hfree] at h
    exact Option.noConfusion h
  | cons resident frees =>
    rw [hfree] at h
    simp only [Option.bind_eq_bind, Option.bind_eq_some] at h
    obtain ⟨rl, hrl, hospital, hhead, ml0, hml0, cap, hcap, m2, hm2, ml2,
      hml2, h⟩ := h
    by_cases hcapeq : ml2.length = cap
    · rw [if_pos hcapeq] at h
      simp only [Option.bind_eq_bind, Option.bind_eq_some] at h
      obtain ⟨worst2, hworst2, hl2, hhl2, h⟩ := h
      by_cases hempty : (hl2.drop (worst2 + 1)).isEmpty
      · rw [if_pos hempty] at h
        have := Option.some.inj h
        rw [← this]
        exact ⟨rfl, rfl⟩
      · rw [if_neg hempty] at h
        simp only [Option.bind_eq_bind, Option.bind_eq_some] at h
        obtain ⟨⟨hl', rp'⟩, hprune, h⟩ := h
        have := Option.some.inj h
        rw [← this]
        obtain ⟨_, _, hkeys, _⟩ := hrPrune_shrink hprune
        exact ⟨pySet_map_fst _ _ _, hkeys⟩
    · rw [if_neg hcapeq] at h
      have := Option.some.inj h
      rw [← this]
      exact ⟨rfl, rfl⟩

theorem hrHOStep_keys {caps : CapMap} {st st' : HRState}
    (h : hrHOStep caps st = some st') :
    st'.hprefs.map (·.1) = st.hprefs.map (·.1) ∧
    st'.rprefs.map (·.1) = st.rprefs.map (·.1) := by
  unfold hrHOStep at h
  simp only [Option.bind_eq_bind, Option.bind_eq_some] at h
  obtain ⟨frees, hfrees, h⟩ := h
  cases hfr : frees with
  | nil =>
    rw [hfr] at h
    exact Option.noConfusion h
  | cons hospital rest =>
    rw [hfr] at h
    simp only [Option.bind_eq_bind, Option.bind_eq_some] at h
    obtain ⟨hl, hhl, mlh, hmlh, resident, hres, mlh1, hmlh1x, rl, hrl, idx,
      hidx, h⟩ := h
    by_cases hempty : (rl.drop (idx + 1)).isEmpty
    · rw [if_pos hempty] at h
      have := Option.some.inj h
      rw [← this]
      exact ⟨rfl, rfl⟩
    · rw [if_neg hempty] at h
      simp only [Option.bind_eq_bind, Option.bind_eq_some] at h
      obtain ⟨⟨rl', hp'⟩, hprune, h⟩ := h
      have := Option.some.inj h
      rw [← this]
      obtain ⟨_, _, hkeys, _, _⟩ := hoPrune_shrink hprune
      exact ⟨hkeys, pySet_map_fst _ _ _⟩

theorem hrROLoop_keys {caps : CapMap} {n : Nat} {st st' : HRState}
    (h : hrROLoop caps n st = some st') :
    st'.hprefs.map (·.1) = st.hprefs.map (·.1) ∧
    st'.rprefs.map (·.1) = st.rprefs.map (·.1) := by
  induction n generalizing st with
  | zero =>
    rw [hrROLoop] at h
    by_cases hemp : (getFreeResidents st.rprefs st.matching).isEmpty
    · rw [if_pos hemp] at h
      have := Option.some.inj h
      subst this
      exact ⟨rfl, rfl⟩
    · rw [if_neg hemp] at h
      exact Option.noConfusion h
  | succ n ih =>
    rw [hrROLoop] at h
    by_cases hemp : (getFreeResidents st.rprefs st.matching).isEmpty
    · rw [if_pos hemp] at h
      have := Option.some.inj h
      subst this
      exact ⟨rfl, rfl⟩
    · rw [if_neg hemp] at h
      simp only [Option.bind_eq_bind, Option.bind_eq_some] at h
      obtain ⟨st1, hstep, hrun⟩ := h
      obtain ⟨h1, h2⟩ := hrROStep_keys hstep
      obtain ⟨h3, h4⟩ := ih hrun
      exact ⟨h3.trans h1, h4.trans h2⟩

theorem hrHOLoop_keys {caps : CapMap} {n : Nat} {st st' : HRState}
    (h : hrHOLoop caps n st = some st') :
    st'.hprefs.map (·.1) = st.hprefs.map (·.1) ∧
    st'.rprefs.map (·.1) = st.rprefs.map (·.1) := by
  induction n generalizing st with
  | zero =>
    rw [hrHOLoop] at h
    simp only [Option.bind_eq_bind, Option.bind_eq_some] at h
    obtain ⟨frees, hfrees, h⟩ := h
    by_cases hemp : frees.isEmpty
    · rw [if_pos hemp] at h
      have := Option.some.inj h
      subst this
      exact ⟨rfl, rfl⟩
    · rw [if_neg hemp] at h
      exact Option.noConfusion h
  | succ n ih =>
    rw [hrHOLoop] at h
    simp only [Option.bind_eq_bind, Option.bind_eq_some] at h
    obtain ⟨frees, hfrees, h⟩ := h
    by_cases hemp : frees.isEmpty
    · rw [if_pos hemp] at h
      have := Option.some.inj h
      subst this
      exact ⟨rfl, rfl⟩
    · rw [if_neg hemp] at h
      simp only [Option.bind_eq_bind, Option.bind_eq_some] at h
      obtain ⟨st1, hstep, hrun⟩ := h
      obtain ⟨h1, h2⟩ := hrHOStep_keys hstep
      obtain ⟨h3, h4⟩ := ih hrun
      exact ⟨h3.trans h1, h4.trans h2⟩

/-! ## The claims -/

/-- C1: for every SM instance with complete strict preference lists over
equal-sized sides, the matching returned by `stable_marriage` (either
optimal value) contains no blocking pair with respect to the oriented
original preference dicts. -/
theorem stable_marriage_no_blocking_pair {sp rp : PrefMap} {optimal : String}
    {fuel : Nat} {M : List (Player × Option Player)}
    (hc : SMComplete sp rp)
    (hM : stable_marriage sp rp optimal fuel = some M) :
    ∀ s r, ¬ smBlockingPair (if optimal == "reviewer" then rp else sp)
      (if optimal == "reviewer" then sp else rp) M s r := by
  rw [stable_marriage_eq_run] at hM
  by_cases hopt : (optimal == "reviewer") = true
  · rw [if_pos hopt] at hM
    rw [if_pos hopt, if_pos hopt]
    obtain ⟨st', hrun, hMe⟩ := Option.map_eq_some'.mp hM
    obtain ⟨inv', _⟩ := smRun_inv (SMComplete_symm hc) fuel (smInit rp sp) st'
      (smInit_inv (SMComplete_symm hc)) hrun
    intro s r
    rw [← hMe]
    exact final_no_blocking (SMComplete_symm hc) inv' s r
  · rw [if_neg hopt] at hM
    rw [if_neg hopt, if_neg hopt]
    obtain ⟨st', hrun, hMe⟩ := Option.map_eq_some'.mp hM
    obtain ⟨inv', _⟩ := smRun_inv hc fuel (smInit sp rp) st'
      (smInit_inv hc) hrun
    intro s r
    rw [← hMe]
    exact final_no_blocking hc inv' s r

theorem stable_marriage_no_blocking_pair_witness :
    ¬ smBlockingPair exSp exRp exM 1 4 :=
  stable_marriage_no_blocking_pair
    ⟨by decide, by decide, by decide, by decide, by decide⟩
    (rfl : stable_marriage exSp exRp "suitor" 20 = some exM) 1 4

/-- C2: along every run of both HR solvers, every intermediate state
(reached by any number of loop iterations from the initial state) keeps
each hospital's match sequence within its capacity. -/
theorem hr_capacity_invariant {hp rp : PrefMap} {caps : CapMap} (n : Nat)
    {st : HRState}
    (h : iterOpt (hrROStep caps) n (hrInit hp rp) = some st ∨
      iterOpt (hrHOStep caps) n (hrInit hp rp) = some st) :
    capOK caps st.matching := by
  rcases h with h | h
  · have key : ∀ s s', capOK caps s.matching → hrROStep caps s = some s' →
        capOK caps s'.matching := fun s s' hP hstep => hrROStep_capOK hP hstep
    exact iterOpt_inv key n _ _ (hrInit_capOK hp rp caps) h
  · have key : ∀ s s', capOK caps s.matching → hrHOStep caps s = some s' →
        capOK caps s'.matching := fun s s' hP hstep => hrHOStep_capOK hP hstep
    exact iterOpt_inv key n _ _ (hrInit_capOK hp rp caps) h

theorem hr_capacity_invariant_witness :
    capOK exCaps4 (hrInit exHp4 exRp4).matching :=
  hr_capacity_invariant 0 (Or.inl rfl)

/-- C3: under the spec's preconditions all three solvers terminate — with
fuel equal to the termination measure every loop runs to completion — and
each loop iteration only ever shrinks the preference dicts (they are never
re-grown). -/
theorem solvers_terminate {sp rp hp hrp : PrefMap} {caps : CapMap}
    (optimal : String) (hsm : SMComplete sp rp)
    (hhr : HRConsistent hp hrp caps) :
    (∃ M, stable_marriage sp rp optimal
      (smMeasure (smInit sp rp) + smMeasure (smInit rp sp)) = some M) ∧
    (∃ M, hr_resident_optimal hp hrp caps (hrMeasure (hrInit hp hrp)) = some M) ∧
    (∃ M, hr_hospital_optimal hp hrp caps (hrMeasure (hrInit hp hrp)) = some M) ∧
    (∀ st st', smStep st = some st' →
      prefsLE st'.sprefs st.sprefs ∧ prefsLE st'.rprefs st.rprefs) ∧
    (∀ st st', hrROStep caps st = some st' →
      prefsLE st'.hprefs st.hprefs ∧ prefsLE st'.rprefs st.rprefs) ∧
    (∀ st st', hrHOStep caps st = some st' →
      prefsLE st'.hprefs st.hprefs ∧ prefsLE st'.rprefs st.rprefs) := by
  refine ⟨?_, ?_, ?_, fun st st' h => smStep_shrink h,
    fun st st' h => hrROStep_shrink h, fun st st' h => hrHOStep_shrink h⟩
  · rw [stable_marriage_eq_run]
    by_cases hopt : (optimal == "reviewer") = true
    · rw [if_pos hopt]
      obtain ⟨st', hrun⟩ := smRun_terminates (SMComplete_symm hsm) _ _
        (smInit_inv (SMComplete_symm hsm)) (Nat.le_add_left _ _)
      exact ⟨st'.matching, by rw [hrun]; rfl⟩
    · rw [if_neg hopt]
      obtain ⟨st', hrun⟩ := smRun_terminates hsm _ _
        (smInit_inv hsm) (Nat.le_add_right _ _)
      exact ⟨st'.matching, by rw [hrun]; rfl⟩
  · obtain ⟨M, hM, _, _, _⟩ := hr_resident_optimal_spec hhr (Nat.le_refl _)
    exact ⟨M, hM⟩
  · obtain ⟨M, hM, _, _⟩ := hr_hospital_optimal_spec hhr (Nat.le_refl _)
    exact ⟨M, hM⟩

theorem solvers_terminate_witness :
    (∃ M, stable_marriage exSp exRp "suitor" 24 = some M) ∧
    (∃ M, hr_resident_optimal exHp4 exRp4 exCaps4 13 = some M) := by
  have h := solvers_terminate "suitor"
    (⟨by decide, by decide, by decide, by decide, by decide⟩ :
      SMComplete exSp exRp)
    (HRConsistent_mk (by decide) (by decide) (by decide) (by decide)
      (by decide) (by decide) : HRConsistent exHp4 exRp4 exCaps4)
  exact ⟨h.1, h.2.1⟩

/-- C4 (amended): the solvers do not operate on private copies — the working
preference structures are the caller's dicts, pruned in place; what holds is
that after any run every preference list is a pointwise sublist of its
original value (lists only ever shrink), and the key sets of both dicts are
unchanged (no key is added or removed). -/
theorem prefs_shrink_in_place {sp rp hp hrp : PrefMap} {caps : CapMap} :
    (∀ fuel st', smRunState fuel (smInit sp rp) = some st' →
      (prefsLE st'.sprefs sp ∧ st'.sprefs.map (·.1) = sp.map (·.1)) ∧
      (prefsLE st'.rprefs rp ∧ st'.rprefs.map (·.1) = rp.map (·.1))) ∧
    (∀ fuel st', hrROLoop caps fuel (hrInit hp hrp) = some st' →
      (prefsLE st'.hprefs hp ∧ st'.hprefs.map (·.1) = hp.map (·.1)) ∧
      (prefsLE st'.rprefs hrp ∧ st'.rprefs.map (·.1) = hrp.map (·.1))) ∧
    (∀ fuel st', hrHOLoop caps fuel (hrInit hp hrp) = some st' →
      (prefsLE st'.hprefs hp ∧ st'.hprefs.map (·.1) = hp.map (·.1)) ∧
      (prefsLE st'.rprefs hrp ∧ st'.rprefs.map (·.1) = hrp.map (·.1))) :=
  ⟨fun _ _ h => ⟨⟨(smRunState_shrink h).1, (smRunState_keys h).1⟩,
    ⟨(smRunState_shrink h).2, (smRunState_keys h).2⟩⟩,
   fun _ _ h => ⟨⟨(hrROLoop_shrink h).1, (hrROLoop_keys h).1⟩,
    ⟨(hrROLoop_shrink h).2, (hrROLoop_keys h).2⟩⟩,
   fun _ _ h => ⟨⟨(hrHOLoop_shrink h).1, (hrHOLoop_keys h).1⟩,
    ⟨(hrHOLoop_shrink h).2, (hrHOLoop_keys h).2⟩⟩⟩

theorem prefs_mutated_counterexample :
    smRunState 20 (smInit exSp exRp) =
      some (SMState.mk [] [(1, [6]), (2, [4]), (3, [5])]
        [(4, [2]), (5, [3]), (6, [1])]
        [(1, some 6), (2, some 4), (3, some 5)]) ∧
    ([(1, [6]), (2, [4]), (3, [5])] : PrefMap) ≠ exSp ∧
    ([(4, [2]), (5, [3]), (6, [1])] : PrefMap) ≠ exRp :=
  ⟨rfl, by decide, by decide⟩

theorem prefs_shrink_in_place_witness :
    (prefsLE [(1, [6]), (2, [4]), (3, [5])] exSp ∧
      ([(1, [6]), (2, [4]), (3, [5])] : PrefMap).map (·.1) = exSp.map (·.1)) ∧
    (prefsLE [(4, [2]), (5, [3]), (6, [1])] exRp ∧
      ([(4, [2]), (5, [3]), (6, [1])] : PrefMap).map (·.1) = exRp.map (·.1)) := by
  have h := (@prefs_shrink_in_place exSp exRp exHp4 exRp4 exCaps4).1 20
    (SMState.mk [] [(1, [6]), (2, [4]), (3, [5])]
      [(4, [2]), (5, [3]), (6, [1])] [(1, some 6), (2, some 4), (3, some 5)])
    rfl
  exact h

/-- C5: the HR consistency check inspects only the resident-to-hospital
direction; on the repository's own `test_raises_extra_rank_error` instance,
where hospital Z (13) ranks resident A (1) who does not rank Z back, the
entry point returns a matching instead of the required consistency error. -/
theorem hr_check_misses_hospital_side :
    hospital_resident exHp2 exRp2 exCaps2 "resident" 20 =
      some (Except.ok [(11, [4]), (12, [1, 2]), (13, [3])]) ∧
    ∃ p ∈ exHp2, ∃ r ∈ p.2, ∃ rlx, pyGet exRp2 r = some rlx ∧ p.1 ∉ rlx := by
  constructor
  · rfl
  · exact ⟨(13, [3, 4, 1]), by decide, 1, by decide, [12], rfl, by decide⟩

/-- C6 (amended): `hospital_resident` rejects an unrecognized `optimal`
value with the invalid-optimality error (after the consistency check
passes), but `stable_marriage` performs no such validation — any value
other than "reviewer" is silently treated as "suitor". -/
theorem invalid_optimal_rejected_only_in_hr {hp rp : PrefMap} {caps : CapMap}
    {optimal : String} {fuel : Nat}
    (hok : checkInputs hp rp = some true)
    (h1 : (optimal == "resident") = false)
    (h2 : (optimal == "hospital") = false) :
    hospital_resident hp rp caps optimal fuel =
      some (Except.error HRError.invalidOptimality) ∧
    ∀ sp rp2 : PrefMap, (optimal == "reviewer") = false →
      stable_marriage sp rp2 optimal fuel =
        stable_marriage sp rp2 "suitor" fuel := by
  refine ⟨hospital_resident_of_badOptimal hok h1 h2, ?_⟩
  intro sp rp2 h3
  rw [stable_marriage_eq_run, stable_marriage_eq_run, h3]
  rfl

theorem stable_marriage_ignores_bad_optimal :
    stable_marriage exSp exRp "banana" 20 = some exM := rfl

theorem invalid_optimal_rejected_only_in_hr_witness :
    hospital_resident exHp4 exRp4 exCaps4 "banana" 20 =
      some (Except.error HRError.invalidOptimality) ∧
    stable_marriage exSp exRp "banana" 20 =
      stable_marriage exSp exRp "suitor" 20 := by
  have h := @invalid_optimal_rejected_only_in_hr exHp4 exRp4 exCaps4
    "banana" 20 rfl rfl rfl
  exact ⟨h.1, h.2 exSp exRp rfl⟩

/-- C7: in both HR variants, every hospital's sequence in any returned
matching is sorted ascending by that hospital's original preference rank —
`hr_resident_optimal` by its final sort, `hr_hospital_optimal` without one. -/
theorem hr_matchings_sorted {hp rp : PrefMap} {caps : CapMap}
    (hc : HRConsistent hp rp caps) :
    (∀ fuel M, hr_resident_optimal hp rp caps fuel = some M →
      ∀ h ml, pyGet M h = some ml →
        ∃ hl0, pyGet hp h = some hl0 ∧ sortedByRank hl0 ml) ∧
    (∀ fuel M, hr_hospital_optimal hp rp caps fuel = some M →
      ∀ h ml, pyGet M h = some ml →
        ∃ hl0, pyGet hp h = some hl0 ∧ sortedByRank hl0 ml) := by
  constructor
  · intro fuel M hM
    unfold hr_resident_optimal at hM
    simp only [Option.bind_eq_bind, Option.bind_eq_some] at hM
    obtain ⟨st', hrun, hsort⟩ := hM
    have inv' := hrROLoop_inv hc fuel (hrROInit_inv hc) hrun
    exact hrRO_sorted_of_inv hc inv' hsort
  · intro fuel M hM
    unfold hr_hospital_optimal at hM
    obtain ⟨st', hrun, hMe⟩ := Option.map_eq_some'.mp hM
    have inv' := hrHOLoop_inv hc fuel (hrHOInit_inv hc) hrun
    intro h ml hml
    rw [← hMe] at hml
    exact hrHO_sorted_of_inv hc inv' h ml hml

theorem hr_matchings_sorted_witness :
    ∃ hl0, pyGet exHp4 11 = some hl0 ∧ sortedByRank hl0 [1, 3] :=
  (hr_matchings_sorted (HRConsistent_mk (by decide) (by decide) (by decide)
    (by decide) (by decide) (by decide) : HRConsistent exHp4 exRp4 exCaps4)).1
    20 [(11, [1, 3]), (12, [2])] rfl 11 [1, 3] rfl

/-- C8: calling `stable_marriage` with optimal = "reviewer" on (A, B)
returns exactly the matching of optimal = "suitor" on the swapped
arguments (B, A). -/
theorem stable_marriage_reviewer_is_swapped_suitor (A B : PrefMap)
    (fuel : Nat) :
    stable_marriage A B "reviewer" fuel = stable_marriage B A "suitor" fuel := by
  rw [stable_marriage_eq_run, stable_marriage_eq_run]
  rfl

/-- C9: for every SM instance with complete strict preference lists of
equal-sized sides, the returned matching is a bijection between the two
(oriented) sides: the keys are exactly the proposing side, no `none`
remains, and the values enumerate the other side without repetition. -/
theorem stable_marriage_bijection {sp rp : PrefMap} {optimal : String}
    {fuel : Nat} {M : List (Player × Option Player)}
    (hc : SMComplete sp rp)
    (hM : stable_marriage sp rp optimal fuel = some M) :
    M.map (·.1) = (if optimal == "reviewer" then rp else sp).map (·.1) ∧
    (∀ p ∈ M, p.2 ≠ none) ∧ (M.filterMap (·.2)).Nodup ∧
    (∀ r, r ∈ M.filterMap (·.2) ↔
      r ∈ (if optimal == "reviewer" then sp else rp).map (·.1)) := by
  rw [stable_marriage_eq_run] at hM
  by_cases hopt : (optimal == "reviewer") = true
  · rw [if_pos hopt] at hM
    rw [if_pos hopt, if_pos hopt]
    obtain ⟨st', hrun, hMe⟩ := Option.map_eq_some'.mp hM
    obtain ⟨inv', hq⟩ := smRun_inv (SMComplete_symm hc) fuel (smInit rp sp) st'
      (smInit_inv (SMComplete_symm hc)) hrun
    rw [← hMe]
    exact final_bijection (SMComplete_symm hc) inv' hq
  · rw [if_neg hopt] at hM
    rw [if_neg hopt, if_neg hopt]
    obtain ⟨st', hrun, hMe⟩ := Option.map_eq_some'.mp hM
    obtain ⟨inv', hq⟩ := smRun_inv hc fuel (smInit sp rp) st'
      (smInit_inv hc) hrun
    rw [← hMe]
    exact final_bijection hc inv' hq

theorem stable_marriage_bijection_witness :
    exM.map (·.1) = exSp.map (·.1) ∧ (∀ p ∈ exM, p.2 ≠ none) ∧
    (exM.filterMap (·.2)).Nodup ∧
    (∀ r, r ∈ exM.filterMap (·.2) ↔ r ∈ exRp.map (·.1)) :=
  stable_marriage_bijection
    ⟨by decide, by decide, by decide, by decide, by decide⟩
    (rfl : stable_marriage exSp exRp "suitor" 20 = some exM)

/-- C10 (amended): in `hospital_resident` the consistency check runs before
the `optimal` selector is validated, but only for the violations the check
detects — a resident ranking a hospital that does not rank them back (with
every named hospital a key of the hospital dict): such an input raises the
consistency error for every `optimal` value, recognized or not.  An input
whose only violation is on the hospital side passes the check and falls
through to the `optimal` validation instead. -/
theorem hr_check_precedes_optimal_validation {hp rp : PrefMap}
    {caps : CapMap} {optimal : String} {fuel : Nat}
    (hkeys : hrKeysOK hp rp) (hviol : hrViolation hp rp) :
    hospital_resident hp rp caps optimal fuel =
      some (Except.error HRError.inputConsistency) :=
  hospital_resident_of_checkFalse (checkInputs_false hkeys hviol)

theorem hr_hospital_side_violation_not_rejected :
    hospital_resident exHp2 exRp2 exCaps2 "banana" 20 =
      some (Except.error HRError.invalidOptimality) ∧
    ∃ p ∈ exHp2, ∃ r ∈ p.2, ∃ rlx, pyGet exRp2 r = some rlx ∧ p.1 ∉ rlx :=
  ⟨rfl, ⟨(13, [3, 4, 1]), by decide, 1, by decide, [12], rfl, by decide⟩⟩

theorem hr_check_precedes_optimal_validation_witness :
    hospital_resident exHpBad exRpBad exCaps4 "banana" 20 =
      some (Except.error HRError.inputConsistency) :=
  hr_check_precedes_optimal_validation
    (hrKeysOK_mk (by decide))
    ⟨(1, [11, 12]), by decide, 11, by decide, [2], rfl, by decide⟩
